import Mathlib

set_option maxRecDepth 100000

/-!
Verification of the block model, the archetype template generator, the
transformation engine and the renderer of the `elm-spa-migrate` tool.
All definitions are shallow embeddings of the corresponding Rust items in
`src/main.rs`; strings are modelled as lists of characters.
-/

/-- Strings are modelled as lists of characters. -/
abbrev Str := List Char

/-- Unicode white-space classification used by the source's `trim_end`,
`trim` and `split_whitespace` string operations (`char::is_whitespace`). -/
def isWsChar (c : Char) : Bool :=
  let n := c.toNat
  n == 0x20 || n == 0x09 || n == 0x0A || n == 0x0B || n == 0x0C || n == 0x0D ||
  n == 0x85 || n == 0xA0 || n == 0x1680 ||
  n == 0x2000 || n == 0x2001 || n == 0x2002 || n == 0x2003 || n == 0x2004 ||
  n == 0x2005 || n == 0x2006 || n == 0x2007 || n == 0x2008 || n == 0x2009 ||
  n == 0x200A || n == 0x2028 || n == 0x2029 || n == 0x202F || n == 0x205F ||
  n == 0x3000

/-- `str::trim_end`: remove trailing whitespace. -/
def trimEnd (s : Str) : Str := (s.reverse.dropWhile isWsChar).reverse

/-- `str::trim`: remove leading and trailing whitespace. -/
def trimBoth (s : Str) : Str := trimEnd (s.dropWhile isWsChar)

/-- Worker for `splitWs`; `acc` holds the current token reversed. -/
def swGo : List Char → List Char → List Str
  | [], acc => if acc.isEmpty then [] else [acc.reverse]
  | c :: s, acc =>
    if isWsChar c then
      (if acc.isEmpty then swGo s [] else acc.reverse :: swGo s [])
    else swGo s (c :: acc)

/-- `str::split_whitespace`: the maximal whitespace-free tokens of a string. -/
def splitWs (s : Str) : List Str := swGo s []

/-- Drop one trailing carriage return (the `\r` of a `\r\n` line ending). -/
def stripCr (s : Str) : Str := if s.getLast? == some '\r' then s.dropLast else s

/-- Worker for `linesRs`; `cur` holds the current line reversed. -/
def linesGo : List Char → List Char → List Str
  | [], cur => if cur.isEmpty then [] else [cur.reverse]
  | c :: s, cur =>
    if c == '\n' then stripCr cur.reverse :: linesGo s []
    else linesGo s (c :: cur)

/-- `str::lines`: split at `\n` (stripping a preceding `\r`), without a
trailing empty line when the text ends in a line terminator. -/
def linesRs (s : Str) : List Str := linesGo s []

/-- Substring test, as `str::contains` with a literal pattern. -/
def containsSeq (needle : Str) : Str → Bool
  | [] => needle.isEmpty
  | c :: s => needle.isPrefixOf (c :: s) || containsSeq needle s

/-- Does the line end with a closing parenthesis (`str::ends_with(')')`)? -/
def endsParen (s : Str) : Bool := s.getLast? == some ')'

/-- All-whitespace test: `line.trim().is_empty()`. -/
def isBlank (s : Str) : Bool := (trimBoth s).isEmpty

/-- Worker for `trimStartMatches`: repeatedly strip a leading occurrence of
`pat`, with enough fuel to reach a fixed point. -/
def tsmGo (pat : Str) : Nat → Str → Str
  | 0, s => s
  | fuel + 1, s => if pat.isPrefixOf s then tsmGo pat fuel (s.drop pat.length) else s

/-- `str::trim_start_matches`: repeatedly strip a leading occurrence of `pat`. -/
def trimStartMatches (pat : Str) (s : Str) : Str := tsmGo pat (s.length + 1) s

/-- Join a list of lines with `\n` separators (`Vec::join("\n")`). -/
def joinNl : List Str → Str
  | [] => []
  | [l] => l
  | l :: l' :: ls => l ++ '\n' :: joinNl (l' :: ls)

/-- The Elm line-comment marker `-- ` (dash, dash, space). -/
def commentMarker : Str := ['-', '-', ' ']

/-- The page archetypes (`enum PageType`). -/
inductive PageType
  | Static
  | Sandbox
  | Element
  | Advanced
deriving DecidableEq, Repr

/-- A `module`/`import` declaration descriptor (`struct Module` in the
source): the dotted name and the optional raw text of the exposing list. -/
structure EModule where
  name : Str
  exposing_ : Option Str
deriving DecidableEq, Repr

/-- A top-level function definition (`struct Function` in the source): its
ordered raw source lines. -/
structure EFunction where
  lines : List Str
deriving DecidableEq, Repr

/-- One semantically tagged unit of the parsed source (`enum Block`). -/
inductive Block
  | modl (m : EModule)
  | impt (m : EModule)
  | init (f : EFunction)
  | view (f : EFunction)
  | update (f : EFunction)
  | subscriptions (f : EFunction)
  | page (f : EFunction)
  | other (t : Str)
deriving DecidableEq, Repr

/-- The full parsed representation of one source file (`struct Page`). -/
structure Page where
  blocks : List Block
deriving DecidableEq, Repr

/-- `_fmt_defs`: the shared-model and request signature fragments and
argument names selected by the two capability toggles. -/
def fmtDefs (shared request : Bool) : Str × Str × Str × Str :=
  let sSig : Str := if shared then "Shared.Model ->".toList else []
  let sArg : Str := if shared then "shared".toList else []
  let rSig : Str := if request then "Request.With Params ->".toList else []
  let rArg : Str := if request then "req".toList else []
  (sSig, rSig, sArg, rArg)

/-- `PageType::exposing_template`: the fixed exposed-name list of each
archetype. -/
def PageType.exposing_template : PageType → Str
  | .Static => "page".toList
  | .Sandbox => "page, Model, Msg".toList
  | .Element => "page, Model, Msg".toList
  | .Advanced => "page, Model, Msg".toList

/-- `PageType::page_template`: the generated `page` wiring declaration. -/
def PageType.page_template (pt : PageType) (shared request : Bool) : Str :=
  let d := fmtDefs shared request
  let sArg := d.2.2.1
  let rArg := d.2.2.2
  match pt with
  | .Static =>
    "page : Shared.Model -> Request.With Params -> Page\npage shared req =\n    Page.static\n        \x7b view = view ".toList ++
    sArg ++ " ".toList ++ rArg ++ "\n        \x7d\n".toList
  | .Sandbox =>
    "page : Shared.Model -> Request.With Params -> Page.With Model Msg\npage shared req =\n    Page.sandbox\n        \x7b init = init ".toList ++
    sArg ++ " ".toList ++ rArg ++
    "\n        , update = update ".toList ++ sArg ++ " ".toList ++ rArg ++
    "\n        , view = view ".toList ++ sArg ++ " ".toList ++ rArg ++
    "\n        \x7d\n".toList
  | .Element =>
    "page : Shared.Model -> Request.With Params -> Page.With Model Msg\npage shared req =\n    Page.element\n        \x7b init = init ".toList ++
    sArg ++ " ".toList ++ rArg ++
    "\n        , update = update ".toList ++ sArg ++ " ".toList ++ rArg ++
    "\n        , view = view ".toList ++ sArg ++ " ".toList ++ rArg ++
    "\n        , subscriptions = subscriptions ".toList ++ sArg ++ " ".toList ++ rArg ++
    "\n        \x7d\n".toList
  | .Advanced =>
    "page : Shared.Model -> Request.With Params -> Page.With Model Msg\npage shared req =\n    Page.advanced\n        \x7b init = init ".toList ++
    sArg ++ " ".toList ++ rArg ++
    "\n        , update = update ".toList ++ sArg ++ " ".toList ++ rArg ++
    "\n        , view = view ".toList ++ sArg ++ " ".toList ++ rArg ++
    "\n        , subscriptions = subscriptions ".toList ++ sArg ++ " ".toList ++ rArg ++
    "\n        \x7d\n".toList

/-- `PageType::init_template`: the generated `init` declaration. -/
def PageType.init_template (pt : PageType) (shared request : Bool) : Str :=
  let d := fmtDefs shared request
  let sSig := d.1
  let rSig := d.2.1
  let sArg := d.2.2.1
  let rArg := d.2.2.2
  match pt with
  | .Static => []
  | .Sandbox =>
    "init : ".toList ++ sSig ++ " ".toList ++ rSig ++ " Model\ninit ".toList ++
    sArg ++ " ".toList ++ rArg ++ " =\n    \x7b\x7d\n".toList
  | .Element =>
    "init : ".toList ++ sSig ++ " ".toList ++ rSig ++ " (Model, Cmd Msg)\ninit ".toList ++
    sArg ++ " ".toList ++ rArg ++ " =\n    (\x7b\x7d, Cmd.none)\n".toList
  | .Advanced =>
    "init : ".toList ++ sSig ++ " ".toList ++ rSig ++ " (Model, Effect Msg)\ninit ".toList ++
    sArg ++ " ".toList ++ rArg ++ " =\n    (\x7b\x7d, Effect.none)\n".toList

/-- `PageType::update_template`: the generated `update` declaration. -/
def PageType.update_template (pt : PageType) (shared request : Bool) : Str :=
  let d := fmtDefs shared request
  let sSig := d.1
  let rSig := d.2.1
  let sArg := d.2.2.1
  let rArg := d.2.2.2
  match pt with
  | .Static => []
  | .Sandbox =>
    "update : ".toList ++ sSig ++ " ".toList ++ rSig ++ " Msg -> Model -> Model\nupdate ".toList ++
    sArg ++ " ".toList ++ rArg ++ " msg model =\n    case msg of\n        _ ->\n            model\n".toList
  | .Element =>
    "update : ".toList ++ sSig ++ " ".toList ++ rSig ++ " Msg -> Model -> ( Model, Cmd Msg )\nupdate ".toList ++
    sArg ++ " ".toList ++ rArg ++ " msg model =\n    case msg of\n        _ ->\n            ( model, Cmd.none )\n".toList
  | .Advanced =>
    "update : ".toList ++ sSig ++ " ".toList ++ rSig ++ " Msg -> Model -> ( Model, Effect Msg )\nupdate ".toList ++
    sArg ++ " ".toList ++ rArg ++ " msg model =\n    case msg of\n        _ ->\n            ( model, Effect.none )\n".toList

/-- `PageType::view_template`: the generated `view` declaration. -/
def PageType.view_template (pt : PageType) (shared request : Bool) : Str :=
  let d := fmtDefs shared request
  let sSig := d.1
  let rSig := d.2.1
  let sArg := d.2.2.1
  let rArg := d.2.2.2
  match pt with
  | .Static =>
    "view : ".toList ++ sSig ++ " ".toList ++ rSig ++ " View msg\nview ".toList ++
    sArg ++ " ".toList ++ rArg ++ " =\n    View.placeholder \"Hello World\"\n".toList
  | .Sandbox | .Element | .Advanced =>
    "view : ".toList ++ sSig ++ " ".toList ++ rSig ++ " Model -> View Msg\nview ".toList ++
    sArg ++ " ".toList ++ rArg ++ " model =\n    View.placeholder \"Hello World\"\n".toList

/-- `PageType::subscriptions_template`: the generated `subscriptions`
declaration. -/
def PageType.subscriptions_template (pt : PageType) (shared request : Bool) : Str :=
  let d := fmtDefs shared request
  let sSig := d.1
  let rSig := d.2.1
  let sArg := d.2.2.1
  let rArg := d.2.2.2
  match pt with
  | .Static | .Sandbox => []
  | .Element | .Advanced =>
    "subscriptions : ".toList ++ sSig ++ " ".toList ++ rSig ++ " Model -> Sub Msg\nsubscriptions ".toList ++
    sArg ++ " ".toList ++ rArg ++ " model =\n    Sub.none\n".toList

/-- The parse-failure message (`bail!("Failed to parse: {}", line)`). -/
def failMsg (line : Str) : Str := "Failed to parse: ".toList ++ line

/-- The multi-line exposing-list continuation loop of `Module::parse`:
append each following line's content up to `)` until a line ending in `)`
is consumed or input ends. -/
def consumeExposing : Str → List Str → Str × List Str
  | acc, [] => (acc, [])
  | acc, l :: ls =>
    let acc' := acc ++ l.takeWhile (fun c => c != ')')
    if endsParen l then (acc', ls) else consumeExposing acc' ls

/-- `Module::parse`: the second whitespace token is the name (error when
absent); when the line mentions `exposing`, the interior of the first
parenthesised group is captured, continuing over following lines when the
line does not end in `)`. -/
def EModule.parse (line : Str) (rest : List Str) : Except Str (EModule × List Str) :=
  match (splitWs line).get? 1 with
  | none => .error (failMsg line)
  | some name =>
    if containsSeq "exposing".toList line then
      let e0 := ((line.dropWhile (fun c => c != '(')).drop 1).takeWhile (fun c => c != ')')
      if endsParen line then .ok (⟨name, some e0⟩, rest)
      else
        let p := consumeExposing e0 rest
        .ok (⟨name, some p.1⟩, p.2)
    else .ok (⟨name, none⟩, rest)

/-- The continuation-line predicate of `Function::parse`: blank, starting
with a space or tab, or starting with the function's name and a space. -/
def contLine (name : Str) (l : Str) : Bool :=
  isBlank l || l.headI == ' ' || l.headI == '\t' || (name ++ [' ']).isPrefixOf l

/-- The lookahead absorption loop of `Function::parse`: keep consuming
continuation lines, returning the consumed lines and the remaining input. -/
def absorbGo (name : Str) : List Str → List Str × List Str
  | [] => ([], [])
  | l :: ls =>
    if contLine name l then
      let p := absorbGo name ls
      (l :: p.1, p.2)
    else ([], l :: ls)

/-- `Function::parse`: the first whitespace token is the function's name
(error when absent); continuation lines are absorbed into the block. -/
def EFunction.parse (line : Str) (rest : List Str) : Except Str (EFunction × List Str) :=
  match (splitWs line).head? with
  | none => .error (failMsg line)
  | some name =>
    let p := absorbGo name rest
    .ok (⟨line :: p.1⟩, p.2)

/-- The `module ` keyword line marker. -/
def kwModule : Str := "module ".toList

/-- The `import ` keyword line marker. -/
def kwImport : Str := "import ".toList

/-- The `init ` keyword line marker. -/
def kwInit : Str := "init ".toList

/-- The `update ` keyword line marker. -/
def kwUpdate : Str := "update ".toList

/-- The `view ` keyword line marker. -/
def kwView : Str := "view ".toList

/-- The `subscriptions ` keyword line marker. -/
def kwSubscriptions : Str := "subscriptions ".toList

/-- The `page ` keyword line marker. -/
def kwPage : Str := "page ".toList

/-- The line scanner loop of `Page::parse`, dispatching on line prefixes in
source order; `fuel` bounds the recursion and is in practice one more than
the number of remaining lines. -/
def parseLinesF : Nat → List Str → Except Str (List Block)
  | _, [] => .ok []
  | 0, _ :: _ => .error "out of fuel".toList
  | fuel + 1, l :: ls =>
    if kwModule.isPrefixOf l then
      match EModule.parse l ls with
      | .error e => .error e
      | .ok (m, rest) => (parseLinesF fuel rest).map (Block.modl m :: ·)
    else if kwImport.isPrefixOf l then
      match EModule.parse l ls with
      | .error e => .error e
      | .ok (m, rest) => (parseLinesF fuel rest).map (Block.impt m :: ·)
    else if kwInit.isPrefixOf l then
      match EFunction.parse l ls with
      | .error e => .error e
      | .ok (f, rest) => (parseLinesF fuel rest).map (Block.init f :: ·)
    else if kwUpdate.isPrefixOf l then
      match EFunction.parse l ls with
      | .error e => .error e
      | .ok (f, rest) => (parseLinesF fuel rest).map (Block.update f :: ·)
    else if kwView.isPrefixOf l then
      match EFunction.parse l ls with
      | .error e => .error e
      | .ok (f, rest) => (parseLinesF fuel rest).map (Block.view f :: ·)
    else if kwSubscriptions.isPrefixOf l then
      match EFunction.parse l ls with
      | .error e => .error e
      | .ok (f, rest) => (parseLinesF fuel rest).map (Block.subscriptions f :: ·)
    else if kwPage.isPrefixOf l then
      match EFunction.parse l ls with
      | .error e => .error e
      | .ok (f, rest) => (parseLinesF fuel rest).map (Block.page f :: ·)
    else (parseLinesF fuel ls).map (Block.other l :: ·)

/-- `Page::parse`: split the input into lines, trim each line's trailing
whitespace, and scan the lines into blocks. -/
def Page.parse (text : Str) : Except Str Page :=
  let ls := (linesRs text).map trimEnd
  (parseLinesF (ls.length + 1) ls).map Page.mk

/-- Render a module/import declaration line, without its final newline. -/
def EModule.renderWith (kw : Str) (m : EModule) : Str :=
  match m.exposing_ with
  | some e => kw ++ m.name ++ " exposing (".toList ++ e ++ [')']
  | none => kw ++ m.name

/-- `impl fmt::Display for Block`: module/import blocks render as a single
line, function blocks as a blank line, their raw lines, and a blank line,
and `Other` blocks as their raw text followed by a line break. -/
def Block.render : Block → Str
  | .modl m => m.renderWith "module ".toList ++ ['\n']
  | .impt m => m.renderWith "import ".toList ++ ['\n']
  | .init f | .update f | .view f | .subscriptions f | .page f =>
    '\n' :: (f.lines.flatMap (fun l => l ++ ['\n'])) ++ ['\n']
  | .other t => t ++ ['\n']

/-- `impl fmt::Display for Page`: blocks rendered in sequence order. -/
def Page.render (p : Page) : Str := p.blocks.flatMap Block.render

/-- Does the block import the given module name? -/
def Block.isImpNamed (nm : Str) : Block → Bool
  | .impt m => m.name == nm
  | _ => false

/-- Is the block a module declaration? -/
def Block.isModl : Block → Bool
  | .modl _ => true
  | _ => false

/-- Is the block an import declaration? -/
def Block.isImpt : Block → Bool
  | .impt _ => true
  | _ => false

/-- Is the block an `init` function block? -/
def Block.isInit : Block → Bool
  | .init _ => true
  | _ => false

/-- Is the block an `update` function block? -/
def Block.isUpdate : Block → Bool
  | .update _ => true
  | _ => false

/-- Is the block a `view` function block? -/
def Block.isView : Block → Bool
  | .view _ => true
  | _ => false

/-- Is the block a `subscriptions` function block? -/
def Block.isSubscriptions : Block → Bool
  | .subscriptions _ => true
  | _ => false

/-- Is the block a `page` function block? -/
def Block.isPageFn : Block → Bool
  | .page _ => true
  | _ => false

/-- The exposing-list merge of the transformation engine: prefix the
existing list with `<base>, `, or set it to `<base>` when absent. -/
def mergeExposing (base : Str) : Option Str → Str
  | some e => base ++ ", ".toList ++ e
  | none => base

/-- Find the first import block with the given name and merge `base` into
its exposing list (`iter_mut().find_map(...)` followed by the in-place
update); `none` when no such import exists. -/
def extendFirst (nm base : Str) : List Block → Option (List Block)
  | [] => none
  | .impt m :: bs =>
    if m.name == nm then some (.impt ⟨m.name, some (mergeExposing base m.exposing_)⟩ :: bs)
    else (extendFirst nm base bs).map (.impt m :: ·)
  | b :: bs => (extendFirst nm base bs).map (b :: ·)

/-- The derived page-parameters module name: `Gen.Params.` prefixed to the
module name with its leading `Pages.` occurrences stripped. -/
def gpName (moduleName : Str) : Str :=
  "Gen.Params.".toList ++ trimStartMatches "Pages.".toList moduleName

/-- Template text split into block lines (`.lines().map(String::from)`). -/
def tmplLines (t : Str) : List Str := linesRs t

/-- Comment out a replaced block's lines: each line prefixed with `-- `,
joined with newlines. -/
def commentOut (ls : List Str) : Str := joinNl (ls.map (fun l => commentMarker ++ l))

/-- The replacement emitted for a recognized function block: the same-kind
block holding the template's lines, and the `Other` block holding the
original lines commented out. -/
def replacementPair (pt : PageType) (shared request : Bool) : Block → Option (Block × Block)
  | .init f => some (.init ⟨tmplLines (pt.init_template shared request)⟩, .other (commentOut f.lines))
  | .update f => some (.update ⟨tmplLines (pt.update_template shared request)⟩, .other (commentOut f.lines))
  | .view f => some (.view ⟨tmplLines (pt.view_template shared request)⟩, .other (commentOut f.lines))
  | .subscriptions f => some (.subscriptions ⟨tmplLines (pt.subscriptions_template shared request)⟩, .other (commentOut f.lines))
  | .page f => some (.page ⟨tmplLines (pt.page_template shared request)⟩, .other (commentOut f.lines))
  | _ => none

/-- One iteration of the block-rewriting loop of `Page::to`: a module
declaration triggers the params-import merge and is inserted at index 0,
a recognized function block is replaced (with its original commented out),
and any other block is carried through. -/
def transStep (pt : PageType) (shared request : Bool) (acc : List Block) (b : Block) : List Block :=
  match b with
  | .modl m =>
    let derived := gpName m.name
    let acc' :=
      match extendFirst derived "Params".toList acc with
      | some a => a
      | none => acc ++ [Block.impt ⟨derived, some "Params".toList⟩]
    .modl ⟨m.name, some pt.exposing_template⟩ :: acc'
  | b =>
    match replacementPair pt shared request b with
    | some rc => acc ++ [rc.1, rc.2]
    | none => acc ++ [b]

/-- Does an `Other` block open a `Model` type alias declaration? -/
def isModelAliasOther : Block → Bool
  | .other t => ("type alias Model =".toList).isPrefixOf t
  | _ => false

/-- Does an `Other` block open a `Msg` type declaration? -/
def isMsgTypeOther : Block → Bool
  | .other t => ("type Msg ".toList).isPrefixOf t || trimBoth t == "type Msg".toList
  | _ => false

/-- Conditional back-fill: append the block unless the check already holds
(`if !blocks.iter().any(..) { blocks.push(..) }`). -/
def pushIfAbsent (check : List Block → Bool) (t : Block) (bs : List Block) : List Block :=
  if check bs then bs else bs ++ [t]

/-- The default empty `Model` type alias back-fill text. -/
def modelAliasText : Str := "\ntype alias Model = \x7b\x7d\n\n".toList

/-- The default single-constructor `Msg` type back-fill text. -/
def msgTypeText : Str := "\ntype Msg = ReplaceMe\n\n".toList

/-- The import-injection prelude of `Page::to`: push the `Shared`, `Request`,
`Page` and `Effect` imports when required and absent; the `Page` import merge
mutates the page's own block list in place when present. Returns the possibly
mutated input blocks paired with the pushed import blocks. -/
def importPrelude (p : Page) (pt : PageType) (shared request : Bool) :
    List Block × List Block :=
  let bs0 : List Block := []
  let bs1 :=
    if shared && !(p.blocks.any (Block.isImpNamed "Shared".toList)) then
      bs0 ++ [Block.impt ⟨"Shared".toList, none⟩]
    else bs0
  let bs2 :=
    if request && !(p.blocks.any (Block.isImpNamed "Request".toList)) then
      bs1 ++ [Block.impt ⟨"Request".toList, some "Request".toList⟩]
    else bs1
  let sp : List Block × List Block :=
    match extendFirst "Page".toList "Page".toList p.blocks with
    | some s => (s, bs2)
    | none => (p.blocks, bs2 ++ [Block.impt ⟨"Page".toList, some "Page".toList⟩])
  let bs4 :=
    if pt == .Advanced && !(sp.1.any (Block.isImpNamed "Effect".toList)) then
      sp.2 ++ [Block.impt ⟨"Effect".toList, some "Effect".toList⟩]
    else sp.2
  (sp.1, bs4)

/-- The back-fill phase of `Page::to`: append the missing `page` wiring, and
for non-`Static` archetypes the missing `Model` alias, `Msg` type,
`subscriptions` (except `Sandbox`), `init` and `update` defaults, and finally
the missing `view` default. -/
def backfill (pt : PageType) (shared request : Bool) (bs : List Block) : List Block :=
  let f1 := pushIfAbsent (fun l => l.any Block.isPageFn)
    (Block.other (pt.page_template shared request)) bs
  let f2 :=
    if pt != .Static then
      let g1 := pushIfAbsent (fun l => l.any isModelAliasOther) (Block.other modelAliasText) f1
      let g2 := pushIfAbsent (fun l => l.any isMsgTypeOther) (Block.other msgTypeText) g1
      let g3 :=
        if pt != .Sandbox then
          pushIfAbsent (fun l => l.any Block.isSubscriptions)
            (Block.other (pt.subscriptions_template shared request)) g2
        else g2
      let g4 := pushIfAbsent (fun l => l.any Block.isInit)
        (Block.other (pt.init_template shared request)) g3
      pushIfAbsent (fun l => l.any Block.isUpdate)
        (Block.other (pt.update_template shared request)) g4
    else f1
  pushIfAbsent (fun l => l.any Block.isView)
    (Block.other (pt.view_template shared request)) f2

/-- `Page::to`: the archetype transformation engine — import prelude, the
block-rewriting loop, then the back-fill phase. -/
def Page.to (p : Page) (pt : PageType) (shared request : Bool) : Page :=
  let pre := importPrelude p pt shared request
  ⟨backfill pt shared request (pre.1.foldl (transStep pt shared request) pre.2)⟩

/-! ### Basic facts about the string utilities -/

theorem head_dropWhile_false {α : Type} {p : α → Bool} :
    ∀ (l : List α) (c : α), (l.dropWhile p).head? = some c → p c = false := by
  intro l
  induction l with
  | nil => intro c h; exact Option.noConfusion h
  | cons a t ih =>
    intro c h
    rw [List.dropWhile_cons] at h
    by_cases hp : p a = true
    · rw [if_pos hp] at h
      exact ih c h
    · rw [if_neg hp] at h
      simp only [List.head?_cons, Option.some.injEq] at h
      rw [← h]
      exact Bool.not_eq_true _ ▸ hp

theorem trimEnd_last {s : Str} {c : Char} (h : trimEnd s = s) (hc : s.getLast? = some c) :
    isWsChar c = false := by
  by_contra hw
  rw [Bool.not_eq_false] at hw
  rw [List.getLast?_eq_head?_reverse] at hc
  have h' : s.reverse.dropWhile isWsChar = s.reverse := by
    have h2 := congrArg List.reverse h
    rwa [trimEnd, List.reverse_reverse] at h2
  cases hr : s.reverse with
  | nil => rw [hr] at hc; exact Option.noConfusion hc
  | cons a t =>
    rw [hr] at hc h'
    simp only [List.head?_cons, Option.some.injEq] at hc
    rw [List.dropWhile_cons, if_pos (hc ▸ hw)] at h'
    have hle : (t.dropWhile isWsChar).length ≤ t.length := (List.dropWhile_sublist _).length_le
    rw [h'] at hle
    simp at hle

theorem trimEnd_eq_self {s : Str} (h : ∀ c, s.getLast? = some c → isWsChar c = false) :
    trimEnd s = s := by
  unfold trimEnd
  cases hr : s.reverse with
  | nil =>
    rw [List.dropWhile_nil, ← hr, List.reverse_reverse]
  | cons a t =>
    have ha : isWsChar a = false := by
      apply h
      rw [List.getLast?_eq_head?_reverse, hr, List.head?_cons]
    rw [List.dropWhile_cons, if_neg (by simp [ha]), ← hr, List.reverse_reverse]

theorem trimEnd_getLast {s : Str} {c : Char} (hc : (trimEnd s).getLast? = some c) :
    isWsChar c = false := by
  apply head_dropWhile_false s.reverse c
  rw [List.getLast?_eq_head?_reverse, trimEnd, List.reverse_reverse] at hc
  exact hc

theorem trimEnd_idem (s : Str) : trimEnd (trimEnd s) = trimEnd s :=
  trimEnd_eq_self (fun _ hc => trimEnd_getLast hc)

theorem stripCr_eq_self {s : Str} (h : s.getLast? ≠ some '\r') : stripCr s = s := by
  unfold stripCr
  rw [if_neg (by simpa using h)]

theorem trimEnd_append_ws {s : Str} {c : Char} (hc : isWsChar c = true) :
    trimEnd (s ++ [c]) = trimEnd s := by
  unfold trimEnd
  rw [List.reverse_append, List.reverse_cons, List.reverse_nil, List.nil_append,
    List.singleton_append, List.dropWhile_cons, if_pos hc]

/-! ### Facts about `swGo` and `splitWs` -/

theorem swGo_run (t : Str) : ∀ (r acc : Str), (∀ c ∈ t, isWsChar c = false) →
    swGo (t ++ ' ' :: r) acc =
      if acc.reverse ++ t = [] then swGo r [] else (acc.reverse ++ t) :: swGo r [] := by
  induction t with
  | nil =>
    intro r acc _
    show swGo (' ' :: r) acc = _
    simp only [swGo, (by decide : isWsChar ' ' = true), if_true, List.append_nil]
    by_cases h : acc = []
    · simp [h]
    · rw [if_neg (by simp [h]), if_neg (by simp [h])]
  | cons a t ih =>
    intro r acc hall
    have ha : isWsChar a = false := hall a (by simp)
    show swGo (a :: (t ++ ' ' :: r)) acc = _
    simp only [swGo, ha, Bool.false_eq_true, if_false]
    rw [ih r (a :: acc) (fun c hc => hall c (by simp [hc]))]
    rw [if_neg (by simp), if_neg (by simp)]
    simp [List.append_assoc]

theorem swGo_last (t : Str) : ∀ (acc : Str), (∀ c ∈ t, isWsChar c = false) →
    swGo t acc = if acc.reverse ++ t = [] then [] else [acc.reverse ++ t] := by
  induction t with
  | nil =>
    intro acc _
    show swGo [] acc = _
    simp only [swGo, List.append_nil]
    by_cases h : acc = []
    · simp [h]
    · rw [if_neg (by simp [h]), if_neg (by simp [h])]
  | cons a t ih =>
    intro acc hall
    have ha : isWsChar a = false := hall a (by simp)
    show swGo (a :: t) acc = _
    simp only [swGo, ha, Bool.false_eq_true, if_false]
    rw [ih (a :: acc) (fun c hc => hall c (by simp [hc]))]
    rw [if_neg (by simp), if_neg (by simp)]
    simp [List.append_assoc]

theorem swGo_ne_nil : ∀ (r acc : Str), (acc ≠ [] ∨ ∃ c ∈ r, isWsChar c = false) →
    swGo r acc ≠ [] := by
  intro r
  induction r with
  | nil =>
    intro acc h
    rcases h with h | ⟨c, hc, _⟩
    · simp [swGo, h]
    · exact absurd hc (by simp)
  | cons a r ih =>
    intro acc h
    show swGo (a :: r) acc ≠ []
    simp only [swGo]
    by_cases ha : isWsChar a = true
    · rw [if_pos ha]
      by_cases hacc : acc.isEmpty = true
      · rw [if_pos hacc]
        apply ih
        right
        rcases h with h | ⟨c, hc, hcw⟩
        · exact absurd (List.isEmpty_iff.mp hacc) h
        · rcases List.mem_cons.mp hc with rfl | hc
          · rw [ha] at hcw; exact Bool.noConfusion hcw
          · exact ⟨c, hc, hcw⟩
      · rw [if_neg hacc]
        exact List.cons_ne_nil _ _
    · rw [if_neg ha]
      apply ih
      left
      exact List.cons_ne_nil _ _

theorem swGo_tokens : ∀ (r acc : Str), (∀ c ∈ acc, isWsChar c = false) →
    ∀ t ∈ swGo r acc, t ≠ [] ∧ ∀ c ∈ t, isWsChar c = false := by
  intro r
  induction r with
  | nil =>
    intro acc hacc t ht
    simp only [swGo] at ht
    by_cases h : acc.isEmpty = true
    · rw [if_pos h] at ht; exact absurd ht (by simp)
    · rw [if_neg h] at ht
      simp only [List.mem_singleton] at ht
      subst ht
      constructor
      · simp only [ne_eq, List.reverse_eq_nil_iff]
        exact fun hh => h (by simp [hh])
      · intro c hc
        exact hacc c (List.mem_reverse.mp hc)
  | cons a r ih =>
    intro acc hacc t ht
    simp only [swGo] at ht
    by_cases ha : isWsChar a = true
    · rw [if_pos ha] at ht
      by_cases h : acc.isEmpty = true
      · rw [if_pos h] at ht
        exact ih [] (by simp) t ht
      · rw [if_neg h] at ht
        rcases List.mem_cons.mp ht with rfl | ht
        · constructor
          · simp only [ne_eq, List.reverse_eq_nil_iff]
            exact fun hh => h (by simp [hh])
          · intro c hc
            exact hacc c (List.mem_reverse.mp hc)
        · exact ih [] (by simp) t ht
    · rw [if_neg ha] at ht
      apply ih (a :: acc) _ t ht
      intro c hc
      rcases List.mem_cons.mp hc with rfl | hc
      · exact Bool.not_eq_true _ ▸ ha
      · exact hacc c hc

/-! ### Facts about `linesGo` and `linesRs` -/

theorem linesGo_break : ∀ (l : Str) (r cur : Str), '\n' ∉ l →
    linesGo (l ++ '\n' :: r) cur = stripCr (cur.reverse ++ l) :: linesGo r []
  | [], r, cur, _ => by
    show linesGo ('\n' :: r) cur = _
    simp [linesGo]
  | a :: l, r, cur, hl => by
    have ha : (a == '\n') = false := by
      simp only [beq_eq_false_iff_ne, ne_eq]
      exact fun h => hl (by simp [h])
    show linesGo (a :: (l ++ '\n' :: r)) cur = _
    simp only [linesGo, ha, Bool.false_eq_true, if_false]
    rw [linesGo_break l r (a :: cur) (fun h => hl (by simp [h]))]
    simp [List.append_assoc]

theorem linesGo_last : ∀ (l cur : Str), '\n' ∉ l →
    linesGo l cur = if cur.reverse ++ l = [] then [] else [cur.reverse ++ l]
  | [], cur, _ => by
    show linesGo [] cur = _
    simp only [linesGo, List.append_nil]
    by_cases h : cur = []
    · simp [h]
    · rw [if_neg (by simp [h]), if_neg (by simp [h])]
  | a :: l, cur, hl => by
    have ha : (a == '\n') = false := by
      simp only [beq_eq_false_iff_ne, ne_eq]
      exact fun h => hl (by simp [h])
    show linesGo (a :: l) cur = _
    simp only [linesGo, ha, Bool.false_eq_true, if_false]
    rw [linesGo_last l (a :: cur) (fun h => hl (by simp [h]))]
    rw [if_neg (by simp), if_neg (by simp)]
    simp [List.append_assoc]

theorem linesRs_break {l : Str} (hl : '\n' ∉ l) (r : Str) :
    linesRs (l ++ '\n' :: r) = stripCr l :: linesRs r := by
  unfold linesRs
  rw [linesGo_break l r [] hl]
  rfl

theorem linesRs_single {l : Str} (hl : '\n' ∉ l) : linesRs (l ++ ['\n']) = [stripCr l] := by
  have h := linesRs_break hl []
  simpa [linesRs, linesGo] using h

theorem linesRs_append : ∀ (a b : Str), a.getLast? = some '\n' →
    linesRs (a ++ b) = linesRs a ++ linesRs b := by
  intro a
  generalize hn : a.length = n
  induction n using Nat.strong_induction_on generalizing a with
  | _ n ih =>
  intro b ha
  have hmem : '\n' ∈ a := by
    rcases List.getLast?_eq_some_iff.mp ha with ⟨ys, rfl⟩
    simp
  set l := a.takeWhile (fun c => c != '\n') with hl
  set d := a.dropWhile (fun c => c != '\n') with hd
  have hsplit : a = l ++ d := (List.takeWhile_append_dropWhile _ _).symm
  have hlnl : '\n' ∉ l := by
    intro h
    have := List.mem_takeWhile_imp h
    simp at this
  have hdne : d ≠ [] := by
    intro h
    rw [hsplit, h, List.append_nil] at hmem
    exact hlnl hmem
  obtain ⟨c, a₂, hc⟩ : ∃ c a₂, d = c :: a₂ := by
    cases hdd : d with
    | nil => exact absurd hdd hdne
    | cons c a₂ => exact ⟨c, a₂, rfl⟩
  have hcnl : c = '\n' := by
    have h1 : d.head? = some c := by rw [hc]; rfl
    have h2 := head_dropWhile_false (p := fun c => c != '\n') a c (hd ▸ h1)
    simpa using h2
  subst hcnl
  rw [hsplit, hc]
  rw [List.append_assoc, List.cons_append]
  rw [linesRs_break hlnl (a₂ ++ b), linesRs_break hlnl a₂]
  cases ha2 : a₂ with
  | nil =>
    subst ha2
    simp [linesRs, linesGo]
  | cons x t =>
    have ha2' : a₂.getLast? = some '\n' := by
      rw [hsplit, hc] at ha
      rw [List.getLast?_append] at ha
      rw [ha2] at ha ⊢
      simpa using ha
    have hlen : a₂.length < n := by
      rw [← hn, hsplit, hc]
      simp [List.length_append]
      omega
    rw [← ha2, ih a₂.length hlen a₂ rfl b ha2']
    simp

theorem linesRs_no_nl : ∀ (s cur : Str), '\n' ∉ cur →
    ∀ p ∈ linesGo s cur, '\n' ∉ p := by
  intro s
  induction s with
  | nil =>
    intro cur hcur p hp
    simp only [linesGo] at hp
    by_cases h : cur.isEmpty = true
    · rw [if_pos h] at hp; exact absurd hp (by simp)
    · rw [if_neg h] at hp
      simp only [List.mem_singleton] at hp
      subst hp
      simpa [List.mem_reverse] using hcur
  | cons a s ih =>
    intro cur hcur p hp
    simp only [linesGo] at hp
    by_cases ha : (a == '\n') = true
    · rw [if_pos ha] at hp
      rcases List.mem_cons.mp hp with rfl | hp
      · intro hmem
        have h1 : '\n' ∈ cur.reverse := by
          unfold stripCr at hmem
          by_cases hlast : cur.reverse.getLast? == some '\r'
          · rw [if_pos hlast] at hmem
            exact (List.dropLast_sublist _).mem hmem
          · rw [if_neg hlast] at hmem
            exact hmem
        exact hcur (List.mem_reverse.mp h1)
      · exact ih [] (by simp) p hp
    · rw [if_neg ha] at hp
      apply ih (a :: cur) _ p hp
      intro hmem
      rcases List.mem_cons.mp hmem with h | h
      · exact ha (by simp [h.symm])
      · exact hcur h

theorem linesRs_mem_no_nl {s : Str} {p : Str} (hp : p ∈ linesRs s) : '\n' ∉ p :=
  linesRs_no_nl s [] (by simp) p hp

/-! ### Substring and prefix facts -/

theorem containsSeq_iff (n : Str) : ∀ (h : Str), containsSeq n h = true ↔ n <:+: h
  | [] => by
    simp [containsSeq, List.isEmpty_iff, List.infix_nil]
  | c :: s => by
    simp only [containsSeq, Bool.or_eq_true, List.isPrefixOf_iff_prefix, containsSeq_iff n s,
      List.infix_cons_iff]

theorem prefix_excl {p q l : Str} (hq : q.isPrefixOf l = true)
    (h1 : p.isPrefixOf q = false) (h2 : q.isPrefixOf p = false) : p.isPrefixOf l = false := by
  by_contra h
  rw [Bool.not_eq_false] at h
  rcases List.prefix_or_prefix_of_prefix (List.isPrefixOf_iff_prefix.mp h)
      (List.isPrefixOf_iff_prefix.mp hq) with hc | hc
  · rw [List.isPrefixOf_iff_prefix.mpr hc] at h1; exact Bool.noConfusion h1
  · rw [List.isPrefixOf_iff_prefix.mpr hc] at h2; exact Bool.noConfusion h2

theorem getElem?_append_middle {α : Type} (a b : List α) (x y : α) (i : Nat)
    (h : i ≠ a.length) : (a ++ x :: b)[i]? = (a ++ y :: b)[i]? := by
  rcases Nat.lt_or_ge i a.length with hlt | hge
  · rw [List.getElem?_append_left hlt, List.getElem?_append_left hlt]
  · rw [List.getElem?_append_right hge, List.getElem?_append_right hge]
    have hk : i - a.length = (i - a.length - 1) + 1 := by omega
    rw [hk, List.getElem?_cons_succ, List.getElem?_cons_succ]

theorem dropWhile_append_all {α : Type} {p : α → Bool} {a : List α}
    (ha : ∀ c ∈ a, p c = true) (b : List α) :
    (a ++ b).dropWhile p = b.dropWhile p := by
  induction a with
  | nil => rfl
  | cons x a ih =>
    rw [List.cons_append, List.dropWhile_cons, if_pos (ha x (by simp))]
    exact ih (fun c hc => ha c (by simp [hc])) 

theorem takeWhile_append_all {α : Type} {p : α → Bool} {a : List α}
    (ha : ∀ c ∈ a, p c = true) (b : List α) :
    (a ++ b).takeWhile p = a ++ b.takeWhile p := by
  induction a with
  | nil => rfl
  | cons x a ih =>
    rw [List.cons_append, List.takeWhile_cons, if_pos (ha x (by simp))]
    rw [ih (fun c hc => ha c (by simp [hc]))]
    rfl

/-! ### The scanners consume a suffix of the remaining lines -/

theorem consumeExposing_suffix : ∀ (acc : Str) (ls : List Str), (consumeExposing acc ls).2 <:+ ls
  | _, [] => List.suffix_refl _
  | acc, l :: ls => by
    simp only [consumeExposing]
    by_cases h : endsParen l = true
    · rw [if_pos h]
      exact List.suffix_cons l ls
    · rw [if_neg h]
      exact (consumeExposing_suffix _ ls).trans (List.suffix_cons l ls)

theorem absorbGo_eq (name : Str) : ∀ (ls : List Str),
    absorbGo name ls = (ls.takeWhile (contLine name), ls.dropWhile (contLine name))
  | [] => rfl
  | l :: ls => by
    simp only [absorbGo, List.takeWhile_cons, List.dropWhile_cons]
    by_cases h : contLine name l = true
    · rw [if_pos h, if_pos h, if_pos h, absorbGo_eq name ls]
    · rw [if_neg h, if_neg h, if_neg h]

theorem absorbGo_suffix (name : Str) (ls : List Str) : (absorbGo name ls).2 <:+ ls := by
  rw [absorbGo_eq]
  exact List.dropWhile_suffix _

/-! ### Keyword lines always carry the required name token -/

theorem splitWs_kw (w r : Str) (hw : w ≠ []) (hwa : ∀ c ∈ w, isWsChar c = false) :
    splitWs (w ++ ' ' :: r) = w :: swGo r [] := by
  unfold splitWs
  rw [swGo_run w r [] hwa, if_neg (by simp [hw])]
  simp

theorem second_token_exists {w r : Str} (hw : w ≠ []) (hwa : ∀ c ∈ w, isWsChar c = false)
    (ht : trimEnd (w ++ ' ' :: r) = w ++ ' ' :: r) :
    ∃ nm, (splitWs (w ++ ' ' :: r)).get? 1 = some nm ∧ nm ≠ [] ∧
      ∀ c ∈ nm, isWsChar c = false := by
  have hr : r ≠ [] := by
    intro h
    subst h
    have hlast : (w ++ [' ']).getLast? = some ' ' := List.getLast?_concat _
    have hws := trimEnd_last ht hlast
    exact absurd hws (by decide)
  obtain ⟨c, hc⟩ : ∃ c, r.getLast? = some c := by
    cases hgl : r.getLast? with
    | none => exact absurd (List.getLast?_eq_none_iff.mp hgl) hr
    | some c => exact ⟨c, rfl⟩
  have hcl : (w ++ ' ' :: r).getLast? = some c := by
    rw [List.getLast?_append]
    cases hrr : r with
    | nil => exact absurd hrr hr
    | cons x t =>
      rw [hrr] at hc
      rw [List.getLast?_cons_cons, hc]
      rfl
  have hcw : isWsChar c = false := trimEnd_last ht hcl
  have hcm : c ∈ r := by
    rcases List.getLast?_eq_some_iff.mp hc with ⟨ys, rfl⟩
    simp
  rw [splitWs_kw w r hw hwa]
  have hne : swGo r [] ≠ [] := swGo_ne_nil r [] (Or.inr ⟨c, hcm, hcw⟩)
  cases hsw : swGo r [] with
  | nil => exact absurd hsw hne
  | cons t ts =>
    refine ⟨t, rfl, ?_⟩
    have := swGo_tokens r [] (by simp) t (by rw [hsw]; simp)
    exact this


theorem EModule.parse_ok {l : Str} (ls : List Str) {nm : Str}
    (h : (splitWs l).get? 1 = some nm) :
    ∃ m rest, EModule.parse l ls = .ok (m, rest) ∧ m.name = nm ∧ rest <:+ ls := by
  simp only [EModule.parse, h]
  by_cases hc : containsSeq "exposing".toList l = true
  · rw [if_pos hc]
    by_cases hp : endsParen l = true
    · rw [if_pos hp]
      exact ⟨_, ls, rfl, rfl, List.suffix_refl _⟩
    · rw [if_neg hp]
      exact ⟨_, _, rfl, rfl, consumeExposing_suffix _ ls⟩
  · rw [if_neg hc]
    exact ⟨_, ls, rfl, rfl, List.suffix_refl _⟩

theorem EFunction.parse_total {l : Str} (ls : List Str) (nm : Str)
    (h : (splitWs l).head? = some nm) :
    EFunction.parse l ls = .ok (⟨l :: (absorbGo nm ls).1⟩, (absorbGo nm ls).2) := by
  simp only [EFunction.parse, h]

/-! ### The scanner never fails on trailing-trimmed lines (claim C10 core) -/

theorem kw_split (kw : Str) (w : Str) (hkw : kw = w ++ [' ']) {l : Str}
    (h : kw.isPrefixOf l = true) : ∃ r, l = w ++ ' ' :: r := by
  obtain ⟨r, hr⟩ := List.isPrefixOf_iff_prefix.mp h
  refine ⟨r, ?_⟩
  rw [← hr, hkw]
  simp

theorem parseLinesF_ok : ∀ (fuel : Nat) (ls : List Str), ls.length < fuel →
    (∀ l ∈ ls, trimEnd l = l) → ∃ bs, parseLinesF fuel ls = .ok bs := by
  intro fuel
  induction fuel with
  | zero => intro ls h; omega
  | succ fuel ih =>
    intro ls hlen htrim
    cases ls with
    | nil => exact ⟨[], rfl⟩
    | cons l ls =>
      have hl : trimEnd l = l := htrim l (by simp)
      have hrest : ∀ rest : List Str, rest <:+ ls →
          (∃ bs, parseLinesF fuel rest = .ok bs) := by
        intro rest hsuf
        apply ih rest
        · have h1 := hsuf.length_le
          simp at hlen
          omega
        · intro x hx
          exact htrim x (List.mem_cons_of_mem _ (hsuf.sublist.mem hx))
      show ∃ bs, parseLinesF (fuel + 1) (l :: ls) = .ok bs
      simp only [parseLinesF]
      by_cases hm : kwModule.isPrefixOf l = true
      · rw [if_pos hm]
        obtain ⟨r, rfl⟩ := kw_split kwModule ("module".toList) (by decide) hm
        obtain ⟨nm, hnm, _, _⟩ :=
          second_token_exists (w := "module".toList) (r := r) (by decide) (by decide) hl
        obtain ⟨m, rest, hok, _, hsuf⟩ := EModule.parse_ok ls hnm
        obtain ⟨bs, hbs⟩ := hrest rest hsuf
        exact ⟨Block.modl m :: bs, by simp only [hok, hbs]; rfl⟩
      · rw [if_neg hm]
        by_cases hi : kwImport.isPrefixOf l = true
        · rw [if_pos hi]
          obtain ⟨r, rfl⟩ := kw_split kwImport ("import".toList) (by decide) hi
          obtain ⟨nm, hnm, _, _⟩ :=
            second_token_exists (w := "import".toList) (r := r) (by decide) (by decide) hl
          obtain ⟨m, rest, hok, _, hsuf⟩ := EModule.parse_ok ls hnm
          obtain ⟨bs, hbs⟩ := hrest rest hsuf
          exact ⟨Block.impt m :: bs, by simp only [hok, hbs]; rfl⟩
        · rw [if_neg hi]
          by_cases h3 : kwInit.isPrefixOf l = true
          · rw [if_pos h3]
            obtain ⟨r, rfl⟩ := kw_split kwInit ("init".toList) (by decide) h3
            have hfn := EFunction.parse_total ls "init".toList
              (by rw [splitWs_kw ("init".toList) r (by decide) (by decide)]; rfl)
            obtain ⟨bs, hbs⟩ := hrest _ (absorbGo_suffix ("init".toList) ls)
            exact ⟨_, by simp only [hfn, hbs]; rfl⟩
          · rw [if_neg h3]
            by_cases h4 : kwUpdate.isPrefixOf l = true
            · rw [if_pos h4]
              obtain ⟨r, rfl⟩ := kw_split kwUpdate ("update".toList) (by decide) h4
              have hfn := EFunction.parse_total ls "update".toList
                (by rw [splitWs_kw ("update".toList) r (by decide) (by decide)]; rfl)
              obtain ⟨bs, hbs⟩ := hrest _ (absorbGo_suffix ("update".toList) ls)
              exact ⟨_, by simp only [hfn, hbs]; rfl⟩
            · rw [if_neg h4]
              by_cases h5 : kwView.isPrefixOf l = true
              · rw [if_pos h5]
                obtain ⟨r, rfl⟩ := kw_split kwView ("view".toList) (by decide) h5
                have hfn := EFunction.parse_total ls "view".toList
                  (by rw [splitWs_kw ("view".toList) r (by decide) (by decide)]; rfl)
                obtain ⟨bs, hbs⟩ := hrest _ (absorbGo_suffix ("view".toList) ls)
                exact ⟨_, by simp only [hfn, hbs]; rfl⟩
              · rw [if_neg h5]
                by_cases h6 : kwSubscriptions.isPrefixOf l = true
                · rw [if_pos h6]
                  obtain ⟨r, rfl⟩ := kw_split kwSubscriptions ("subscriptions".toList) (by decide) h6
                  have hfn := EFunction.parse_total ls "subscriptions".toList
                    (by rw [splitWs_kw ("subscriptions".toList) r (by decide) (by decide)]; rfl)
                  obtain ⟨bs, hbs⟩ := hrest _ (absorbGo_suffix ("subscriptions".toList) ls)
                  exact ⟨_, by simp only [hfn, hbs]; rfl⟩
                · rw [if_neg h6]
                  by_cases h7 : kwPage.isPrefixOf l = true
                  · rw [if_pos h7]
                    obtain ⟨r, rfl⟩ := kw_split kwPage ("page".toList) (by decide) h7
                    have hfn := EFunction.parse_total ls "page".toList
                      (by rw [splitWs_kw ("page".toList) r (by decide) (by decide)]; rfl)
                    obtain ⟨bs, hbs⟩ := hrest _ (absorbGo_suffix ("page".toList) ls)
                    exact ⟨_, by simp only [hfn, hbs]; rfl⟩
                  · rw [if_neg h7]
                    obtain ⟨bs, hbs⟩ := hrest ls (List.suffix_refl _)
                    exact ⟨_, by simp only [hbs]; rfl⟩

/-- C10: for every input text, `Page.parse` returns `Ok` and never a parse
error: each line is trimmed of trailing whitespace before prefix dispatch,
so a line matching a keyword prefix such as `module ` or `init ` necessarily
carries the required following name token, making the missing-name error
branches of `EModule.parse` and `EFunction.parse` unreachable from
`Page.parse`. -/
theorem c10_parse_never_fails (text : Str) : ∃ p, Page.parse text = .ok p := by
  have htrim : ∀ l ∈ (linesRs text).map trimEnd, trimEnd l = l := by
    intro l hl
    obtain ⟨l₀, _, rfl⟩ := List.mem_map.mp hl
    exact trimEnd_idem l₀
  obtain ⟨bs, hbs⟩ := parseLinesF_ok (((linesRs text).map trimEnd).length + 1)
    ((linesRs text).map trimEnd) (Nat.lt_succ_self _) htrim
  exact ⟨⟨bs⟩, by simp only [Page.parse, hbs]; rfl⟩

/-- C9: the transformation engine is total and deterministic: `Page.to` is a
total function (the embedding models every branch of the source without
partiality, so a successfully parsed page is always transformed), and two
runs on equal inputs produce equal output block sequences. -/
theorem c9_transform_total_deterministic (p₁ p₂ : Page) (pt : PageType)
    (shared request : Bool) (h : p₁.blocks = p₂.blocks) :
    (p₁.to pt shared request).blocks = (p₂.to pt shared request).blocks := by
  cases p₁
  cases p₂
  cases h
  rfl

/-- Witness for C9 at a concrete page, archetype and toggles. -/
theorem c9_witness :
    (Page.mk [Block.other "x".toList]).blocks = (Page.mk [Block.other "x".toList]).blocks ∧
      ((Page.mk [Block.other "x".toList]).to .Static false false).blocks =
        ((Page.mk [Block.other "x".toList]).to .Static false false).blocks :=
  ⟨rfl, c9_transform_total_deterministic _ _ .Static false false rfl⟩

/-- Counterexample to C4 as stated: with `acceptsShared = true` the generated
`init` text for `Static` is empty and contains no shared-model parameter, and
with `acceptsShared = false` the generated `page` text still contains the
shared-model parameter in its fixed wiring signature — both directions of the
claimed equivalence fail. -/
theorem c4_counterexample :
    containsSeq "Shared.Model".toList (PageType.init_template .Static true true) = false ∧
      containsSeq "Shared.Model".toList (PageType.page_template .Static false false) = true := by
  constructor
  · decide
  · decide

/-- C4 (amended): for the `init`/`update`/`view`/`subscriptions` declaration
kinds, whenever the archetype generates a nonempty template, the text
contains the shared-model parameter `Shared.Model` iff `acceptsShared` and
the request parameter `Request.With Params` iff `acceptsRequest`; the `page`
kind is excluded since its wiring signature fixes both parameters. -/
theorem c4_toggle_signature (pt : PageType) (shared request : Bool) (t : Str)
    (ht : t ∈ [pt.init_template shared request, pt.update_template shared request,
      pt.view_template shared request, pt.subscriptions_template shared request])
    (hne : t ≠ []) :
    containsSeq "Shared.Model".toList t = shared ∧
      containsSeq "Request.With Params".toList t = request := by
  simp only [List.mem_cons, List.not_mem_nil, or_false] at ht
  revert hne
  cases pt <;> cases shared <;> cases request <;>
    rcases ht with rfl | rfl | rfl | rfl <;> decide

/-- Witness for C4's amended theorem at `Element`, shared on, request off. -/
theorem c4_witness :
    containsSeq "Shared.Model".toList (PageType.init_template .Element true false) = true ∧
      containsSeq "Request.With Params".toList (PageType.init_template .Element true false) = false :=
  c4_toggle_signature .Element true false _ (by simp) (by decide)

/-! ### Facts about the transformation engine -/

theorem transStep_fn (pt : PageType) (sh rq : Bool) (acc : List Block) (b : Block)
    (rc : Block × Block) (h : replacementPair pt sh rq b = some rc) :
    transStep pt sh rq acc b = acc ++ [rc.1, rc.2] := by
  cases b with
  | modl m => exact absurd h (by simp [replacementPair])
  | impt m => exact absurd h (by simp [replacementPair])
  | other t => exact absurd h (by simp [replacementPair])
  | init f =>
    simp only [replacementPair, Option.some.injEq] at h
    subst h
    rfl
  | update f =>
    simp only [replacementPair, Option.some.injEq] at h
    subst h
    rfl
  | view f =>
    simp only [replacementPair, Option.some.injEq] at h
    subst h
    rfl
  | subscriptions f =>
    simp only [replacementPair, Option.some.injEq] at h
    subst h
    rfl
  | page f =>
    simp only [replacementPair, Option.some.injEq] at h
    subst h
    rfl

theorem transStep_carry (pt : PageType) (sh rq : Bool) (acc : List Block) (b : Block)
    (hmod : b.isModl = false) (h : replacementPair pt sh rq b = none) :
    transStep pt sh rq acc b = acc ++ [b] := by
  cases b with
  | modl m => exact absurd hmod (by simp [Block.isModl])
  | impt m => rfl
  | other t => rfl
  | init f => exact absurd h (by simp [replacementPair])
  | update f => exact absurd h (by simp [replacementPair])
  | view f => exact absurd h (by simp [replacementPair])
  | subscriptions f => exact absurd h (by simp [replacementPair])
  | page f => exact absurd h (by simp [replacementPair])

theorem transStep_append (pt : PageType) (sh rq : Bool) (acc : List Block) (b : Block)
    (hmod : b.isModl = false) :
    ∃ xs, transStep pt sh rq acc b = acc ++ xs := by
  cases hrp : replacementPair pt sh rq b with
  | none => exact ⟨[b], transStep_carry pt sh rq acc b hmod hrp⟩
  | some rc => exact ⟨[rc.1, rc.2], transStep_fn pt sh rq acc b rc hrp⟩

theorem extendFirst_none_iff (nm base : Str) : ∀ (l : List Block),
    extendFirst nm base l = none ↔ ∀ b ∈ l, b.isImpNamed nm = false := by
  intro l
  induction l with
  | nil => simp [extendFirst]
  | cons b bs ih =>
    cases b with
    | impt m =>
      simp only [extendFirst]
      by_cases hm : (m.name == nm) = true
      · rw [if_pos hm]
        simp only [List.mem_cons]
        constructor
        · intro h; exact Option.noConfusion h
        · intro h
          have := h (.impt m) (Or.inl rfl)
          rw [Block.isImpNamed] at this
          rw [hm] at this
          exact Bool.noConfusion this
      · rw [if_neg hm]
        simp only [Option.map_eq_none', ih, List.mem_cons]
        constructor
        · intro h x hx
          rcases hx with rfl | hx
          · rw [Block.isImpNamed]
            exact Bool.not_eq_true _ ▸ hm
          · exact h x hx
        · intro h x hx
          exact h x (Or.inr hx)
    | modl m =>
      simp only [extendFirst, Option.map_eq_none', ih, List.mem_cons]
      constructor
      · intro h x hx
        rcases hx with rfl | hx
        · rfl
        · exact h x hx
      · intro h x hx
        exact h x (Or.inr hx)
    | init f =>
      simp only [extendFirst, Option.map_eq_none', ih, List.mem_cons]
      constructor
      · intro h x hx
        rcases hx with rfl | hx
        · rfl
        · exact h x hx
      · intro h x hx
        exact h x (Or.inr hx)
    | update f =>
      simp only [extendFirst, Option.map_eq_none', ih, List.mem_cons]
      constructor
      · intro h x hx
        rcases hx with rfl | hx
        · rfl
        · exact h x hx
      · intro h x hx
        exact h x (Or.inr hx)
    | view f =>
      simp only [extendFirst, Option.map_eq_none', ih, List.mem_cons]
      constructor
      · intro h x hx
        rcases hx with rfl | hx
        · rfl
        · exact h x hx
      · intro h x hx
        exact h x (Or.inr hx)
    | subscriptions f =>
      simp only [extendFirst, Option.map_eq_none', ih, List.mem_cons]
      constructor
      · intro h x hx
        rcases hx with rfl | hx
        · rfl
        · exact h x hx
      · intro h x hx
        exact h x (Or.inr hx)
    | page f =>
      simp only [extendFirst, Option.map_eq_none', ih, List.mem_cons]
      constructor
      · intro h x hx
        rcases hx with rfl | hx
        · rfl
        · exact h x hx
      · intro h x hx
        exact h x (Or.inr hx)
    | other t =>
      simp only [extendFirst, Option.map_eq_none', ih, List.mem_cons]
      constructor
      · intro h x hx
        rcases hx with rfl | hx
        · rfl
        · exact h x hx
      · intro h x hx
        exact h x (Or.inr hx)

theorem isImpt_false_cases (b : Block) (hb : b.isImpt = false) (nm : Str) :
    b.isImpNamed nm = false := by
  cases b <;> first
    | rfl
    | exact absurd hb (by simp [Block.isImpt])

theorem extendFirst_cons_not_imp (nm base : Str) (b : Block) (bs : List Block)
    (hb : b.isImpt = false) :
    extendFirst nm base (b :: bs) = (extendFirst nm base bs).map (b :: ·) := by
  cases b <;> first
    | rfl
    | exact absurd hb (by simp [Block.isImpt])

theorem extendFirst_some_eq (nm base : Str) : ∀ (l l' : List Block),
    extendFirst nm base l = some l' →
    ∃ a m b, l = a ++ Block.impt m :: b ∧ m.name = nm ∧
      (∀ x ∈ a, x.isImpNamed nm = false) ∧
      l' = a ++ Block.impt ⟨m.name, some (mergeExposing base m.exposing_)⟩ :: b := by
  intro l
  induction l with
  | nil => intro l' h; exact absurd h (by simp [extendFirst])
  | cons b bs ih =>
    intro l' h
    by_cases hb : b.isImpt = true
    · obtain ⟨m, rfl⟩ : ∃ m, b = Block.impt m := by
        cases b <;> first
          | exact ⟨_, rfl⟩
          | exact absurd hb (by simp [Block.isImpt])
      simp only [extendFirst] at h
      by_cases hm : (m.name == nm) = true
      · rw [if_pos hm] at h
        simp only [Option.some.injEq] at h
        subst h
        exact ⟨[], m, bs, rfl, by simpa using hm, by simp, rfl⟩
      · rw [if_neg hm] at h
        obtain ⟨l₂, hl₂, rfl⟩ := Option.map_eq_some'.mp h
        obtain ⟨a, m', c, rfl, hnm, ha, rfl⟩ := ih l₂ hl₂
        refine ⟨Block.impt m :: a, m', c, rfl, hnm, ?_, rfl⟩
        intro x hx
        rcases List.mem_cons.mp hx with rfl | hx
        · simp only [Block.isImpNamed]
          exact Bool.not_eq_true _ ▸ hm
        · exact ha x hx
    · rw [Bool.not_eq_true] at hb
      rw [extendFirst_cons_not_imp nm base b bs hb] at h
      obtain ⟨l₂, hl₂, rfl⟩ := Option.map_eq_some'.mp h
      obtain ⟨a, m', c, rfl, hnm, ha, rfl⟩ := ih l₂ hl₂
      refine ⟨b :: a, m', c, rfl, hnm, ?_, rfl⟩
      intro x hx
      rcases List.mem_cons.mp hx with rfl | hx
      · exact isImpt_false_cases x hb nm
      · exact ha x hx

theorem extendFirst_countP {nm base : Str} {l l' : List Block}
    (h : extendFirst nm base l = some l') (p : Block → Bool)
    (hp : ∀ m, p (Block.impt m) =
      p (Block.impt ⟨m.name, some (mergeExposing base m.exposing_)⟩)) :
    l'.countP p = l.countP p := by
  obtain ⟨a, m, b, rfl, _, _, rfl⟩ := extendFirst_some_eq nm base _ _ h
  rw [List.countP_append, List.countP_append, List.countP_cons, List.countP_cons, hp m]

theorem foldl_preserve {α β : Type} (f : β → α → β) (P : β → Prop) :
    ∀ (l : List α), (∀ acc x, x ∈ l → P acc → P (f acc x)) →
      ∀ (acc : β), P acc → P (List.foldl f acc l) := by
  intro l
  induction l with
  | nil => intro _ acc h; exact h
  | cons x l ih =>
    intro hstep acc h
    exact ih (fun a y hy => hstep a y (by simp [hy])) (f acc x) (hstep acc x (by simp) h)

theorem pushIfAbsent_append (c : List Block → Bool) (t : Block) (bs : List Block) :
    ∃ xs, pushIfAbsent c t bs = bs ++ xs := by
  unfold pushIfAbsent
  by_cases h : c bs = true
  · exact ⟨[], by rw [if_pos h, List.append_nil]⟩
  · exact ⟨[t], by rw [if_neg h]⟩

theorem exists_append_trans {α : Type} {bs c d : List α}
    (h1 : ∃ x, c = bs ++ x) (h2 : ∃ y, d = c ++ y) : ∃ z, d = bs ++ z := by
  obtain ⟨x, rfl⟩ := h1
  obtain ⟨y, rfl⟩ := h2
  exact ⟨x ++ y, by rw [List.append_assoc]⟩

theorem backfill_suffix (pt : PageType) (sh rq : Bool) (bs : List Block) :
    ∃ xs, backfill pt sh rq bs = bs ++ xs := by
  simp only [backfill]
  by_cases hs : (pt != PageType.Static) = true
  · rw [if_pos hs]
    by_cases hb : (pt != PageType.Sandbox) = true
    · rw [if_pos hb]
      iterate 6 refine exists_append_trans ?_ (pushIfAbsent_append _ _ _)
      exact pushIfAbsent_append _ _ _
    · rw [if_neg hb]
      iterate 5 refine exists_append_trans ?_ (pushIfAbsent_append _ _ _)
      exact pushIfAbsent_append _ _ _
  · rw [if_neg hs]
    refine exists_append_trans ?_ (pushIfAbsent_append _ _ _)
    exact pushIfAbsent_append _ _ _

/-! ### Adjacent-pair tracking through the transformation (claim C1) -/

/-- The block `r` occurs in `l` immediately followed by the block `c`. -/
def pairAt (r c : Block) (l : List Block) : Prop :=
  ∃ i, l[i]? = some r ∧ l[i + 1]? = some c

theorem pairAt_append {r c : Block} {l : List Block} (h : pairAt r c l) (xs : List Block) :
    pairAt r c (l ++ xs) := by
  obtain ⟨i, h1, h2⟩ := h
  obtain ⟨hi1, _⟩ := List.getElem?_eq_some_iff.mp h1
  obtain ⟨hi2, _⟩ := List.getElem?_eq_some_iff.mp h2
  exact ⟨i, by rw [List.getElem?_append_left hi1]; exact h1,
    by rw [List.getElem?_append_left hi2]; exact h2⟩

theorem pairAt_cons {r c : Block} {l : List Block} (h : pairAt r c l) (x : Block) :
    pairAt r c (x :: l) := by
  obtain ⟨i, h1, h2⟩ := h
  exact ⟨i + 1, by rw [List.getElem?_cons_succ]; exact h1,
    by rw [List.getElem?_cons_succ]; exact h2⟩

theorem pairAt_established (r c : Block) (acc : List Block) :
    pairAt r c (acc ++ [r, c]) := by
  refine ⟨acc.length, ?_, ?_⟩
  · rw [List.getElem?_append_right (Nat.le_refl _), Nat.sub_self]
    rfl
  · rw [List.getElem?_append_right (Nat.le_succ_of_le (Nat.le_refl _))]
    have h : acc.length + 1 - acc.length = 1 := by omega
    rw [h]
    rfl

theorem pairAt_of_extendFirst {nm base : Str} {r c : Block} {l l' : List Block}
    (h : extendFirst nm base l = some l') (hr : r.isImpt = false) (hc : c.isImpt = false)
    (hp : pairAt r c l) : pairAt r c l' := by
  obtain ⟨a, m, bb, rfl, _, _, rfl⟩ := extendFirst_some_eq nm base _ _ h
  obtain ⟨i, h1, h2⟩ := hp
  have hi1 : i ≠ a.length := by
    intro he
    subst he
    rw [List.getElem?_append_right (Nat.le_refl _), Nat.sub_self] at h1
    simp only [List.getElem?_cons_zero, Option.some.injEq] at h1
    rw [← h1] at hr
    exact absurd hr (by simp [Block.isImpt])
  have hi2 : i + 1 ≠ a.length := by
    intro he
    rw [he] at h2
    rw [List.getElem?_append_right (Nat.le_refl _), Nat.sub_self] at h2
    simp only [List.getElem?_cons_zero, Option.some.injEq] at h2
    rw [← h2] at hc
    exact absurd hc (by simp [Block.isImpt])
  refine ⟨i, ?_, ?_⟩
  · rw [getElem?_append_middle a bb _ (Block.impt m) i hi1]
    exact h1
  · rw [getElem?_append_middle a bb _ (Block.impt m) (i + 1) hi2]
    exact h2

theorem replacementPair_not_imp (pt : PageType) (sh rq : Bool) (b : Block)
    (rc : Block × Block) (h : replacementPair pt sh rq b = some rc) :
    rc.1.isImpt = false ∧ rc.2.isImpt = false ∧ rc.1.isModl = false ∧ rc.2.isModl = false := by
  cases b <;> simp only [replacementPair, Option.some.injEq] at h <;> first
    | exact Option.noConfusion h
    | (subst h; exact ⟨rfl, rfl, rfl, rfl⟩)

theorem pairAt_transStep (pt : PageType) (sh rq : Bool) {r c : Block}
    (hr : r.isImpt = false) (hc : c.isImpt = false) (acc : List Block) (b : Block)
    (h : pairAt r c acc) : pairAt r c (transStep pt sh rq acc b) := by
  cases b with
  | modl m =>
    show pairAt r c (Block.modl _ :: _)
    apply pairAt_cons
    cases hef : extendFirst (gpName m.name) "Params".toList acc with
    | some a => exact pairAt_of_extendFirst hef hr hc h
    | none => exact pairAt_append h _
  | impt m => exact pairAt_append h _
  | other t => exact pairAt_append h _
  | init f => exact pairAt_append h _
  | update f => exact pairAt_append h _
  | view f => exact pairAt_append h _
  | subscriptions f => exact pairAt_append h _
  | page f => exact pairAt_append h _

theorem pairAt_foldl (pt : PageType) (sh rq : Bool) {r c : Block}
    (hr : r.isImpt = false) (hc : c.isImpt = false) (l : List Block) (acc : List Block)
    (h : pairAt r c acc) : pairAt r c (l.foldl (transStep pt sh rq) acc) :=
  foldl_preserve (transStep pt sh rq) (pairAt r c) l
    (fun a x _ hp => pairAt_transStep pt sh rq hr hc a x hp) acc h

theorem pairAt_foldl_mem (pt : PageType) (sh rq : Bool) {b : Block} {rc : Block × Block}
    (hrc : replacementPair pt sh rq b = some rc) :
    ∀ (l : List Block) (acc : List Block), b ∈ l →
      pairAt rc.1 rc.2 (l.foldl (transStep pt sh rq) acc) := by
  obtain ⟨hr, hc, _, _⟩ := replacementPair_not_imp pt sh rq b rc hrc
  intro l
  induction l with
  | nil => intro acc h; exact absurd h (by simp)
  | cons x l ih =>
    intro acc hmem
    rcases List.mem_cons.mp hmem with rfl | hmem
    · show pairAt rc.1 rc.2 (l.foldl (transStep pt sh rq) (transStep pt sh rq acc b))
      rw [transStep_fn pt sh rq acc b rc hrc]
      exact pairAt_foldl pt sh rq hr hc l _ (pairAt_established rc.1 rc.2 acc)
    · exact ih _ hmem

theorem mem_of_extendFirst {nm base : Str} {l l' : List Block} {b : Block}
    (h : extendFirst nm base l = some l') (hb : b ∈ l) (hbi : b.isImpt = false) : b ∈ l' := by
  obtain ⟨a, m, bb, rfl, _, _, rfl⟩ := extendFirst_some_eq nm base _ _ h
  rcases List.mem_append.mp hb with hb | hb
  · exact List.mem_append.mpr (Or.inl hb)
  · rcases List.mem_cons.mp hb with rfl | hb
    · exact absurd hbi (by simp [Block.isImpt])
    · exact List.mem_append.mpr (Or.inr (List.mem_cons_of_mem _ hb))

theorem mem_importPrelude_fst {p : Page} {pt : PageType} {sh rq : Bool} {b : Block}
    (hb : b ∈ p.blocks) (hbi : b.isImpt = false) : b ∈ (importPrelude p pt sh rq).1 := by
  simp only [importPrelude]
  cases hef : extendFirst "Page".toList "Page".toList p.blocks with
  | some s => exact mem_of_extendFirst hef hb hbi
  | none => exact hb

/-- C1: for every parsed page, archetype and toggle pair, every recognized
function block `b` of the input yields, in the transformed output, the
replacement block of the same kind immediately followed by an `Other` block
holding the original block's lines in order, each prefixed with `-- `
(`replacementPair` packages exactly this replacement/comment pair). -/
theorem c1_no_user_code_loss (p : Page) (pt : PageType) (shared request : Bool)
    (b : Block) (rc : Block × Block) (hb : b ∈ p.blocks)
    (hrc : replacementPair pt shared request b = some rc) :
    pairAt rc.1 rc.2 (p.to pt shared request).blocks := by
  obtain ⟨hr, hc, _, _⟩ := replacementPair_not_imp pt shared request b rc hrc
  have hbi : b.isImpt = false := by
    cases b <;> first
      | rfl
      | exact absurd hrc (by simp [replacementPair])
  have hmem : b ∈ (importPrelude p pt shared request).1 := mem_importPrelude_fst hb hbi
  show pairAt rc.1 rc.2 (backfill pt shared request _)
  obtain ⟨xs, hxs⟩ := backfill_suffix pt shared request
    ((importPrelude p pt shared request).1.foldl (transStep pt shared request)
      (importPrelude p pt shared request).2)
  rw [hxs]
  exact pairAt_append (pairAt_foldl_mem pt shared request hrc _ _ hmem) xs

/-- Witness for C1: a page holding one `init` block, transformed with
`Static`; the commented original directly follows the replacement. -/
theorem c1_witness :
    (Block.init ⟨["init x".toList]⟩ ∈ (Page.mk [Block.init ⟨["init x".toList]⟩]).blocks) ∧
      pairAt (Block.init ⟨tmplLines (PageType.init_template .Static false false)⟩)
        (Block.other (commentOut ["init x".toList]))
        ((Page.mk [Block.init ⟨["init x".toList]⟩]).to .Static false false).blocks :=
  ⟨by simp,
    c1_no_user_code_loss (Page.mk [Block.init ⟨["init x".toList]⟩]) .Static false false
      (Block.init ⟨["init x".toList]⟩)
      (Block.init ⟨tmplLines (PageType.init_template .Static false false)⟩,
        Block.other (commentOut ["init x".toList]))
      (by simp) rfl⟩

/-! ### The module header rewrite lands at index 0 (claim C2) -/

theorem filter_singleton_split {α : Type} (p : α → Bool) :
    ∀ (l : List α) (x : α), l.filter p = [x] →
      ∃ a b, l = a ++ x :: b ∧ p x = true ∧ (∀ y ∈ a, p y = false) ∧ (∀ y ∈ b, p y = false) := by
  intro l
  induction l with
  | nil => intro x h; exact absurd h (by simp)
  | cons z t ih =>
    intro x h
    rw [List.filter_cons] at h
    by_cases hz : p z = true
    · rw [if_pos hz] at h
      simp only [List.cons.injEq] at h
      obtain ⟨rfl, ht⟩ := h
      refine ⟨[], t, rfl, hz, by simp, ?_⟩
      intro y hy
      have := List.filter_eq_nil_iff.mp ht y hy
      exact Bool.not_eq_true _ ▸ this
    · rw [if_neg hz] at h
      obtain ⟨a, b, rfl, hx, ha, hb⟩ := ih x h
      refine ⟨z :: a, b, rfl, hx, ?_, hb⟩
      intro y hy
      rcases List.mem_cons.mp hy with rfl | hy
      · exact Bool.not_eq_true _ ▸ hz
      · exact ha y hy

theorem extendFirst_filter_modl {nm base : Str} {l l' : List Block}
    (h : extendFirst nm base l = some l') :
    l'.filter Block.isModl = l.filter Block.isModl := by
  obtain ⟨a, m, b, rfl, _, _, rfl⟩ := extendFirst_some_eq nm base _ _ h
  rw [List.filter_append, List.filter_append, List.filter_cons, List.filter_cons]
  rfl

theorem importPrelude_fst_filter_modl (p : Page) (pt : PageType) (sh rq : Bool) :
    (importPrelude p pt sh rq).1.filter Block.isModl = p.blocks.filter Block.isModl := by
  simp only [importPrelude]
  cases hef : extendFirst "Page".toList "Page".toList p.blocks with
  | some s => exact extendFirst_filter_modl hef
  | none => rfl

theorem head_foldl_preserved (pt : PageType) (sh rq : Bool) (l : List Block)
    (hl : ∀ x ∈ l, x.isModl = false) (acc : List Block) (x : Block)
    (hx : acc.head? = some x) : (l.foldl (transStep pt sh rq) acc).head? = some x := by
  apply foldl_preserve (transStep pt sh rq) (fun bs => bs.head? = some x) l
  · intro a y hy h
    obtain ⟨xs, hxs⟩ := transStep_append pt sh rq a y (hl y hy)
    rw [hxs, List.head?_append, h]
    rfl
  · exact hx

/-- C2: for every page containing exactly one module declaration, after
transformation the module declaration sits at index 0 of the output with its
exposing list replaced by the archetype's fixed exposed-name list — `page`
for `Static` and `page, Model, Msg` for the other three archetypes. -/
theorem c2_module_header_rewrite (p : Page) (pt : PageType) (shared request : Bool)
    (m : EModule) (hm : p.blocks.filter Block.isModl = [Block.modl m]) :
    (p.to pt shared request).blocks.head? =
      some (Block.modl ⟨m.name, some pt.exposing_template⟩) ∧
      PageType.exposing_template .Static = "page".toList ∧
      PageType.exposing_template .Sandbox = "page, Model, Msg".toList ∧
      PageType.exposing_template .Element = "page, Model, Msg".toList ∧
      PageType.exposing_template .Advanced = "page, Model, Msg".toList := by
  refine ⟨?_, rfl, rfl, rfl, rfl⟩
  have hms : (importPrelude p pt shared request).1.filter Block.isModl = [Block.modl m] := by
    rw [importPrelude_fst_filter_modl]
    exact hm
  obtain ⟨a, b, hsplit, _, ha, hb⟩ := filter_singleton_split Block.isModl _ _ hms
  show (backfill pt shared request _).head? = _
  obtain ⟨xs, hxs⟩ := backfill_suffix pt shared request
    ((importPrelude p pt shared request).1.foldl (transStep pt shared request)
      (importPrelude p pt shared request).2)
  rw [hxs, List.head?_append]
  have hfold : ((importPrelude p pt shared request).1.foldl (transStep pt shared request)
      (importPrelude p pt shared request).2).head? =
        some (Block.modl ⟨m.name, some pt.exposing_template⟩) := by
    rw [hsplit, List.foldl_append, List.foldl_cons]
    apply head_foldl_preserved pt shared request b hb
    rfl
  rw [hfold]
  rfl

/-- Witness for C2: one module declaration, `Sandbox` archetype. -/
theorem c2_witness :
    ((Page.mk [Block.modl ⟨"Pages.Home".toList, some "page".toList⟩]).blocks.filter
        Block.isModl = [Block.modl ⟨"Pages.Home".toList, some "page".toList⟩]) ∧
      ((Page.mk [Block.modl ⟨"Pages.Home".toList, some "page".toList⟩]).to
          .Sandbox true false).blocks.head? =
        some (Block.modl ⟨"Pages.Home".toList, some (PageType.exposing_template .Sandbox)⟩) :=
  ⟨rfl, (c2_module_header_rewrite
    (Page.mk [Block.modl ⟨"Pages.Home".toList, some "page".toList⟩]) .Sandbox true false
    ⟨"Pages.Home".toList, some "page".toList⟩ rfl).1⟩

/-! ### Counting imports by name through the transformation (claims C6, C7) -/

/-- The number of import blocks with the given module name. -/
def countImp (nm : Str) (l : List Block) : Nat := l.countP (Block.isImpNamed nm)

theorem countImp_append (nm : Str) (a b : List Block) :
    countImp nm (a ++ b) = countImp nm a + countImp nm b :=
  List.countP_append _ a b

theorem any_false_countP {α : Type} (p : α → Bool) (l : List α) (h : l.any p = false) :
    l.countP p = 0 := by
  rw [List.countP_eq_zero]
  intro a ha hpa
  rw [Bool.eq_false_iff] at h
  exact h (List.any_eq_true.mpr ⟨a, ha, hpa⟩)

theorem countP_zero_any_false {α : Type} (p : α → Bool) (l : List α) (h : l.countP p = 0) :
    l.any p = false := by
  rw [List.countP_eq_zero] at h
  rw [Bool.eq_false_iff]
  intro hany
  obtain ⟨a, ha, hpa⟩ := List.any_eq_true.mp hany
  exact h a ha hpa

theorem gpName_length (x : Str) : 11 ≤ (gpName x).length := by
  unfold gpName
  rw [List.length_append]
  have h : ("Gen.Params.".toList).length = 11 := by decide
  omega

theorem gpName_beq_short (x nm : Str) (h : nm.length ≤ 10) : (gpName x == nm) = false := by
  rw [beq_eq_false_iff_ne]
  intro he
  have h1 := gpName_length x
  rw [he] at h1
  omega

theorem countImp_transStep (pt : PageType) (sh rq : Bool) (nm : Str) (hel : nm.length ≤ 10)
    (acc : List Block) (b : Block) :
    countImp nm (transStep pt sh rq acc b) = countImp nm acc + countImp nm [b] := by
  cases b with
  | modl m =>
    show countImp nm (Block.modl _ :: _) = _
    rw [countImp, List.countP_cons]
    have hz : (Block.isImpNamed nm (Block.modl ⟨m.name, some pt.exposing_template⟩)) = false := rfl
    rw [hz, if_neg (by simp)]
    cases hef : extendFirst (gpName m.name) "Params".toList acc with
    | some a =>
      have := extendFirst_countP hef (Block.isImpNamed nm) (fun mm => rfl)
      show a.countP _ + 0 = _
      rw [this]
      rfl
    | none =>
      show (acc ++ [Block.impt ⟨gpName m.name, some "Params".toList⟩]).countP _ + 0 = _
      rw [List.countP_append, List.countP_cons]
      have hz2 : Block.isImpNamed nm (Block.impt ⟨gpName m.name, some "Params".toList⟩) = false :=
        gpName_beq_short m.name nm hel
      rw [hz2]
      simp [countImp]
      rfl
  | impt m =>
    show countImp nm (acc ++ [Block.impt m]) = _
    rw [countImp_append]
  | other t =>
    show countImp nm (acc ++ [Block.other t]) = _
    rw [countImp_append]
  | init f =>
    show countImp nm (acc ++ [Block.init _, Block.other _]) = _
    rw [countImp_append]
    rfl
  | update f =>
    show countImp nm (acc ++ [Block.update _, Block.other _]) = _
    rw [countImp_append]
    rfl
  | view f =>
    show countImp nm (acc ++ [Block.view _, Block.other _]) = _
    rw [countImp_append]
    rfl
  | subscriptions f =>
    show countImp nm (acc ++ [Block.subscriptions _, Block.other _]) = _
    rw [countImp_append]
    rfl
  | page f =>
    show countImp nm (acc ++ [Block.page _, Block.other _]) = _
    rw [countImp_append]
    rfl

theorem countImp_foldl (pt : PageType) (sh rq : Bool) (nm : Str) (hel : nm.length ≤ 10) :
    ∀ (l : List Block) (acc : List Block),
      countImp nm (l.foldl (transStep pt sh rq) acc) = countImp nm acc + countImp nm l := by
  intro l
  induction l with
  | nil => intro acc; simp [countImp]
  | cons x l ih =>
    intro acc
    show countImp nm (l.foldl _ (transStep pt sh rq acc x)) = _
    rw [ih, countImp_transStep pt sh rq nm hel]
    have hx : countImp nm (x :: l) = countImp nm [x] + countImp nm l := by
      simp [countImp, List.countP_cons]
      omega
    rw [hx]
    omega

theorem pushIfAbsent_countP (c : List Block → Bool) (t : Block) (bs : List Block)
    (p : Block → Bool) (hp : p t = false) :
    (pushIfAbsent c t bs).countP p = bs.countP p := by
  unfold pushIfAbsent
  by_cases h : c bs = true
  · rw [if_pos h]
  · rw [if_neg h, List.countP_append, List.countP_cons, hp]
    simp

theorem backfill_countP (pt : PageType) (sh rq : Bool) (bs : List Block) (p : Block → Bool)
    (hother : ∀ t, p (Block.other t) = false) :
    (backfill pt sh rq bs).countP p = bs.countP p := by
  simp only [backfill]
  by_cases hs : (pt != PageType.Static) = true
  · rw [if_pos hs]
    by_cases hb : (pt != PageType.Sandbox) = true
    · rw [if_pos hb]
      iterate 7 rw [pushIfAbsent_countP _ _ _ p (hother _)]
    · rw [if_neg hb]
      iterate 6 rw [pushIfAbsent_countP _ _ _ p (hother _)]
  · rw [if_neg hs]
    iterate 2 rw [pushIfAbsent_countP _ _ _ p (hother _)]

theorem importPrelude_fst_countImp (p : Page) (pt : PageType) (sh rq : Bool) (nm : Str) :
    countImp nm (importPrelude p pt sh rq).1 = countImp nm p.blocks := by
  simp only [importPrelude]
  cases hef : extendFirst "Page".toList "Page".toList p.blocks with
  | some s => exact extendFirst_countP hef (Block.isImpNamed nm) (fun mm => rfl)
  | none => rfl

theorem countImp_to (p : Page) (pt : PageType) (sh rq : Bool) (nm : Str)
    (hel : nm.length ≤ 10) :
    countImp nm (p.to pt sh rq).blocks =
      countImp nm (importPrelude p pt sh rq).2 + countImp nm p.blocks := by
  show countImp nm (backfill pt sh rq _) = _
  rw [countImp, backfill_countP pt sh rq _ _ (fun t => rfl)]
  rw [← countImp, countImp_foldl pt sh rq nm hel, importPrelude_fst_countImp]

/-- The page block list after the in-place `Page` import merge. -/
def pageMerged (p : Page) : List Block :=
  match extendFirst "Page".toList "Page".toList p.blocks with
  | some s => s
  | none => p.blocks

theorem importPrelude_fst_eq (p : Page) (pt : PageType) (sh rq : Bool) :
    (importPrelude p pt sh rq).1 = pageMerged p := by
  simp only [importPrelude, pageMerged]
  cases extendFirst "Page".toList "Page".toList p.blocks <;> rfl

theorem importPrelude_snd_eq (p : Page) (pt : PageType) (sh rq : Bool) :
    (importPrelude p pt sh rq).2 =
      (if (sh && !(p.blocks.any (Block.isImpNamed "Shared".toList))) = true
        then [Block.impt ⟨"Shared".toList, none⟩] else []) ++
      ((if (rq && !(p.blocks.any (Block.isImpNamed "Request".toList))) = true
        then [Block.impt ⟨"Request".toList, some "Request".toList⟩] else []) ++
      ((if (extendFirst "Page".toList "Page".toList p.blocks).isSome = true
        then [] else [Block.impt ⟨"Page".toList, some "Page".toList⟩]) ++
      (if (pt == PageType.Advanced &&
            !((pageMerged p).any (Block.isImpNamed "Effect".toList))) = true
        then [Block.impt ⟨"Effect".toList, some "Effect".toList⟩] else []))) := by
  simp only [importPrelude]
  cases hef : extendFirst "Page".toList "Page".toList p.blocks <;>
    simp only [pageMerged, hef, Option.isSome] <;> split_ifs <;> simp_all

theorem countImp_cond_push (nm : Str) (c : Prop) [Decidable c] (m : EModule) :
    countImp nm (if c then [Block.impt m] else []) =
      if c then (if (m.name == nm) = true then 1 else 0) else 0 := by
  by_cases h : c
  · rw [if_pos h, if_pos h]
    simp only [countImp, List.countP_cons, List.countP_nil, Block.isImpNamed]
    by_cases hm : (m.name == nm) = true
    · simp [hm]
    · simp [hm]
  · rw [if_neg h, if_neg h]
    rfl

theorem countImp_cond_push' (nm : Str) (c : Prop) [Decidable c] (m : EModule) :
    countImp nm (if c then [] else [Block.impt m]) =
      if c then 0 else (if (m.name == nm) = true then 1 else 0) := by
  by_cases h : c
  · rw [if_pos h, if_pos h]
    rfl
  · rw [if_neg h, if_neg h]
    simp only [countImp, List.countP_cons, List.countP_nil, Block.isImpNamed]
    by_cases hm : (m.name == nm) = true
    · simp [hm]
    · simp [hm]

theorem pageMerged_countImp (p : Page) (nm : Str) :
    countImp nm (pageMerged p) = countImp nm p.blocks := by
  unfold pageMerged
  cases hef : extendFirst "Page".toList "Page".toList p.blocks with
  | some s => exact extendFirst_countP hef (Block.isImpNamed nm) (fun mm => rfl)
  | none => rfl

theorem if_inner_zero (c : Prop) [Decidable c] :
    (if c then (if (false = true) then 1 else 0) else 0) = 0 := by
  split_ifs <;> simp_all

theorem if_inner_zero' (c : Prop) [Decidable c] :
    (if c then 0 else (if (false = true) then 1 else 0)) = 0 := by
  split_ifs <;> simp_all

theorem if_inner_one (c : Prop) [Decidable c] :
    (if c then (if (true = true) then 1 else 0) else 0) = (if c then 1 else 0) := by
  split_ifs <;> simp_all

theorem if_inner_one' (c : Prop) [Decidable c] :
    (if c then 0 else (if (true = true) then 1 else 0)) = (if c then 0 else 1) := by
  split_ifs <;> simp_all

theorem importPrelude_count (p : Page) (pt : PageType) (sh rq : Bool) (nm : Str)
    (hmem : nm = "Shared".toList ∨ nm = "Request".toList ∨ nm = "Page".toList ∨
      nm = "Effect".toList) :
    countImp nm (importPrelude p pt sh rq).2 ≤ 1 ∧
      (1 ≤ countImp nm (importPrelude p pt sh rq).2 → countImp nm p.blocks = 0) := by
  rw [importPrelude_snd_eq, countImp_append, countImp_append, countImp_append,
    countImp_cond_push, countImp_cond_push, countImp_cond_push, countImp_cond_push']
  rcases hmem with rfl | rfl | rfl | rfl
  · rw [(by decide : (("Request".toList : Str) == "Shared".toList) = false),
      (by decide : (("Page".toList : Str) == "Shared".toList) = false),
      (by decide : (("Effect".toList : Str) == "Shared".toList) = false),
      (by decide : (("Shared".toList : Str) == "Shared".toList) = true),
      if_inner_one, if_inner_zero, if_inner_zero', if_inner_zero]
    by_cases h1 : (sh && !(p.blocks.any (Block.isImpNamed "Shared".toList))) = true
    · rw [if_pos h1]
      have h1' : p.blocks.any (Block.isImpNamed "Shared".toList) = false := by
        simp only [Bool.and_eq_true] at h1
        simpa using h1.2
      exact ⟨by omega, fun _ => any_false_countP _ _ h1'⟩
    · rw [if_neg h1]
      exact ⟨by omega, by omega⟩
  · rw [(by decide : (("Shared".toList : Str) == "Request".toList) = false),
      (by decide : (("Page".toList : Str) == "Request".toList) = false),
      (by decide : (("Effect".toList : Str) == "Request".toList) = false),
      (by decide : (("Request".toList : Str) == "Request".toList) = true),
      if_inner_zero, if_inner_one, if_inner_zero', if_inner_zero]
    by_cases h2 : (rq && !(p.blocks.any (Block.isImpNamed "Request".toList))) = true
    · rw [if_pos h2]
      have h2' : p.blocks.any (Block.isImpNamed "Request".toList) = false := by
        simp only [Bool.and_eq_true] at h2
        simpa using h2.2
      exact ⟨by omega, fun _ => any_false_countP _ _ h2'⟩
    · rw [if_neg h2]
      exact ⟨by omega, by omega⟩
  · rw [(by decide : (("Shared".toList : Str) == "Page".toList) = false),
      (by decide : (("Request".toList : Str) == "Page".toList) = false),
      (by decide : (("Effect".toList : Str) == "Page".toList) = false),
      (by decide : (("Page".toList : Str) == "Page".toList) = true),
      if_inner_zero, if_inner_zero, if_inner_one', if_inner_zero]
    by_cases h3 : (extendFirst "Page".toList "Page".toList p.blocks).isSome = true
    · rw [if_pos h3]
      exact ⟨by omega, by omega⟩
    · rw [if_neg h3]
      have hef : extendFirst "Page".toList "Page".toList p.blocks = none := by
        cases hq : extendFirst "Page".toList "Page".toList p.blocks with
        | some s => rw [hq] at h3; exact absurd rfl h3
        | none => rfl
      have hz : countImp "Page".toList p.blocks = 0 := by
        rw [countImp, List.countP_eq_zero]
        intro a ha hpa
        have hno := (extendFirst_none_iff "Page".toList "Page".toList p.blocks).mp hef a ha
        rw [hno] at hpa
        exact Bool.noConfusion hpa
      exact ⟨by omega, fun _ => hz⟩
  · rw [(by decide : (("Shared".toList : Str) == "Effect".toList) = false),
      (by decide : (("Request".toList : Str) == "Effect".toList) = false),
      (by decide : (("Page".toList : Str) == "Effect".toList) = false),
      (by decide : (("Effect".toList : Str) == "Effect".toList) = true),
      if_inner_zero, if_inner_zero, if_inner_zero', if_inner_one]
    by_cases h4 : (pt == PageType.Advanced &&
        !((pageMerged p).any (Block.isImpNamed "Effect".toList))) = true
    · rw [if_pos h4]
      have h4' : (pageMerged p).any (Block.isImpNamed "Effect".toList) = false := by
        simp only [Bool.and_eq_true] at h4
        simpa using h4.2
      have hz : countImp "Effect".toList p.blocks = 0 := by
        rw [← pageMerged_countImp]
        exact any_false_countP _ _ h4'
      exact ⟨by omega, fun _ => hz⟩
    · rw [if_neg h4]
      exact ⟨by omega, by omega⟩

theorem countImp_to_le (p : Page) (pt : PageType) (sh rq : Bool) (nm : Str)
    (hmem : nm = "Shared".toList ∨ nm = "Request".toList ∨ nm = "Page".toList ∨
      nm = "Effect".toList) :
    countImp nm (p.to pt sh rq).blocks ≤ max 1 (countImp nm p.blocks) := by
  have hel : nm.length ≤ 10 := by
    rcases hmem with rfl | rfl | rfl | rfl <;> decide
  rw [countImp_to p pt sh rq nm hel]
  obtain ⟨hle, himp⟩ := importPrelude_count p pt sh rq nm hmem
  by_cases hz : countImp nm (importPrelude p pt sh rq).2 = 0
  · rw [hz]
    omega
  · have h1 : 1 ≤ countImp nm (importPrelude p pt sh rq).2 := by omega
    have h0 := himp h1
    rw [h0]
    omega

/-! ### The params-import merge searches only the accumulator (claim C7) -/

theorem countImp_transStep_not_modl (pt : PageType) (sh rq : Bool) (nm : Str)
    (acc : List Block) (b : Block) (hb : b.isModl = false) :
    countImp nm (transStep pt sh rq acc b) = countImp nm acc + countImp nm [b] := by
  cases b with
  | modl m => exact absurd hb (by simp [Block.isModl])
  | impt m =>
    show countImp nm (acc ++ [Block.impt m]) = _
    rw [countImp_append]
  | other t =>
    show countImp nm (acc ++ [Block.other t]) = _
    rw [countImp_append]
  | init f =>
    show countImp nm (acc ++ [Block.init _, Block.other _]) = _
    rw [countImp_append]
    rfl
  | update f =>
    show countImp nm (acc ++ [Block.update _, Block.other _]) = _
    rw [countImp_append]
    rfl
  | view f =>
    show countImp nm (acc ++ [Block.view _, Block.other _]) = _
    rw [countImp_append]
    rfl
  | subscriptions f =>
    show countImp nm (acc ++ [Block.subscriptions _, Block.other _]) = _
    rw [countImp_append]
    rfl
  | page f =>
    show countImp nm (acc ++ [Block.page _, Block.other _]) = _
    rw [countImp_append]
    rfl

theorem countImp_foldl_no_modl (pt : PageType) (sh rq : Bool) (nm : Str) :
    ∀ (l : List Block), (∀ x ∈ l, x.isModl = false) → ∀ (acc : List Block),
      countImp nm (l.foldl (transStep pt sh rq) acc) = countImp nm acc + countImp nm l := by
  intro l
  induction l with
  | nil => intro _ acc; simp [countImp]
  | cons x l ih =>
    intro hl acc
    show countImp nm (l.foldl _ (transStep pt sh rq acc x)) = _
    rw [ih (fun y hy => hl y (by simp [hy])) _,
      countImp_transStep_not_modl pt sh rq nm acc x (hl x (by simp))]
    have hx : countImp nm (x :: l) = countImp nm [x] + countImp nm l := by
      simp [countImp, List.countP_cons]
      omega
    rw [hx]
    omega

theorem extendFirst_some_of_count {nm base : Str} {l : List Block}
    (h : 1 ≤ countImp nm l) : ∃ l', extendFirst nm base l = some l' := by
  cases hef : extendFirst nm base l with
  | some l' => exact ⟨l', rfl⟩
  | none =>
    have hz : countImp nm l = 0 := by
      rw [countImp, List.countP_eq_zero]
      intro a ha hpa
      have := (extendFirst_none_iff nm base l).mp hef a ha
      rw [this] at hpa
      exact Bool.noConfusion hpa
    omega

theorem countImp_modl_step (pt : PageType) (sh rq : Bool) (m : EModule)
    (acc : List Block) :
    countImp (gpName m.name) (transStep pt sh rq acc (Block.modl m)) =
      countImp (gpName m.name) acc +
        (if countImp (gpName m.name) acc = 0 then 1 else 0) := by
  show countImp _ (Block.modl _ :: _) = _
  rw [countImp, List.countP_cons]
  have hz : Block.isImpNamed (gpName m.name)
      (Block.modl ⟨m.name, some pt.exposing_template⟩) = false := rfl
  rw [hz, if_neg (by simp)]
  by_cases hc : countImp (gpName m.name) acc = 0
  · have hef : extendFirst (gpName m.name) "Params".toList acc = none := by
      rw [extendFirst_none_iff]
      intro b hb
      rw [countImp, List.countP_eq_zero] at hc
      have := hc b hb
      exact Bool.not_eq_true _ ▸ this
    rw [hef]
    show (acc ++ [Block.impt ⟨gpName m.name, some "Params".toList⟩]).countP _ + 0 = _
    rw [List.countP_append, List.countP_cons]
    have hone : Block.isImpNamed (gpName m.name)
        (Block.impt ⟨gpName m.name, some "Params".toList⟩) = true := by
      show (gpName m.name == gpName m.name) = true
      exact beq_self_eq_true _
    rw [hone, if_pos rfl, if_pos hc]
    simp [countImp]
  · obtain ⟨l', hef⟩ := @extendFirst_some_of_count (gpName m.name) "Params".toList acc
      (by omega : 1 ≤ countImp (gpName m.name) acc)
    rw [hef]
    show l'.countP _ + 0 = _
    rw [extendFirst_countP hef (Block.isImpNamed (gpName m.name)) (fun mm => rfl), if_neg hc]
    rfl

theorem countImp_cons_impt_name (nm : Str) (m₁ m₂ : EModule) (h : m₁.name = m₂.name)
    (t : List Block) :
    countImp nm (Block.impt m₁ :: t) = countImp nm (Block.impt m₂ :: t) := by
  unfold countImp
  rw [List.countP_cons, List.countP_cons]
  show _ + (if (m₁.name == nm) = true then 1 else 0) =
    _ + (if (m₂.name == nm) = true then 1 else 0)
  rw [h]

theorem pageMerged_split (p : Page) (m : EModule) (l₁ l₂ : List Block)
    (hsplit : p.blocks = l₁ ++ Block.modl m :: l₂)
    (h₁ : ∀ x ∈ l₁, x.isModl = false) (h₂ : ∀ x ∈ l₂, x.isModl = false) (nm : Str) :
    ∃ l₁' l₂', pageMerged p = l₁' ++ Block.modl m :: l₂' ∧
      (∀ x ∈ l₁', x.isModl = false) ∧ (∀ x ∈ l₂', x.isModl = false) ∧
      countImp nm l₁' = countImp nm l₁ ∧ countImp nm l₂' = countImp nm l₂ := by
  unfold pageMerged
  cases hef : extendFirst "Page".toList "Page".toList p.blocks with
  | none => exact ⟨l₁, l₂, hsplit, h₁, h₂, rfl, rfl⟩
  | some s =>
    obtain ⟨a, mm, b, hdec, _, _, rfl⟩ := extendFirst_some_eq _ _ _ _ hef
    rw [hsplit] at hdec
    rcases List.append_eq_append_iff.mp hdec.symm with ⟨a', ha1, ha2⟩ | ⟨c', hc1, hc2⟩
    · cases a' with
      | nil =>
        rw [List.append_nil] at ha1
        simp only [List.nil_append] at ha2
        exact absurd ha2.symm (by intro hh; exact Block.noConfusion (List.cons.injEq .. ▸ hh).1)
      | cons y a'' =>
        have hy : y = Block.impt mm ∧ b = a'' ++ Block.modl m :: l₂ := by
          have := ha2
          rw [List.cons_append] at this
          exact ⟨(List.cons.injEq .. ▸ this).1.symm, (List.cons.injEq .. ▸ this).2⟩
        obtain ⟨rfl, rfl⟩ := hy
        refine ⟨a ++ Block.impt ⟨mm.name, some (mergeExposing "Page".toList mm.exposing_)⟩ :: a'',
          l₂, by simp, ?_, h₂, ?_, rfl⟩
        · intro x hx
          rcases List.mem_append.mp hx with hx | hx
          · exact h₁ x (by rw [ha1]; exact List.mem_append.mpr (Or.inl hx))
          · rcases List.mem_cons.mp hx with rfl | hx
            · rfl
            · exact h₁ x (by
                rw [ha1]
                exact List.mem_append.mpr (Or.inr (List.mem_cons_of_mem _ hx)))
        · rw [ha1, countImp_append, countImp_append,
            countImp_cons_impt_name nm
              ⟨mm.name, some (mergeExposing "Page".toList mm.exposing_)⟩ mm rfl a'']
    · cases c' with
      | nil =>
        rw [List.append_nil] at hc1
        simp only [List.nil_append] at hc2
        exact absurd hc2 (by intro hh; exact Block.noConfusion (List.cons.injEq .. ▸ hh).1)
      | cons y c'' =>
        have hy : y = Block.modl m ∧ l₂ = c'' ++ Block.impt mm :: b := by
          have := hc2
          rw [List.cons_append] at this
          exact ⟨(List.cons.injEq .. ▸ this).1.symm, (List.cons.injEq .. ▸ this).2⟩
        obtain ⟨rfl, rfl⟩ := hy
        rw [hc1]
        refine ⟨l₁, c'' ++ Block.impt ⟨mm.name, some (mergeExposing "Page".toList mm.exposing_)⟩ :: b,
          by simp, h₁, ?_, rfl, ?_⟩
        · intro x hx
          rcases List.mem_append.mp hx with hx | hx
          · exact h₂ x (List.mem_append.mpr (Or.inl hx))
          · rcases List.mem_cons.mp hx with rfl | hx
            · rfl
            · exact h₂ x (List.mem_append.mpr (Or.inr (List.mem_cons_of_mem _ hx)))
        · rw [countImp_append, countImp_append,
            countImp_cons_impt_name nm
              ⟨mm.name, some (mergeExposing "Page".toList mm.exposing_)⟩ mm rfl b]

theorem countImp_cons_zero (nm : Str) (b : Block) (t : List Block)
    (hb : Block.isImpNamed nm b = false) : countImp nm (b :: t) = countImp nm t := by
  unfold countImp
  rw [List.countP_cons, hb]
  simp

theorem short_beq_gpName (nm x : Str) (h : nm.length ≤ 10) : (nm == gpName x) = false := by
  rw [beq_eq_false_iff_ne]
  intro he
  have h1 := gpName_length x
  rw [← he] at h1
  omega

theorem countImp_prelude_gpName (p : Page) (pt : PageType) (sh rq : Bool) (x : Str) :
    countImp (gpName x) (importPrelude p pt sh rq).2 = 0 := by
  rw [importPrelude_snd_eq, countImp_append, countImp_append, countImp_append,
    countImp_cond_push, countImp_cond_push, countImp_cond_push, countImp_cond_push',
    short_beq_gpName ("Shared".toList) x (by decide),
    short_beq_gpName ("Request".toList) x (by decide),
    short_beq_gpName ("Page".toList) x (by decide),
    short_beq_gpName ("Effect".toList) x (by decide),
    if_inner_zero, if_inner_zero, if_inner_zero', if_inner_zero]

/-- Counterexample to C7 as stated: a page whose `Gen.Params` import follows
the module declaration; the merge search runs over the output accumulator,
misses the existing import, and inserts a fresh duplicate instead of
extending it. -/
theorem c7_counterexample :
    gpName "Pages.Home".toList = "Gen.Params.Home".toList ∧
      countImp "Gen.Params.Home".toList
        ((Page.mk [Block.modl ⟨"Pages.Home".toList, some "page".toList⟩,
          Block.impt ⟨"Gen.Params.Home".toList, some "Params".toList⟩]).to
            .Static false false).blocks = 2 := by
  constructor
  · decide
  · decide

/-- C7 (amended): the params-module name is derived by repeatedly stripping
the leading `Pages.` from the module name and prefixing `Gen.Params.`; the
merge searches only the output accumulator, which at module-processing time
holds the injected prelude imports and the input blocks preceding the
module declaration. Hence when an import of the derived name occurs before
the module declaration it is extended and no new import is inserted (the
output import count is unchanged), and otherwise a fresh import of the
derived name is inserted — even if one exists after the module declaration,
which is then duplicated. -/
theorem c7_params_import_scope (p : Page) (pt : PageType) (shared request : Bool)
    (m : EModule) (l₁ l₂ : List Block) (hsplit : p.blocks = l₁ ++ Block.modl m :: l₂)
    (h₁ : ∀ x ∈ l₁, x.isModl = false) (h₂ : ∀ x ∈ l₂, x.isModl = false) :
    (countImp (gpName m.name) l₁ = 0 →
      countImp (gpName m.name) (p.to pt shared request).blocks =
        countImp (gpName m.name) p.blocks + 1) ∧
    (1 ≤ countImp (gpName m.name) l₁ →
      countImp (gpName m.name) (p.to pt shared request).blocks =
        countImp (gpName m.name) p.blocks) := by
  obtain ⟨l₁', l₂', hms, h₁', h₂', hc1, hc2⟩ :=
    pageMerged_split p m l₁ l₂ hsplit h₁ h₂ (gpName m.name)
  have hpre : countImp (gpName m.name) (importPrelude p pt shared request).2 = 0 :=
    countImp_prelude_gpName p pt shared request m.name
  have hto : countImp (gpName m.name) (p.to pt shared request).blocks =
      countImp (gpName m.name) l₁' +
        (if countImp (gpName m.name) l₁' = 0 then 1 else 0) +
        countImp (gpName m.name) l₂' := by
    show countImp _ (backfill pt shared request _) = _
    rw [countImp, backfill_countP pt shared request _ _ (fun t => rfl), ← countImp]
    rw [importPrelude_fst_eq, hms, List.foldl_append, List.foldl_cons]
    rw [countImp_foldl_no_modl pt shared request (gpName m.name) l₂' h₂']
    rw [countImp_modl_step pt shared request m]
    rw [countImp_foldl_no_modl pt shared request (gpName m.name) l₁' h₁']
    rw [hpre]
    simp only [Nat.zero_add]
  have hp : countImp (gpName m.name) p.blocks =
      countImp (gpName m.name) l₁ + countImp (gpName m.name) l₂ := by
    rw [hsplit, countImp_append, countImp_cons_zero (gpName m.name) (Block.modl m) l₂ rfl]
  rw [hto, hp, hc1, hc2]
  constructor
  · intro h0
    rw [h0, if_pos rfl]
    omega
  · intro h1
    rw [if_neg (by omega)]
    omega

/-- Witness for C7: the `Gen.Params` import precedes the module declaration
and is merged in place; no duplicate import is inserted. -/
theorem c7_witness :
    (1 ≤ countImp (gpName "Pages.Home".toList)
        [Block.impt ⟨"Gen.Params.Home".toList, some "Params".toList⟩]) ∧
      countImp (gpName "Pages.Home".toList)
        ((Page.mk [Block.impt ⟨"Gen.Params.Home".toList, some "Params".toList⟩,
          Block.modl ⟨"Pages.Home".toList, some "page".toList⟩]).to
            .Static false false).blocks =
        countImp (gpName "Pages.Home".toList)
          (Page.mk [Block.impt ⟨"Gen.Params.Home".toList, some "Params".toList⟩,
            Block.modl ⟨"Pages.Home".toList, some "page".toList⟩]).blocks :=
  ⟨by decide,
    (c7_params_import_scope
      (Page.mk [Block.impt ⟨"Gen.Params.Home".toList, some "Params".toList⟩,
        Block.modl ⟨"Pages.Home".toList, some "page".toList⟩]) .Static false false
      ⟨"Pages.Home".toList, some "page".toList⟩
      [Block.impt ⟨"Gen.Params.Home".toList, some "Params".toList⟩] []
      rfl (by decide) (by decide)).2 (by decide)⟩

/-! ### Discipline of parsed blocks (used for claims C5 and C6) -/

/-- A well-behaved module/import descriptor as produced by the scanner:
nonempty whitespace-free name, no newline inside the exposing text. -/
def ModOK (m : EModule) : Prop :=
  m.name ≠ [] ∧ (∀ c ∈ m.name, isWsChar c = false) ∧
    (∀ e, m.exposing_ = some e → '\n' ∉ e)

/-- The invariant satisfied by every block produced by the scanner. -/
def ParsedOK : Block → Prop
  | .modl m => ModOK m
  | .impt m => ModOK m
  | .init f | .update f | .view f | .subscriptions f | .page f =>
    f.lines ≠ [] ∧ ∀ l ∈ f.lines, '\n' ∉ l ∧ trimEnd l = l
  | .other t => '\n' ∉ t ∧ trimEnd t = t ∧
      kwModule.isPrefixOf t = false ∧ kwImport.isPrefixOf t = false ∧
      kwInit.isPrefixOf t = false ∧ kwUpdate.isPrefixOf t = false ∧
      kwView.isPrefixOf t = false ∧ kwSubscriptions.isPrefixOf t = false ∧
      kwPage.isPrefixOf t = false

theorem consumeExposing_no_nl : ∀ (acc : Str) (ls : List Str), '\n' ∉ acc →
    (∀ x ∈ ls, '\n' ∉ x) → '\n' ∉ (consumeExposing acc ls).1 := by
  intro acc ls
  induction ls generalizing acc with
  | nil => intro h _; exact h
  | cons l ls ih =>
    intro hacc hls
    simp only [consumeExposing]
    have hmem : '\n' ∉ acc ++ l.takeWhile (fun c => c != ')') := by
      intro hmem
      rcases List.mem_append.mp hmem with h | h
      · exact hacc h
      · exact hls l (by simp) ((List.takeWhile_sublist _).mem h)
    by_cases h : endsParen l = true
    · rw [if_pos h]
      exact hmem
    · rw [if_neg h]
      exact ih _ hmem (fun x hx => hls x (by simp [hx]))

theorem EModule.parse_name {l : Str} {ls : List Str} {m : EModule} {rest : List Str}
    (h : EModule.parse l ls = .ok (m, rest)) : (splitWs l).get? 1 = some m.name := by
  unfold EModule.parse at h
  cases hg : (splitWs l).get? 1 with
  | none => rw [hg] at h; exact Except.noConfusion h
  | some nm =>
    rw [hg] at h
    simp only at h
    by_cases hc : containsSeq "exposing".toList l = true
    · rw [if_pos hc] at h
      by_cases hp : endsParen l = true
      · rw [if_pos hp] at h
        simp only [Except.ok.injEq, Prod.mk.injEq] at h
        rw [← h.1]
      · rw [if_neg hp] at h
        simp only [Except.ok.injEq, Prod.mk.injEq] at h
        rw [← h.1]
    · rw [if_neg hc] at h
      simp only [Except.ok.injEq, Prod.mk.injEq] at h
      rw [← h.1]

theorem EModule.parse_exposing_no_nl {l : Str} {ls : List Str} {m : EModule}
    {rest : List Str} (h : EModule.parse l ls = .ok (m, rest)) (hl : '\n' ∉ l)
    (hls : ∀ x ∈ ls, '\n' ∉ x) : ∀ e, m.exposing_ = some e → '\n' ∉ e := by
  have he0 : '\n' ∉ ((l.dropWhile (fun c => c != '(')).drop 1).takeWhile (fun c => c != ')') := by
    intro hmem
    exact hl ((List.dropWhile_sublist _).mem
      ((List.drop_sublist _ _).mem ((List.takeWhile_sublist _).mem hmem)))
  unfold EModule.parse at h
  cases hg : (splitWs l).get? 1 with
  | none => rw [hg] at h; exact Except.noConfusion h
  | some nm =>
    rw [hg] at h
    simp only at h
    by_cases hc : containsSeq "exposing".toList l = true
    · rw [if_pos hc] at h
      by_cases hp : endsParen l = true
      · rw [if_pos hp] at h
        simp only [Except.ok.injEq, Prod.mk.injEq] at h
        intro e he
        rw [← h.1] at he
        simp only [Option.some.injEq] at he
        rw [← he]
        exact he0
      · rw [if_neg hp] at h
        simp only [Except.ok.injEq, Prod.mk.injEq] at h
        intro e he
        rw [← h.1] at he
        simp only [Option.some.injEq] at he
        rw [← he]
        exact consumeExposing_no_nl _ ls he0 hls
    · rw [if_neg hc] at h
      simp only [Except.ok.injEq, Prod.mk.injEq] at h
      intro e he
      rw [← h.1] at he
      exact Option.noConfusion he

theorem token_ok_of_get {l : Str} {i : Nat} {nm : Str} (h : (splitWs l).get? i = some nm) :
    nm ≠ [] ∧ ∀ c ∈ nm, isWsChar c = false := by
  have hmem : nm ∈ splitWs l := by
    rw [List.get?_eq_getElem?] at h
    exact List.getElem?_mem h
  exact swGo_tokens l [] (by simp) nm hmem

theorem EModule.parse_modOK {l : Str} {ls : List Str} {m : EModule} {rest : List Str}
    (h : EModule.parse l ls = .ok (m, rest)) (hl : '\n' ∉ l)
    (hls : ∀ x ∈ ls, '\n' ∉ x) : ModOK m := by
  obtain ⟨h1, h2⟩ := token_ok_of_get (EModule.parse_name h)
  exact ⟨h1, h2, EModule.parse_exposing_no_nl h hl hls⟩

theorem EFunction.parse_lines {l : Str} {ls : List Str} {f : EFunction} {rest : List Str}
    (h : EFunction.parse l ls = .ok (f, rest)) :
    ∃ nm, (splitWs l).head? = some nm ∧ f.lines = l :: (ls.takeWhile (contLine nm)) := by
  unfold EFunction.parse at h
  cases hg : (splitWs l).head? with
  | none => rw [hg] at h; exact Except.noConfusion h
  | some nm =>
    rw [hg] at h
    simp only [Except.ok.injEq, Prod.mk.injEq] at h
    refine ⟨nm, rfl, ?_⟩
    rw [← h.1, absorbGo_eq]

theorem EModule.parse_rest_suffix {l : Str} {ls : List Str} {m : EModule} {rest : List Str}
    (h : EModule.parse l ls = .ok (m, rest)) : rest <:+ ls := by
  unfold EModule.parse at h
  cases hg : (splitWs l).get? 1 with
  | none => rw [hg] at h; exact Except.noConfusion h
  | some nm =>
    rw [hg] at h
    simp only at h
    by_cases hc : containsSeq "exposing".toList l = true
    · rw [if_pos hc] at h
      by_cases hp : endsParen l = true
      · rw [if_pos hp] at h
        simp only [Except.ok.injEq, Prod.mk.injEq] at h
        rw [← h.2]
      · rw [if_neg hp] at h
        simp only [Except.ok.injEq, Prod.mk.injEq] at h
        rw [← h.2]
        exact consumeExposing_suffix _ ls
    · rw [if_neg hc] at h
      simp only [Except.ok.injEq, Prod.mk.injEq] at h
      rw [← h.2]

theorem EFunction.parse_drop_suffix {l : Str} {ls : List Str} {f : EFunction}
    {rest : List Str} (h : EFunction.parse l ls = .ok (f, rest)) : rest <:+ ls := by
  unfold EFunction.parse at h
  cases hg : (splitWs l).head? with
  | none => rw [hg] at h; exact Except.noConfusion h
  | some nm =>
    rw [hg] at h
    simp only [Except.ok.injEq, Prod.mk.injEq] at h
    rw [← h.2]
    exact absorbGo_suffix nm ls

theorem trimEnd_leading (s : Str) : trimEnd s <+: s := by
  have h1 : List.dropWhile isWsChar s.reverse <:+ s.reverse := List.dropWhile_suffix _
  have h2 := List.reverse_prefix.mpr h1
  rwa [List.reverse_reverse] at h2

theorem parseLinesF_parsedOK : ∀ (fuel : Nat) (ls : List Str) (bs : List Block),
    parseLinesF fuel ls = .ok bs → (∀ l ∈ ls, '\n' ∉ l ∧ trimEnd l = l) →
    ∀ b ∈ bs, ParsedOK b := by
  intro fuel
  induction fuel with
  | zero =>
    intro ls bs h _ b hb
    cases ls with
    | nil =>
      simp only [parseLinesF, Except.ok.injEq] at h
      subst h
      exact absurd hb (by simp)
    | cons l ls => exact Except.noConfusion h
  | succ fuel ih =>
    intro ls bs h hls b hb
    cases ls with
    | nil =>
      simp only [parseLinesF, Except.ok.injEq] at h
      subst h
      exact absurd hb (by simp)
    | cons l ls =>
      have hl := hls l (by simp)
      have hls' : ∀ x ∈ ls, '\n' ∉ x ∧ trimEnd x = x :=
        fun x hx => hls x (List.mem_cons_of_mem _ hx)
      have hrest : ∀ rest : List Str, rest <:+ ls → ∀ x ∈ rest, '\n' ∉ x ∧ trimEnd x = x :=
        fun rest hsuf x hx => hls' x (hsuf.sublist.mem hx)
      have hmod : ∀ (mk : EModule → Block) (m : EModule) (rest : List Str),
          EModule.parse l ls = .ok (m, rest) → (∀ g, ParsedOK (mk g) = ModOK g) →
          (parseLinesF fuel rest).map (mk m :: ·) = .ok bs → ∀ b ∈ bs, ParsedOK b := by
        intro mk m rest hpar hmk hmap b hb
        cases hres : parseLinesF fuel rest with
        | error e => rw [hres] at hmap; exact Except.noConfusion hmap
        | ok bs' =>
          rw [hres] at hmap
          simp only [Except.map, Except.ok.injEq] at hmap
          subst hmap
          rcases List.mem_cons.mp hb with rfl | hb
          · rw [hmk m]
            exact EModule.parse_modOK hpar hl.1 (fun x hx => (hls' x hx).1)
          · exact ih rest bs' hres (hrest rest (EModule.parse_rest_suffix hpar)) b hb
      have hfn : ∀ (mk : EFunction → Block) (f : EFunction) (rest : List Str),
          EFunction.parse l ls = .ok (f, rest) →
          (∀ g, ParsedOK (mk g) = ((g.lines ≠ []) ∧ ∀ x ∈ g.lines, '\n' ∉ x ∧ trimEnd x = x)) →
          (parseLinesF fuel rest).map (mk f :: ·) = .ok bs → ∀ b ∈ bs, ParsedOK b := by
        intro mk f rest hpar hmk hmap b hb
        cases hres : parseLinesF fuel rest with
        | error e => rw [hres] at hmap; exact Except.noConfusion hmap
        | ok bs' =>
          rw [hres] at hmap
          simp only [Except.map, Except.ok.injEq] at hmap
          subst hmap
          rcases List.mem_cons.mp hb with rfl | hb
          · rw [hmk f]
            obtain ⟨nm, _, hlines⟩ := EFunction.parse_lines hpar
            rw [hlines]
            refine ⟨by simp, ?_⟩
            intro x hx
            rcases List.mem_cons.mp hx with rfl | hx
            · exact hl
            · exact hls' x ((List.takeWhile_sublist _).mem hx)
          · exact ih rest bs' hres (hrest rest (EFunction.parse_drop_suffix hpar)) b hb
      simp only [parseLinesF] at h
      by_cases h1 : kwModule.isPrefixOf l = true
      · rw [if_pos h1] at h
        cases hpar : EModule.parse l ls with
        | error e => rw [hpar] at h; exact Except.noConfusion h
        | ok pr =>
          obtain ⟨m, rest⟩ := pr
          rw [hpar] at h
          simp only at h
          exact hmod Block.modl m rest hpar (fun g => rfl) h b hb
      · rw [if_neg h1] at h
        by_cases h2 : kwImport.isPrefixOf l = true
        · rw [if_pos h2] at h
          cases hpar : EModule.parse l ls with
          | error e => rw [hpar] at h; exact Except.noConfusion h
          | ok pr =>
            obtain ⟨m, rest⟩ := pr
            rw [hpar] at h
            simp only at h
            exact hmod Block.impt m rest hpar (fun g => rfl) h b hb
        · rw [if_neg h2] at h
          by_cases h3 : kwInit.isPrefixOf l = true
          · rw [if_pos h3] at h
            cases hpar : EFunction.parse l ls with
            | error e => rw [hpar] at h; exact Except.noConfusion h
            | ok pr =>
              obtain ⟨f, rest⟩ := pr
              rw [hpar] at h
              simp only at h
              exact hfn Block.init f rest hpar (fun g => rfl) h b hb
          · rw [if_neg h3] at h
            by_cases h4 : kwUpdate.isPrefixOf l = true
            · rw [if_pos h4] at h
              cases hpar : EFunction.parse l ls with
              | error e => rw [hpar] at h; exact Except.noConfusion h
              | ok pr =>
                obtain ⟨f, rest⟩ := pr
                rw [hpar] at h
                simp only at h
                exact hfn Block.update f rest hpar (fun g => rfl) h b hb
            · rw [if_neg h4] at h
              by_cases h5 : kwView.isPrefixOf l = true
              · rw [if_pos h5] at h
                cases hpar : EFunction.parse l ls with
                | error e => rw [hpar] at h; exact Except.noConfusion h
                | ok pr =>
                  obtain ⟨f, rest⟩ := pr
                  rw [hpar] at h
                  simp only at h
                  exact hfn Block.view f rest hpar (fun g => rfl) h b hb
              · rw [if_neg h5] at h
                by_cases h6 : kwSubscriptions.isPrefixOf l = true
                · rw [if_pos h6] at h
                  cases hpar : EFunction.parse l ls with
                  | error e => rw [hpar] at h; exact Except.noConfusion h
                  | ok pr =>
                    obtain ⟨f, rest⟩ := pr
                    rw [hpar] at h
                    simp only at h
                    exact hfn Block.subscriptions f rest hpar (fun g => rfl) h b hb
                · rw [if_neg h6] at h
                  by_cases h7 : kwPage.isPrefixOf l = true
                  · rw [if_pos h7] at h
                    cases hpar : EFunction.parse l ls with
                    | error e => rw [hpar] at h; exact Except.noConfusion h
                    | ok pr =>
                      obtain ⟨f, rest⟩ := pr
                      rw [hpar] at h
                      simp only at h
                      exact hfn Block.page f rest hpar (fun g => rfl) h b hb
                  · rw [if_neg h7] at h
                    cases hres : parseLinesF fuel ls with
                    | error e => rw [hres] at h; exact Except.noConfusion h
                    | ok bs' =>
                      rw [hres] at h
                      simp only [Except.map, Except.ok.injEq] at h
                      subst h
                      rcases List.mem_cons.mp hb with rfl | hb
                      · exact ⟨hl.1, hl.2, Bool.not_eq_true _ ▸ h1, Bool.not_eq_true _ ▸ h2,
                          Bool.not_eq_true _ ▸ h3, Bool.not_eq_true _ ▸ h4,
                          Bool.not_eq_true _ ▸ h5, Bool.not_eq_true _ ▸ h6,
                          Bool.not_eq_true _ ▸ h7⟩
                      · exact ih ls bs' hres hls' b hb

theorem page_parse_parsedOK {text : Str} {p : Page} (h : Page.parse text = .ok p) :
    ∀ b ∈ p.blocks, ParsedOK b := by
  simp only [Page.parse] at h
  cases hres : parseLinesF (((linesRs text).map trimEnd).length + 1)
      ((linesRs text).map trimEnd) with
  | error e => rw [hres] at h; exact Except.noConfusion h
  | ok bs =>
    rw [hres] at h
    simp only [Except.map, Except.ok.injEq] at h
    subst h
    apply parseLinesF_parsedOK _ _ _ hres
    intro l hl
    obtain ⟨l₀, hl₀, rfl⟩ := List.mem_map.mp hl
    refine ⟨?_, trimEnd_idem l₀⟩
    intro hmem
    exact linesRs_mem_no_nl hl₀ ((trimEnd_leading l₀).sublist.mem hmem)

/-! ### Counting import lines in raw text (claim C6) -/

/-- A physical line the scanner reads as an import declaration of the given
module name: the `import ` prefix and the name as second token. -/
def impLine (nm : Str) (l : Str) : Bool :=
  kwImport.isPrefixOf l && ((splitWs l).get? 1 == some nm)

/-- The number of import lines of the given name. -/
def cntL (nm : Str) (ls : List Str) : Nat := ls.countP (impLine nm)

theorem cntL_suffix_le (nm : Str) {rest ls : List Str} (h : rest <:+ ls) :
    cntL nm rest ≤ cntL nm ls := by
  obtain ⟨pre, rfl⟩ := h
  rw [cntL, cntL, List.countP_append]
  omega

theorem some_beq_some {α : Type} [BEq α] [LawfulBEq α] (a b : α) :
    ((some a : Option α) == some b) = (a == b) := by
  by_cases h : a = b
  · subst h
    rw [beq_self_eq_true, beq_self_eq_true]
  · rw [beq_eq_false_iff_ne.mpr h, beq_eq_false_iff_ne.mpr ?_]
    intro hh
    exact h (by injection hh)

theorem parseLinesF_count_le : ∀ (fuel : Nat) (ls : List Str) (bs : List Block) (nm : Str),
    parseLinesF fuel ls = .ok bs → countImp nm bs ≤ cntL nm ls := by
  intro fuel
  induction fuel with
  | zero =>
    intro ls bs nm h
    cases ls with
    | nil =>
      simp only [parseLinesF, Except.ok.injEq] at h
      subst h
      simp [countImp]
    | cons l ls => exact Except.noConfusion h
  | succ fuel ih =>
    intro ls bs nm h
    cases ls with
    | nil =>
      simp only [parseLinesF, Except.ok.injEq] at h
      subst h
      simp [countImp]
    | cons l ls =>
      have hcons : ∀ (b : Block) (rest : List Str) (bs' : List Block),
          bs = b :: bs' → Block.isImpNamed nm b = false → rest <:+ ls →
          parseLinesF fuel rest = .ok bs' → countImp nm bs ≤ cntL nm (l :: ls) := by
        intro b rest bs' hbs hni hsuf hres
        subst hbs
        rw [countImp, List.countP_cons, hni]
        have hz : (if false = true then 1 else 0) = 0 := rfl
        rw [hz, Nat.add_zero, ← countImp]
        have h1 := ih rest bs' nm hres
        have h2 := cntL_suffix_le nm hsuf
        have h3 : cntL nm ls ≤ cntL nm (l :: ls) := by
          rw [cntL, cntL, List.countP_cons]
          omega
        omega
      simp only [parseLinesF] at h
      by_cases h1 : kwModule.isPrefixOf l = true
      · rw [if_pos h1] at h
        cases hpar : EModule.parse l ls with
        | error e => rw [hpar] at h; exact Except.noConfusion h
        | ok pr =>
          obtain ⟨m, rest⟩ := pr
          rw [hpar] at h
          simp only at h
          cases hres : parseLinesF fuel rest with
          | error e => rw [hres] at h; exact Except.noConfusion h
          | ok bs' =>
            rw [hres] at h
            simp only [Except.map, Except.ok.injEq] at h
            exact hcons _ rest bs' h.symm rfl (EModule.parse_rest_suffix hpar) hres
      · rw [if_neg h1] at h
        by_cases h2 : kwImport.isPrefixOf l = true
        · rw [if_pos h2] at h
          cases hpar : EModule.parse l ls with
          | error e => rw [hpar] at h; exact Except.noConfusion h
          | ok pr =>
            obtain ⟨m, rest⟩ := pr
            rw [hpar] at h
            simp only at h
            cases hres : parseLinesF fuel rest with
            | error e => rw [hres] at h; exact Except.noConfusion h
            | ok bs' =>
              rw [hres] at h
              simp only [Except.map, Except.ok.injEq] at h
              subst h
              have hind : impLine nm l = (m.name == nm) := by
                rw [impLine, h2, EModule.parse_name hpar, Bool.true_and, some_beq_some]
              have hhead : Block.isImpNamed nm (Block.impt m) = (m.name == nm) := rfl
              rw [countImp, List.countP_cons, hhead, cntL, List.countP_cons, hind,
                ← countImp, ← cntL]
              have hle1 := ih rest bs' nm hres
              have hle2 := cntL_suffix_le nm (EModule.parse_rest_suffix hpar)
              omega
        · rw [if_neg h2] at h
          have hfn : ∀ (mk : EFunction → Block),
              (∀ g, Block.isImpNamed nm (mk g) = false) →
              (match EFunction.parse l ls with
                | .error e => Except.error e
                | .ok (f, rest) => (parseLinesF fuel rest).map (mk f :: ·)) = .ok bs →
              countImp nm bs ≤ cntL nm (l :: ls) := by
            intro mk hni hmap
            cases hpar : EFunction.parse l ls with
            | error e => rw [hpar] at hmap; exact Except.noConfusion hmap
            | ok pr =>
              obtain ⟨f, rest⟩ := pr
              rw [hpar] at hmap
              simp only at hmap
              cases hres : parseLinesF fuel rest with
              | error e => rw [hres] at hmap; exact Except.noConfusion hmap
              | ok bs' =>
                rw [hres] at hmap
                simp only [Except.map, Except.ok.injEq] at hmap
                exact hcons _ rest bs' hmap.symm (hni f)
                  (EFunction.parse_drop_suffix hpar) hres
          by_cases h3 : kwInit.isPrefixOf l = true
          · rw [if_pos h3] at h
            exact hfn Block.init (fun g => rfl) h
          · rw [if_neg h3] at h
            by_cases h4 : kwUpdate.isPrefixOf l = true
            · rw [if_pos h4] at h
              exact hfn Block.update (fun g => rfl) h
            · rw [if_neg h4] at h
              by_cases h5 : kwView.isPrefixOf l = true
              · rw [if_pos h5] at h
                exact hfn Block.view (fun g => rfl) h
              · rw [if_neg h5] at h
                by_cases h6 : kwSubscriptions.isPrefixOf l = true
                · rw [if_pos h6] at h
                  exact hfn Block.subscriptions (fun g => rfl) h
                · rw [if_neg h6] at h
                  by_cases h7 : kwPage.isPrefixOf l = true
                  · rw [if_pos h7] at h
                    exact hfn Block.page (fun g => rfl) h
                  · rw [if_neg h7] at h
                    cases hres : parseLinesF fuel ls with
                    | error e => rw [hres] at h; exact Except.noConfusion h
                    | ok bs' =>
                      rw [hres] at h
                      simp only [Except.map, Except.ok.injEq] at h
                      exact hcons _ ls bs' h.symm rfl (List.suffix_refl _) hres

/-! ### Re-reading rendered lines: per-line import detection -/

theorem trimEnd_stripCr (l : Str) : trimEnd (stripCr l) = trimEnd l := by
  by_cases h : l.getLast? = some '\r'
  · obtain ⟨ys, rfl⟩ := List.getLast?_eq_some_iff.mp h
    have hs : stripCr (ys ++ ['\r']) = ys := by
      rw [stripCr, if_pos (by simp [List.getLast?_concat]), List.dropLast_concat]
    rw [hs, trimEnd_append_ws (by decide)]
  · rw [stripCr_eq_self h]

theorem isPrefixOf_of_trimEnd {a l : Str} (h : a.isPrefixOf (trimEnd l) = true) :
    a.isPrefixOf l = true :=
  List.isPrefixOf_iff_prefix.mpr ((List.isPrefixOf_iff_prefix.mp h).trans (trimEnd_leading l))

theorem impLine_not_import (nm : Str) {l : Str} (h : kwImport.isPrefixOf l = false) :
    impLine nm (trimEnd l) = false := by
  rw [impLine]
  cases hp : kwImport.isPrefixOf (trimEnd l) with
  | false => rfl
  | true => exact absurd (isPrefixOf_of_trimEnd hp) (by simp [h])

theorem import_not_prefix_module (x : Str) :
    kwImport.isPrefixOf ("module ".toList ++ x) = false := rfl

theorem import_not_prefix_comment (x : Str) :
    kwImport.isPrefixOf (commentMarker ++ x) = false := rfl

/-- Conditions under which a block renders to physical lines that are read
back (after trailing trim) with exactly the block's own import status: a
single import line for an import block, and no import line otherwise. -/
def RenderOK : Block → Prop
  | .modl m => '\n' ∉ m.name ∧ ∀ e, m.exposing_ = some e → '\n' ∉ e
  | .impt m => m.name ≠ [] ∧ (∀ c ∈ m.name, isWsChar c = false) ∧
      ∀ e, m.exposing_ = some e → '\n' ∉ e
  | .init f | .update f | .view f | .subscriptions f | .page f =>
      ∀ l ∈ f.lines, '\n' ∉ l ∧ kwImport.isPrefixOf l = false
  | .other t => ∀ x ∈ linesRs (t ++ ['\n']), kwImport.isPrefixOf x = false

theorem renderOK_modl {m : EModule}
    (h : '\n' ∉ m.name ∧ ∀ e, m.exposing_ = some e → '\n' ∉ e) :
    RenderOK (Block.modl m) := h

theorem renderOK_impt {m : EModule}
    (h : m.name ≠ [] ∧ (∀ c ∈ m.name, isWsChar c = false) ∧
      ∀ e, m.exposing_ = some e → '\n' ∉ e) :
    RenderOK (Block.impt m) := h

theorem renderOK_other {t : Str}
    (h : ∀ x ∈ linesRs (t ++ ['\n']), kwImport.isPrefixOf x = false) :
    RenderOK (Block.other t) := h

theorem cntL_single_line {l : Str} (nm : Str) (hl : '\n' ∉ l) :
    cntL nm ((linesRs (l ++ ['\n'])).map trimEnd) =
      if impLine nm (trimEnd l) = true then 1 else 0 := by
  rw [linesRs_single hl, List.map_cons, List.map_nil, trimEnd_stripCr, cntL,
    List.countP_cons, List.countP_nil, Nat.zero_add]

theorem linesRs_joined : ∀ (ls : List Str) (r : Str), (∀ l ∈ ls, '\n' ∉ l) →
    linesRs (ls.flatMap (fun l => l ++ ['\n']) ++ r) = ls.map stripCr ++ linesRs r := by
  intro ls
  induction ls with
  | nil => intro r _; rfl
  | cons l ls ih =>
    intro r h
    have h1 : '\n' ∉ l := h l (by simp)
    rw [List.flatMap_cons, List.append_assoc, List.append_assoc, List.singleton_append,
      linesRs_break h1,
      ih r (fun x hx => h x (by simp [hx])), List.map_cons, List.cons_append]

theorem cntL_map_zero {nm : Str} {ls : List Str}
    (h : ∀ x ∈ ls, kwImport.isPrefixOf x = false) :
    cntL nm (ls.map trimEnd) = 0 := by
  rw [cntL]
  apply List.countP_eq_zero.mpr
  intro x hx
  obtain ⟨y, hy, rfl⟩ := List.mem_map.mp hx
  simp only [Bool.not_eq_true]
  exact impLine_not_import nm (h y hy)

theorem render_getLast : ∀ (b : Block), (Block.render b).getLast? = some '\n'
  | .modl _ => List.getLast?_concat _
  | .impt _ => List.getLast?_concat _
  | .other _ => List.getLast?_concat _
  | .init _ => List.getLast?_concat _
  | .update _ => List.getLast?_concat _
  | .view _ => List.getLast?_concat _
  | .subscriptions _ => List.getLast?_concat _
  | .page _ => List.getLast?_concat _

theorem isPrefixOf_of_stripCr {a l : Str} (h : a.isPrefixOf (stripCr l) = true) :
    a.isPrefixOf l = true := by
  apply List.isPrefixOf_iff_prefix.mpr
  refine (List.isPrefixOf_iff_prefix.mp h).trans ?_
  rw [stripCr]
  by_cases hc : (l.getLast? == some '\r') = true
  · rw [if_pos hc]
    exact List.dropLast_prefix l
  · rw [if_neg hc]

theorem cntL_render_lines (nm : Str) (f : EFunction)
    (h : ∀ l ∈ f.lines, '\n' ∉ l ∧ kwImport.isPrefixOf l = false) :
    cntL nm ((linesRs (('\n' :: f.lines.flatMap (fun l => l ++ ['\n'])) ++ ['\n'])).map trimEnd)
      = 0 := by
  rw [List.cons_append]
  have hb : linesRs ([] ++ '\n' :: (f.lines.flatMap (fun l => l ++ ['\n']) ++ ['\n'])) =
      stripCr [] :: linesRs (f.lines.flatMap (fun l => l ++ ['\n']) ++ ['\n']) :=
    linesRs_break (by simp) _
  rw [List.nil_append] at hb
  rw [hb, linesRs_joined f.lines ['\n'] (fun l hl => (h l hl).1)]
  apply cntL_map_zero
  intro x hx
  rcases List.mem_cons.mp hx with rfl | hx
  · rfl
  · rcases List.mem_append.mp hx with hx | hx
    · obtain ⟨y, hy, rfl⟩ := List.mem_map.mp hx
      cases hp : kwImport.isPrefixOf (stripCr y) with
      | false => rfl
      | true => exact absurd (isPrefixOf_of_stripCr hp) (by simp [(h y hy).2])
    · have hone : linesRs ['\n'] = [[]] := by decide
      rw [hone] at hx
      rw [List.mem_singleton.mp hx]
      rfl

theorem getLast_nonWs_of_name {name : Str} (hne : name ≠ [])
    (hws : ∀ c ∈ name, isWsChar c = false) (pre : Str) :
    ∀ c, (pre ++ name).getLast? = some c → isWsChar c = false := by
  rcases List.eq_nil_or_concat name with rfl | ⟨ys, a, rfl⟩
  · exact absurd rfl hne
  · intro c hc
    rw [List.concat_eq_append, ← List.append_assoc, List.getLast?_concat] at hc
    injection hc with hc
    subst hc
    exact hws a (by simp)

theorem cntL_render_block (nm : Str) : ∀ (b : Block), RenderOK b →
    cntL nm ((linesRs (Block.render b)).map trimEnd) = countImp nm [b] := by
  intro b h
  cases b with
  | init f => exact cntL_render_lines nm f h
  | update f => exact cntL_render_lines nm f h
  | view f => exact cntL_render_lines nm f h
  | subscriptions f => exact cntL_render_lines nm f h
  | page f => exact cntL_render_lines nm f h
  | other t => exact cntL_map_zero h
  | modl m =>
    obtain ⟨hn, he⟩ := h
    have hnl : '\n' ∉ EModule.renderWith "module ".toList m := by
      unfold EModule.renderWith
      cases hexp : m.exposing_ with
      | none =>
        intro hmem
        rcases List.mem_append.mp hmem with hm | hm
        · exact absurd hm (by decide)
        · exact hn hm
      | some e =>
        intro hmem
        simp only [List.append_assoc, List.mem_append, List.mem_singleton] at hmem
        rcases hmem with hm | hm | hm | hm | hm
        · exact absurd hm (by decide)
        · exact hn hm
        · exact absurd hm (by decide)
        · exact he e hexp hm
        · exact absurd hm (by decide)
    have himp : kwImport.isPrefixOf (EModule.renderWith "module ".toList m) = false := by
      unfold EModule.renderWith
      cases m.exposing_ with
      | none => exact import_not_prefix_module _
      | some e =>
        simp only [List.append_assoc]
        exact import_not_prefix_module _
    show cntL nm ((linesRs (EModule.renderWith "module ".toList m ++ ['\n'])).map trimEnd) = _
    rw [cntL_single_line nm hnl, impLine_not_import nm himp]
    rfl
  | impt m =>
    obtain ⟨hne, hws, hexp⟩ := h
    have hnn : '\n' ∉ m.name := fun hm => absurd (hws _ hm) (by decide)
    have hcount : countImp nm [Block.impt m] = if (m.name == nm) = true then 1 else 0 := by
      rw [countImp, List.countP_cons, List.countP_nil, Nat.zero_add]
      rfl
    show cntL nm ((linesRs (EModule.renderWith "import ".toList m ++ ['\n'])).map trimEnd) = _
    cases hexm : m.exposing_ with
    | none =>
      have hren : EModule.renderWith "import ".toList m = kwImport ++ m.name := by
        unfold EModule.renderWith
        rw [hexm]
        rfl
      rw [hren]
      have hnl : '\n' ∉ kwImport ++ m.name := by
        intro hmem
        rcases List.mem_append.mp hmem with hm | hm
        · exact absurd hm (by decide)
        · exact hnn hm
      rw [cntL_single_line nm hnl]
      have htr : trimEnd (kwImport ++ m.name) = kwImport ++ m.name :=
        trimEnd_eq_self (getLast_nonWs_of_name hne hws _)
      have htok : (splitWs (kwImport ++ m.name)).get? 1 = some m.name := by
        rw [show kwImport ++ m.name = "import".toList ++ ' ' :: m.name from rfl,
          splitWs_kw "import".toList m.name (by decide) (by decide),
          swGo_last m.name [] hws, if_neg (by simpa using hne)]
        rfl
      have hil : impLine nm (trimEnd (kwImport ++ m.name)) = (m.name == nm) := by
        rw [htr, impLine, htok,
          List.isPrefixOf_iff_prefix.mpr (List.prefix_append kwImport m.name),
          Bool.true_and, some_beq_some]
      rw [hil, hcount]
    | some e =>
      have hren : EModule.renderWith "import ".toList m =
          kwImport ++ m.name ++ " exposing (".toList ++ e ++ [')'] := by
        unfold EModule.renderWith
        rw [hexm]
        rfl
      rw [hren]
      have hee : '\n' ∉ e := hexp e hexm
      have hnl : '\n' ∉ kwImport ++ m.name ++ " exposing (".toList ++ e ++ [')'] := by
        intro hmem
        simp only [List.append_assoc, List.mem_append, List.mem_singleton] at hmem
        rcases hmem with hm | hm | hm | hm | hm
        · exact absurd hm (by decide)
        · exact hnn hm
        · exact absurd hm (by decide)
        · exact hee hm
        · exact absurd hm (by decide)
      rw [cntL_single_line nm hnl]
      have htr : trimEnd (kwImport ++ m.name ++ " exposing (".toList ++ e ++ [')'])
          = kwImport ++ m.name ++ " exposing (".toList ++ e ++ [')'] := by
        apply trimEnd_eq_self
        intro c hc
        rw [List.getLast?_concat] at hc
        injection hc with hc
        subst hc
        decide
      have hsp : kwImport ++ m.name ++ " exposing (".toList ++ e ++ [')'] =
          "import".toList ++ ' ' ::
            (m.name ++ ' ' :: ("exposing (".toList ++ (e ++ [')']))) := by
        simp only [List.append_assoc]
        rfl
      have htok : (splitWs (kwImport ++ m.name ++ " exposing (".toList ++ e ++ [')'])).get? 1
          = some m.name := by
        rw [hsp, splitWs_kw "import".toList _ (by decide) (by decide),
          swGo_run m.name ("exposing (".toList ++ (e ++ [')'])) [] hws,
          if_neg (by simpa using hne)]
        rfl
      have hpre : kwImport.isPrefixOf
          (kwImport ++ m.name ++ " exposing (".toList ++ e ++ [')']) = true := by
        simp only [List.append_assoc]
        exact List.isPrefixOf_iff_prefix.mpr (List.prefix_append _ _)
      have hil : impLine nm (trimEnd (kwImport ++ m.name ++ " exposing (".toList ++ e ++ [')']))
          = (m.name == nm) := by
        rw [htr, impLine, htok, hpre, Bool.true_and, some_beq_some]
      rw [hil, hcount]

theorem cntL_render_page (nm : Str) : ∀ (bs : List Block), (∀ b ∈ bs, RenderOK b) →
    cntL nm ((linesRs (bs.flatMap Block.render)).map trimEnd) = countImp nm bs := by
  intro bs
  induction bs with
  | nil => intro _; rfl
  | cons b bs ih =>
    intro h
    rw [List.flatMap_cons, linesRs_append _ _ (render_getLast b), List.map_append,
      cntL, List.countP_append, ← cntL, ← cntL,
      cntL_render_block nm b (h b (by simp)),
      ih (fun x hx => h x (by simp [hx])),
      show (b :: bs) = [b] ++ bs from rfl, countImp_append]

theorem parse_render_count (nm : Str) (q : Page) (hq : ∀ b ∈ q.blocks, RenderOK b)
    (r : Page) (hr : Page.parse (Page.render q) = .ok r) :
    countImp nm r.blocks ≤ countImp nm q.blocks := by
  simp only [Page.parse] at hr
  cases hpl : parseLinesF (((linesRs (Page.render q)).map trimEnd).length + 1)
      ((linesRs (Page.render q)).map trimEnd) with
  | error e =>
    rw [hpl] at hr
    exact Except.noConfusion hr
  | ok bs =>
    rw [hpl] at hr
    simp only [Except.map, Except.ok.injEq] at hr
    have hcnt := parseLinesF_count_le _ _ bs nm hpl
    rw [← hr]
    show countImp nm bs ≤ _
    calc countImp nm bs ≤ cntL nm ((linesRs (Page.render q)).map trimEnd) := hcnt
      _ = countImp nm q.blocks := cntL_render_page nm q.blocks hq

/-! ### Every block of a transformed page renders back faithfully -/

theorem tsmGo_suffix (pat : Str) : ∀ (fuel : Nat) (s : Str), tsmGo pat fuel s <:+ s := by
  intro fuel
  induction fuel with
  | zero => intro s; exact List.suffix_refl s
  | succ fuel ih =>
    intro s
    show (if pat.isPrefixOf s then tsmGo pat fuel (s.drop pat.length) else s) <:+ s
    by_cases h : pat.isPrefixOf s = true
    · rw [if_pos h]
      exact (ih (s.drop pat.length)).trans (List.drop_suffix _ s)
    · rw [if_neg h]

theorem gpName_ne_nil (s : Str) : gpName s ≠ [] := by
  rw [gpName]
  simp

theorem gpName_no_ws {s : Str} (hs : ∀ c ∈ s, isWsChar c = false) :
    ∀ c ∈ gpName s, isWsChar c = false := by
  intro c hc
  rw [gpName] at hc
  rcases List.mem_append.mp hc with hm | hm
  · have : ∀ x ∈ "Gen.Params.".toList, isWsChar x = false := by decide
    exact this c hm
  · exact hs c ((tsmGo_suffix "Pages.".toList _ s).sublist.mem hm)

theorem mem_cond_singleton {c : Prop} [Decidable c] {b x : Block}
    (h : b ∈ if c then [x] else []) : b = x := by
  by_cases hc : c
  · rw [if_pos hc] at h
    exact List.mem_singleton.mp h
  · rw [if_neg hc] at h
    exact absurd h (List.not_mem_nil b)

theorem mem_cond_singleton' {c : Prop} [Decidable c] {b x : Block}
    (h : b ∈ if c then [] else [x]) : b = x := by
  by_cases hc : c
  · rw [if_pos hc] at h
    exact absurd h (List.not_mem_nil b)
  · rw [if_neg hc] at h
    exact List.mem_singleton.mp h

theorem pushIfAbsent_mem {c : List Block → Bool} {t : Block} {bs : List Block} {b : Block}
    (h : b ∈ pushIfAbsent c t bs) : b ∈ bs ∨ b = t := by
  rw [pushIfAbsent] at h
  by_cases hc : c bs = true
  · rw [if_pos hc] at h
    exact Or.inl h
  · rw [if_neg hc] at h
    rcases List.mem_append.mp h with hm | hm
    · exact Or.inl hm
    · exact Or.inr (List.mem_singleton.mp hm)

theorem linesRs_joinNl : ∀ (ls : List Str), ls ≠ [] → (∀ l ∈ ls, '\n' ∉ l) →
    linesRs (joinNl ls ++ ['\n']) = ls.map stripCr := by
  intro ls
  induction ls with
  | nil => intro h _; exact absurd rfl h
  | cons l ls ih =>
    intro _ h
    cases ls with
    | nil =>
      show linesRs (l ++ ['\n']) = [stripCr l]
      exact linesRs_single (h l (by simp))
    | cons l' ls' =>
      show linesRs ((l ++ '\n' :: joinNl (l' :: ls')) ++ ['\n']) = _
      rw [List.append_assoc, List.cons_append, linesRs_break (h l (by simp)),
        ih (by simp) (fun x hx => h x (by simp [hx]))]
      rfl

theorem renderOK_parsed : ∀ (b : Block), ParsedOK b → Block.isInit b = false →
    Block.isUpdate b = false → Block.isView b = false → Block.isSubscriptions b = false →
    Block.isPageFn b = false → RenderOK b := by
  intro b hp h1 h2 h3 h4 h5
  cases b with
  | init f => exact Bool.noConfusion h1
  | update f => exact Bool.noConfusion h2
  | view f => exact Bool.noConfusion h3
  | subscriptions f => exact Bool.noConfusion h4
  | page f => exact Bool.noConfusion h5
  | modl m =>
    obtain ⟨hne, hws, hexp⟩ := hp
    exact ⟨fun hm => absurd (hws _ hm) (by decide), hexp⟩
  | impt m => exact hp
  | other t =>
    obtain ⟨hnl, htr, _, himp, _⟩ := hp
    apply renderOK_other
    intro x hx
    rw [linesRs_single hnl] at hx
    rw [List.mem_singleton.mp hx]
    cases hc : kwImport.isPrefixOf (stripCr t) with
    | false => rfl
    | true => exact absurd (isPrefixOf_of_stripCr hc) (by simp [himp])

theorem expT_no_nl (pt : PageType) : '\n' ∉ pt.exposing_template := by
  cases pt <;> decide

theorem tmpl_init_noImport (pt : PageType) (sh rq : Bool) :
    ∀ l ∈ tmplLines (pt.init_template sh rq), kwImport.isPrefixOf l = false := by
  cases pt <;> cases sh <;> cases rq <;> decide

theorem tmpl_update_noImport (pt : PageType) (sh rq : Bool) :
    ∀ l ∈ tmplLines (pt.update_template sh rq), kwImport.isPrefixOf l = false := by
  cases pt <;> cases sh <;> cases rq <;> decide

theorem tmpl_view_noImport (pt : PageType) (sh rq : Bool) :
    ∀ l ∈ tmplLines (pt.view_template sh rq), kwImport.isPrefixOf l = false := by
  cases pt <;> cases sh <;> cases rq <;> decide

theorem tmpl_subscriptions_noImport (pt : PageType) (sh rq : Bool) :
    ∀ l ∈ tmplLines (pt.subscriptions_template sh rq), kwImport.isPrefixOf l = false := by
  cases pt <;> cases sh <;> cases rq <;> decide

theorem tmpl_page_noImport (pt : PageType) (sh rq : Bool) :
    ∀ l ∈ tmplLines (pt.page_template sh rq), kwImport.isPrefixOf l = false := by
  cases pt <;> cases sh <;> cases rq <;> decide

theorem otxt_page_noImport (pt : PageType) (sh rq : Bool) :
    ∀ x ∈ linesRs (pt.page_template sh rq ++ ['\n']), kwImport.isPrefixOf x = false := by
  cases pt <;> cases sh <;> cases rq <;> decide

theorem otxt_init_noImport (pt : PageType) (sh rq : Bool) :
    ∀ x ∈ linesRs (pt.init_template sh rq ++ ['\n']), kwImport.isPrefixOf x = false := by
  cases pt <;> cases sh <;> cases rq <;> decide

theorem otxt_update_noImport (pt : PageType) (sh rq : Bool) :
    ∀ x ∈ linesRs (pt.update_template sh rq ++ ['\n']), kwImport.isPrefixOf x = false := by
  cases pt <;> cases sh <;> cases rq <;> decide

theorem otxt_view_noImport (pt : PageType) (sh rq : Bool) :
    ∀ x ∈ linesRs (pt.view_template sh rq ++ ['\n']), kwImport.isPrefixOf x = false := by
  cases pt <;> cases sh <;> cases rq <;> decide

theorem otxt_subscriptions_noImport (pt : PageType) (sh rq : Bool) :
    ∀ x ∈ linesRs (pt.subscriptions_template sh rq ++ ['\n']), kwImport.isPrefixOf x = false := by
  cases pt <;> cases sh <;> cases rq <;> decide

theorem otxt_modelAlias_noImport :
    ∀ x ∈ linesRs (modelAliasText ++ ['\n']), kwImport.isPrefixOf x = false := by
  decide

theorem otxt_msgType_noImport :
    ∀ x ∈ linesRs (msgTypeText ++ ['\n']), kwImport.isPrefixOf x = false := by
  decide

theorem mergeExposing_no_nl {base : Str} (hb : '\n' ∉ base) {o : Option Str}
    (ho : ∀ e, o = some e → '\n' ∉ e) : '\n' ∉ mergeExposing base o := by
  cases o with
  | none => exact hb
  | some e =>
    show '\n' ∉ base ++ ", ".toList ++ e
    intro hm
    simp only [List.append_assoc, List.mem_append] at hm
    rcases hm with hm | hm | hm
    · exact hb hm
    · exact absurd hm (by decide)
    · exact ho e rfl hm

theorem renderOK_merge {m : EModule} (h : RenderOK (Block.impt m)) (base : Str)
    (hb : '\n' ∉ base) :
    RenderOK (Block.impt ⟨m.name, some (mergeExposing base m.exposing_)⟩) := by
  obtain ⟨hne, hws, hexp⟩ := h
  refine renderOK_impt ⟨hne, hws, ?_⟩
  intro e he
  injection he with he
  subst he
  exact mergeExposing_no_nl hb hexp

theorem parsedOK_merge {m : EModule} (h : ParsedOK (Block.impt m)) (base : Str)
    (hb : '\n' ∉ base) :
    ParsedOK (Block.impt ⟨m.name, some (mergeExposing base m.exposing_)⟩) := by
  obtain ⟨hne, hws, hexp⟩ := h
  refine ⟨hne, hws, ?_⟩
  intro e he
  injection he with he
  subst he
  exact mergeExposing_no_nl hb hexp

theorem parsedOK_importPrelude_fst {p : Page} {pt : PageType} {sh rq : Bool}
    (hp : ∀ b ∈ p.blocks, ParsedOK b) :
    ∀ b ∈ (importPrelude p pt sh rq).1, ParsedOK b := by
  rw [importPrelude_fst_eq]
  intro b hb
  rw [pageMerged] at hb
  cases hef : extendFirst "Page".toList "Page".toList p.blocks with
  | none =>
    rw [hef] at hb
    exact hp b hb
  | some s =>
    rw [hef] at hb
    obtain ⟨a, mm, bb, hl, hnm, _, hl'⟩ := extendFirst_some_eq _ _ _ _ hef
    subst hl'
    rcases List.mem_append.mp hb with hm | hm
    · exact hp b (hl.symm ▸ List.mem_append.mpr (Or.inl hm))
    · rcases List.mem_cons.mp hm with rfl | hm
      · exact parsedOK_merge
          (hp _ (hl.symm ▸ List.mem_append.mpr (Or.inr (by simp)))) _ (by decide)
      · exact hp b (hl.symm ▸ List.mem_append.mpr (Or.inr (by simp [hm])))

theorem renderOK_commentOut {ls : List Str} (hne : ls ≠ []) (hnl : ∀ l ∈ ls, '\n' ∉ l) :
    RenderOK (Block.other (commentOut ls)) := by
  apply renderOK_other
  intro x hx
  have hnn : ∀ l ∈ ls.map (fun l => commentMarker ++ l), '\n' ∉ l := by
    intro l hl
    obtain ⟨y, hy, rfl⟩ := List.mem_map.mp hl
    intro hm
    rcases List.mem_append.mp hm with h | h
    · exact absurd h (by decide)
    · exact hnl y hy h
  rw [commentOut, linesRs_joinNl _ (by simpa using hne) hnn] at hx
  obtain ⟨y, hy, rfl⟩ := List.mem_map.mp hx
  obtain ⟨z, hz, rfl⟩ := List.mem_map.mp hy
  cases hc : kwImport.isPrefixOf (stripCr (commentMarker ++ z)) with
  | false => rfl
  | true =>
    have hp := isPrefixOf_of_stripCr hc
    rw [import_not_prefix_comment] at hp
    exact Bool.noConfusion hp

theorem renderOK_tmpl_fn {t : Str} (hni : ∀ l ∈ tmplLines t, kwImport.isPrefixOf l = false) :
    ∀ l ∈ (EFunction.mk (tmplLines t)).lines, '\n' ∉ l ∧ kwImport.isPrefixOf l = false :=
  fun l hl => ⟨linesRs_mem_no_nl hl, hni l hl⟩

theorem renderOK_transStep (pt : PageType) (sh rq : Bool) (acc : List Block) (x : Block)
    (hx : ParsedOK x) (hacc : ∀ b ∈ acc, RenderOK b) :
    ∀ b ∈ transStep pt sh rq acc x, RenderOK b := by
  intro b hb
  cases x with
  | impt m =>
    rw [transStep_carry pt sh rq acc (Block.impt m) rfl rfl] at hb
    rcases List.mem_append.mp hb with hm | hm
    · exact hacc b hm
    · rw [List.mem_singleton.mp hm]
      exact renderOK_parsed _ hx rfl rfl rfl rfl rfl
  | other t =>
    rw [transStep_carry pt sh rq acc (Block.other t) rfl rfl] at hb
    rcases List.mem_append.mp hb with hm | hm
    · exact hacc b hm
    · rw [List.mem_singleton.mp hm]
      exact renderOK_parsed _ hx rfl rfl rfl rfl rfl
  | init f =>
    rw [transStep_fn pt sh rq acc (Block.init f)
      (Block.init ⟨tmplLines (pt.init_template sh rq)⟩,
        Block.other (commentOut f.lines)) rfl] at hb
    rcases List.mem_append.mp hb with hm | hm
    · exact hacc b hm
    · rcases List.mem_cons.mp hm with rfl | hm
      · exact renderOK_tmpl_fn (tmpl_init_noImport pt sh rq)
      · rw [List.mem_singleton.mp hm]
        exact renderOK_commentOut hx.1 (fun l hl => (hx.2 l hl).1)
  | update f =>
    rw [transStep_fn pt sh rq acc (Block.update f)
      (Block.update ⟨tmplLines (pt.update_template sh rq)⟩,
        Block.other (commentOut f.lines)) rfl] at hb
    rcases List.mem_append.mp hb with hm | hm
    · exact hacc b hm
    · rcases List.mem_cons.mp hm with rfl | hm
      · exact renderOK_tmpl_fn (tmpl_update_noImport pt sh rq)
      · rw [List.mem_singleton.mp hm]
        exact renderOK_commentOut hx.1 (fun l hl => (hx.2 l hl).1)
  | view f =>
    rw [transStep_fn pt sh rq acc (Block.view f)
      (Block.view ⟨tmplLines (pt.view_template sh rq)⟩,
        Block.other (commentOut f.lines)) rfl] at hb
    rcases List.mem_append.mp hb with hm | hm
    · exact hacc b hm
    · rcases List.mem_cons.mp hm with rfl | hm
      · exact renderOK_tmpl_fn (tmpl_view_noImport pt sh rq)
      · rw [List.mem_singleton.mp hm]
        exact renderOK_commentOut hx.1 (fun l hl => (hx.2 l hl).1)
  | subscriptions f =>
    rw [transStep_fn pt sh rq acc (Block.subscriptions f)
      (Block.subscriptions ⟨tmplLines (pt.subscriptions_template sh rq)⟩,
        Block.other (commentOut f.lines)) rfl] at hb
    rcases List.mem_append.mp hb with hm | hm
    · exact hacc b hm
    · rcases List.mem_cons.mp hm with rfl | hm
      · exact renderOK_tmpl_fn (tmpl_subscriptions_noImport pt sh rq)
      · rw [List.mem_singleton.mp hm]
        exact renderOK_commentOut hx.1 (fun l hl => (hx.2 l hl).1)
  | page f =>
    rw [transStep_fn pt sh rq acc (Block.page f)
      (Block.page ⟨tmplLines (pt.page_template sh rq)⟩,
        Block.other (commentOut f.lines)) rfl] at hb
    rcases List.mem_append.mp hb with hm | hm
    · exact hacc b hm
    · rcases List.mem_cons.mp hm with rfl | hm
      · exact renderOK_tmpl_fn (tmpl_page_noImport pt sh rq)
      · rw [List.mem_singleton.mp hm]
        exact renderOK_commentOut hx.1 (fun l hl => (hx.2 l hl).1)
  | modl m =>
    have heq : transStep pt sh rq acc (Block.modl m) =
        Block.modl ⟨m.name, some pt.exposing_template⟩ ::
          (match extendFirst (gpName m.name) "Params".toList acc with
            | some a => a
            | none => acc ++ [Block.impt ⟨gpName m.name, some "Params".toList⟩]) := rfl
    rw [heq] at hb
    obtain ⟨hmne, hmws, hmexp⟩ := hx
    rcases List.mem_cons.mp hb with rfl | hb
    · refine renderOK_modl ⟨fun hm => absurd (hmws _ hm) (by decide), ?_⟩
      intro e he
      injection he with he
      subst he
      exact expT_no_nl pt
    · cases hef : extendFirst (gpName m.name) "Params".toList acc with
      | some a =>
        rw [hef] at hb
        obtain ⟨aa, mm, bbb, hl, hnm, _, hl'⟩ := extendFirst_some_eq _ _ _ _ hef
        subst hl'
        rcases List.mem_append.mp hb with hm | hm
        · exact hacc b (hl.symm ▸ List.mem_append.mpr (Or.inl hm))
        · rcases List.mem_cons.mp hm with rfl | hm
          · exact renderOK_merge
              (hacc _ (hl.symm ▸ List.mem_append.mpr (Or.inr (by simp)))) _ (by decide)
          · exact hacc b (hl.symm ▸ List.mem_append.mpr (Or.inr (by simp [hm])))
      | none =>
        rw [hef] at hb
        rcases List.mem_append.mp hb with hm | hm
        · exact hacc b hm
        · rw [List.mem_singleton.mp hm]
          refine renderOK_impt ⟨gpName_ne_nil _, gpName_no_ws hmws, ?_⟩
          intro e he
          injection he with he
          subst he
          decide

theorem renderOK_importPrelude_snd (p : Page) (pt : PageType) (sh rq : Bool) :
    ∀ b ∈ (importPrelude p pt sh rq).2, RenderOK b := by
  rw [importPrelude_snd_eq]
  intro b hb
  rcases List.mem_append.mp hb with hm | hm
  · rw [mem_cond_singleton hm]
    refine renderOK_impt ⟨by decide, by decide, ?_⟩
    intro e he
    exact Option.noConfusion he
  rcases List.mem_append.mp hm with hm | hm
  · rw [mem_cond_singleton hm]
    refine renderOK_impt ⟨by decide, by decide, ?_⟩
    intro e he
    injection he with he
    subst he
    decide
  rcases List.mem_append.mp hm with hm | hm
  · rw [mem_cond_singleton' hm]
    refine renderOK_impt ⟨by decide, by decide, ?_⟩
    intro e he
    injection he with he
    subst he
    decide
  · rw [mem_cond_singleton hm]
    refine renderOK_impt ⟨by decide, by decide, ?_⟩
    intro e he
    injection he with he
    subst he
    decide

theorem renderOK_backfill (pt : PageType) (sh rq : Bool) (bs : List Block)
    (hbs : ∀ b ∈ bs, RenderOK b) :
    ∀ b ∈ backfill pt sh rq bs, RenderOK b := by
  have hstep : ∀ (c : List Block → Bool) (t : Block) (l : List Block),
      (∀ b ∈ l, RenderOK b) → RenderOK t → ∀ b ∈ pushIfAbsent c t l, RenderOK b := by
    intro c t l hl ht b hb
    rcases pushIfAbsent_mem hb with hm | rfl
    · exact hl b hm
    · exact ht
  rw [backfill]
  apply hstep
  · by_cases hs : (pt != PageType.Static) = true
    · rw [if_pos hs]
      by_cases hb : (pt != PageType.Sandbox) = true
      · simp only [hb, if_true]
        apply hstep
        · apply hstep
          · apply hstep
            · apply hstep
              · apply hstep
                · apply hstep
                  · exact hbs
                  · exact renderOK_other (otxt_page_noImport pt sh rq)
                · exact renderOK_other otxt_modelAlias_noImport
              · exact renderOK_other otxt_msgType_noImport
            · exact renderOK_other (otxt_subscriptions_noImport pt sh rq)
          · exact renderOK_other (otxt_init_noImport pt sh rq)
        · exact renderOK_other (otxt_update_noImport pt sh rq)
      · simp only [Bool.not_eq_true] at hb
        simp only [hb, Bool.false_eq_true, if_false]
        apply hstep
        · apply hstep
          · apply hstep
            · apply hstep
              · apply hstep
                · exact hbs
                · exact renderOK_other (otxt_page_noImport pt sh rq)
              · exact renderOK_other otxt_modelAlias_noImport
            · exact renderOK_other otxt_msgType_noImport
          · exact renderOK_other (otxt_init_noImport pt sh rq)
        · exact renderOK_other (otxt_update_noImport pt sh rq)
    · rw [if_neg hs]
      apply hstep
      · exact hbs
      · exact renderOK_other (otxt_page_noImport pt sh rq)
  · exact renderOK_other (otxt_view_noImport pt sh rq)

theorem renderOK_to (p : Page) (pt : PageType) (sh rq : Bool)
    (hp : ∀ b ∈ p.blocks, ParsedOK b) :
    ∀ b ∈ (p.to pt sh rq).blocks, RenderOK b := by
  show ∀ b ∈ backfill pt sh rq
      ((importPrelude p pt sh rq).1.foldl (transStep pt sh rq) (importPrelude p pt sh rq).2),
    RenderOK b
  apply renderOK_backfill
  exact foldl_preserve (transStep pt sh rq) (fun acc => ∀ b ∈ acc, RenderOK b)
    (importPrelude p pt sh rq).1
    (fun acc x hx hacc =>
      renderOK_transStep pt sh rq acc x (parsedOK_importPrelude_fst hp x hx) hacc)
    (importPrelude p pt sh rq).2
    (renderOK_importPrelude_snd p pt sh rq)

/-- The number of import lines of the given module name in the output of a
second transformation run, the intermediate page being rendered and
re-parsed exactly as the program does between runs. -/
def secondRunCount (text : Str) (pt : PageType) (sh rq : Bool) (nm : Str) :
    Except Str Nat :=
  match Page.parse text with
  | .error e => .error e
  | .ok p =>
    match Page.parse (Page.render (p.to pt sh rq)) with
    | .error e => .error e
    | .ok r => .ok (countImp nm (r.to pt sh rq).blocks)

/-- C6 counterexample: re-transforming the parsed render of a transformed
page can leave a managed import name (`Shared`, with the shared toggle on)
appearing twice among the output's import blocks, because pre-existing
duplicates are preserved, never collapsed. -/
theorem c6_counterexample :
    secondRunCount "import Shared\nimport Shared".toList PageType.Static true false
      "Shared".toList = .ok 2 := rfl

/-- C6 (amended): for a parsed page, a transform run followed by render,
re-parse and a second transform run with the same archetype and toggles
introduces no new duplicate of the managed import names `Shared`, `Request`,
`Page` and `Effect`: each such name occurs in the final output at most once,
unless the original page already imported it more than once, and then at most
as often as the original page did. -/
theorem c6_reimport_no_new_duplicates (text : Str) (p : Page) (pt : PageType)
    (sh rq : Bool) (nm : Str)
    (hmem : nm = "Shared".toList ∨ nm = "Request".toList ∨ nm = "Page".toList ∨
      nm = "Effect".toList)
    (hp : Page.parse text = .ok p)
    (r : Page) (hr : Page.parse (Page.render (p.to pt sh rq)) = .ok r) :
    countImp nm (r.to pt sh rq).blocks ≤ max 1 (countImp nm p.blocks) := by
  have h1 := countImp_to_le r pt sh rq nm hmem
  have h2 : countImp nm r.blocks ≤ countImp nm (p.to pt sh rq).blocks :=
    parse_render_count nm _ (renderOK_to p pt sh rq (page_parse_parsedOK hp)) r hr
  have h3 := countImp_to_le p pt sh rq nm hmem
  omega

theorem c6_witness :
    Page.parse "x".toList = .ok (Page.mk [Block.other "x".toList]) ∧
    Page.parse (Page.render ((Page.mk [Block.other "x".toList]).to PageType.Static false false))
      = .ok (Page.mk [
          Block.impt ⟨"Page".toList, some "Page".toList⟩,
          Block.other "x".toList,
          Block.page ⟨["page : Shared.Model -> Request.With Params -> Page".toList,
            "page shared req =".toList,
            "    Page.static".toList,
            "        \x7b view = view".toList,
            "        \x7d".toList,
            []]⟩,
          Block.view ⟨["view :   View msg".toList,
            "view   =".toList,
            "    View.placeholder \"Hello World\"".toList,
            []]⟩]) ∧
    countImp "Shared".toList
        ((Page.mk [
          Block.impt ⟨"Page".toList, some "Page".toList⟩,
          Block.other "x".toList,
          Block.page ⟨["page : Shared.Model -> Request.With Params -> Page".toList,
            "page shared req =".toList,
            "    Page.static".toList,
            "        \x7b view = view".toList,
            "        \x7d".toList,
            []]⟩,
          Block.view ⟨["view :   View msg".toList,
            "view   =".toList,
            "    View.placeholder \"Hello World\"".toList,
            []]⟩]).to PageType.Static false false).blocks ≤
      max 1 (countImp "Shared".toList (Page.mk [Block.other "x".toList]).blocks) :=
  ⟨rfl, rfl,
    c6_reimport_no_new_duplicates "x".toList (Page.mk [Block.other "x".toList])
      PageType.Static false false "Shared".toList (Or.inl rfl) rfl
      (Page.mk [
          Block.impt ⟨"Page".toList, some "Page".toList⟩,
          Block.other "x".toList,
          Block.page ⟨["page : Shared.Model -> Request.With Params -> Page".toList,
            "page shared req =".toList,
            "    Page.static".toList,
            "        \x7b view = view".toList,
            "        \x7d".toList,
            []]⟩,
          Block.view ⟨["view :   View msg".toList,
            "view   =".toList,
            "    View.placeholder \"Hello World\"".toList,
            []]⟩]) rfl⟩

/-! ### The function-block scanning discipline (claim C8) -/

theorem bool_ne_true {b : Bool} (h : b = false) : ¬ (b = true) := by
  simp [h]

theorem parseLinesF_fn_branch (w : Str) (r : Str) (ls : List Str)
    (hww : ∀ c ∈ w, isWsChar c = false) (hwne : w ≠ []) :
    (splitWs (w ++ ' ' :: r)).head? = some w ∧
    EFunction.parse (w ++ ' ' :: r) ls =
      .ok (⟨(w ++ ' ' :: r) :: ls.takeWhile (contLine w)⟩, ls.dropWhile (contLine w)) := by
  have hhd : (splitWs (w ++ ' ' :: r)).head? = some w := by
    rw [splitWs_kw w r hwne hww]
    rfl
  refine ⟨hhd, ?_⟩
  unfold EFunction.parse
  rw [hhd]
  show (Except.ok (EFunction.mk ((w ++ ' ' :: r) :: (absorbGo w ls).1), (absorbGo w ls).2) :
      Except Str (EFunction × List Str)) = _
  rw [absorbGo_eq]

/-- C8 (amended): the scanner opens a function block for a line carrying the
literal keyword-plus-space prefix (`init `, `update `, `view `,
`subscriptions ` or `page `), not merely a keyword first token: the bare
keyword line is classified `Other`. On such a line the function's name is the
line's first whitespace token, i.e. the keyword word itself; the following
lines absorbed into the block are exactly the maximal run satisfying the
continuation test (blank, leading space or tab, or `name ` prefix), and the
first violating line is left for the next scan iteration. Any additional
clause line starting with `name ` passes the continuation test, so
consecutive clauses of the same function land in one block. -/
theorem c8_function_scan (kw nmw : Str) (mk : EFunction → Block)
    (hcase :
      (kw = kwInit ∧ nmw = "init".toList ∧ mk = Block.init) ∨
      (kw = kwUpdate ∧ nmw = "update".toList ∧ mk = Block.update) ∨
      (kw = kwView ∧ nmw = "view".toList ∧ mk = Block.view) ∨
      (kw = kwSubscriptions ∧ nmw = "subscriptions".toList ∧ mk = Block.subscriptions) ∨
      (kw = kwPage ∧ nmw = "page".toList ∧ mk = Block.page))
    (l : Str) (ls : List Str) (fuel : Nat) (hl : kw.isPrefixOf l = true) :
    (splitWs l).head? = some nmw ∧
    parseLinesF (fuel + 1) (l :: ls) =
      (parseLinesF fuel (ls.dropWhile (contLine nmw))).map
        (mk ⟨l :: ls.takeWhile (contLine nmw)⟩ :: ·) ∧
    ∀ x, (nmw ++ [' ']).isPrefixOf x = true → contLine nmw x = true := by
  have hcont : ∀ (x : Str), (nmw ++ [' ']).isPrefixOf x = true → contLine nmw x = true := by
    intro x hx
    rw [contLine, hx]
    simp
  rcases hcase with ⟨rfl, rfl, rfl⟩ | ⟨rfl, rfl, rfl⟩ | ⟨rfl, rfl, rfl⟩ |
    ⟨rfl, rfl, rfl⟩ | ⟨rfl, rfl, rfl⟩
  · obtain ⟨r, rfl⟩ := List.isPrefixOf_iff_prefix.mp hl
    have hform : kwInit ++ r = "init".toList ++ ' ' :: r := rfl
    rw [hform] at hl ⊢
    obtain ⟨hhd, hpar⟩ := parseLinesF_fn_branch "init".toList r ls (by decide) (by decide)
    refine ⟨hhd, ?_, hcont⟩
    simp only [parseLinesF]
    rw [if_neg (bool_ne_true (prefix_excl (p := kwModule) hl (by decide) (by decide))),
      if_neg (bool_ne_true (prefix_excl (p := kwImport) hl (by decide) (by decide))),
      if_pos hl, hpar]
  · obtain ⟨r, rfl⟩ := List.isPrefixOf_iff_prefix.mp hl
    have hform : kwUpdate ++ r = "update".toList ++ ' ' :: r := rfl
    rw [hform] at hl ⊢
    obtain ⟨hhd, hpar⟩ := parseLinesF_fn_branch "update".toList r ls (by decide) (by decide)
    refine ⟨hhd, ?_, hcont⟩
    simp only [parseLinesF]
    rw [if_neg (bool_ne_true (prefix_excl (p := kwModule) hl (by decide) (by decide))),
      if_neg (bool_ne_true (prefix_excl (p := kwImport) hl (by decide) (by decide))),
      if_neg (bool_ne_true (prefix_excl (p := kwInit) hl (by decide) (by decide))),
      if_pos hl, hpar]
  · obtain ⟨r, rfl⟩ := List.isPrefixOf_iff_prefix.mp hl
    have hform : kwView ++ r = "view".toList ++ ' ' :: r := rfl
    rw [hform] at hl ⊢
    obtain ⟨hhd, hpar⟩ := parseLinesF_fn_branch "view".toList r ls (by decide) (by decide)
    refine ⟨hhd, ?_, hcont⟩
    simp only [parseLinesF]
    rw [if_neg (bool_ne_true (prefix_excl (p := kwModule) hl (by decide) (by decide))),
      if_neg (bool_ne_true (prefix_excl (p := kwImport) hl (by decide) (by decide))),
      if_neg (bool_ne_true (prefix_excl (p := kwInit) hl (by decide) (by decide))),
      if_neg (bool_ne_true (prefix_excl (p := kwUpdate) hl (by decide) (by decide))),
      if_pos hl, hpar]
  · obtain ⟨r, rfl⟩ := List.isPrefixOf_iff_prefix.mp hl
    have hform : kwSubscriptions ++ r = "subscriptions".toList ++ ' ' :: r := rfl
    rw [hform] at hl ⊢
    obtain ⟨hhd, hpar⟩ :=
      parseLinesF_fn_branch "subscriptions".toList r ls (by decide) (by decide)
    refine ⟨hhd, ?_, hcont⟩
    simp only [parseLinesF]
    rw [if_neg (bool_ne_true (prefix_excl (p := kwModule) hl (by decide) (by decide))),
      if_neg (bool_ne_true (prefix_excl (p := kwImport) hl (by decide) (by decide))),
      if_neg (bool_ne_true (prefix_excl (p := kwInit) hl (by decide) (by decide))),
      if_neg (bool_ne_true (prefix_excl (p := kwUpdate) hl (by decide) (by decide))),
      if_neg (bool_ne_true (prefix_excl (p := kwView) hl (by decide) (by decide))),
      if_pos hl, hpar]
  · obtain ⟨r, rfl⟩ := List.isPrefixOf_iff_prefix.mp hl
    have hform : kwPage ++ r = "page".toList ++ ' ' :: r := rfl
    rw [hform] at hl ⊢
    obtain ⟨hhd, hpar⟩ := parseLinesF_fn_branch "page".toList r ls (by decide) (by decide)
    refine ⟨hhd, ?_, hcont⟩
    simp only [parseLinesF]
    rw [if_neg (bool_ne_true (prefix_excl (p := kwModule) hl (by decide) (by decide))),
      if_neg (bool_ne_true (prefix_excl (p := kwImport) hl (by decide) (by decide))),
      if_neg (bool_ne_true (prefix_excl (p := kwInit) hl (by decide) (by decide))),
      if_neg (bool_ne_true (prefix_excl (p := kwUpdate) hl (by decide) (by decide))),
      if_neg (bool_ne_true (prefix_excl (p := kwView) hl (by decide) (by decide))),
      if_neg (bool_ne_true (prefix_excl (p := kwSubscriptions) hl (by decide) (by decide))),
      if_pos hl, hpar]

/-- C8 counterexample: a bare `init` line has the recognized keyword as its
first whitespace token, yet the scanner classifies it `Other`: dispatch
requires the literal `init ` (keyword plus space) line prefix. -/
theorem c8_counterexample :
    (splitWs "init".toList).head? = some "init".toList ∧
    Page.parse "init".toList = .ok (Page.mk [Block.other "init".toList]) :=
  ⟨rfl, rfl⟩

theorem c8_witness :
    (splitWs "update a".toList).head? = some "update".toList ∧
    parseLinesF 3 ["update a".toList, "update b".toList, "x y".toList] =
      (parseLinesF 2 (["update b".toList, "x y".toList].dropWhile
          (contLine "update".toList))).map
        (Block.update ⟨"update a".toList ::
          ["update b".toList, "x y".toList].takeWhile (contLine "update".toList)⟩ :: ·) ∧
    contLine "update".toList "update b".toList = true :=
  ⟨(c8_function_scan kwUpdate "update".toList Block.update (Or.inr (Or.inl ⟨rfl, rfl, rfl⟩))
      "update a".toList ["update b".toList, "x y".toList] 2 (by decide)).1,
   (c8_function_scan kwUpdate "update".toList Block.update (Or.inr (Or.inl ⟨rfl, rfl, rfl⟩))
      "update a".toList ["update b".toList, "x y".toList] 2 (by decide)).2.1,
   (c8_function_scan kwUpdate "update".toList Block.update (Or.inr (Or.inl ⟨rfl, rfl, rfl⟩))
      "update a".toList ["update b".toList, "x y".toList] 2 (by decide)).2.2
     "update b".toList (by decide)⟩

/-! ### Round-tripping well-formed declaration pages (claim C3) -/

/-- Well-formedness of a module/import declaration descriptor under which its
rendered line parses back to exactly the same descriptor. -/
def WfDecl (m : EModule) : Prop :=
  m.name ≠ [] ∧ (∀ c ∈ m.name, isWsChar c = false) ∧ '(' ∉ m.name ∧
    (m.exposing_ = none → containsSeq "exposing".toList m.name = false) ∧
    (∀ e, m.exposing_ = some e → '\n' ∉ e ∧ ')' ∉ e)

/-- A recognized declaration block that round-trips exactly. -/
def WfBlock : Block → Prop
  | .modl m => WfDecl m
  | .impt m => WfDecl m
  | _ => False

theorem EModule_parse_none (w nm : Str) (rest : List Str)
    (hwne : w ≠ []) (hww : ∀ c ∈ w, isWsChar c = false)
    (hne : nm ≠ []) (hws : ∀ c ∈ nm, isWsChar c = false)
    (hcs : containsSeq "exposing".toList (w ++ ' ' :: nm) = false) :
    EModule.parse (w ++ ' ' :: nm) rest = .ok (⟨nm, none⟩, rest) := by
  have htok : (splitWs (w ++ ' ' :: nm)).get? 1 = some nm := by
    rw [splitWs_kw w nm hwne hww, swGo_last nm [] hws, if_neg (by simpa using hne)]
    rfl
  unfold EModule.parse
  rw [htok]
  simp only [hcs, Bool.false_eq_true, if_false]

theorem EModule_parse_some (w nm e : Str) (rest : List Str)
    (hwne : w ≠ []) (hww : ∀ c ∈ w, isWsChar c = false) (hwp : '(' ∉ w)
    (hne : nm ≠ []) (hws : ∀ c ∈ nm, isWsChar c = false) (hnp : '(' ∉ nm)
    (hep : ')' ∉ e) :
    EModule.parse (w ++ ' ' :: (nm ++ ' ' :: ("exposing (".toList ++ (e ++ [')'])))) rest =
      .ok (⟨nm, some e⟩, rest) := by
  have htok : (splitWs (w ++ ' ' :: (nm ++ ' ' ::
      ("exposing (".toList ++ (e ++ [')']))))).get? 1 = some nm := by
    rw [splitWs_kw w _ hwne hww,
      swGo_run nm ("exposing (".toList ++ (e ++ [')'])) [] hws,
      if_neg (by simpa using hne)]
    rfl
  have hinf : "exposing".toList <:+:
      w ++ ' ' :: (nm ++ ' ' :: ("exposing (".toList ++ (e ++ [')']))) := by
    refine ⟨w ++ ' ' :: (nm ++ [' ']), ' ' :: '(' :: (e ++ [')']), ?_⟩
    simp only [List.append_assoc, List.cons_append, List.singleton_append]
    rfl
  have hcs : containsSeq "exposing".toList
      (w ++ ' ' :: (nm ++ ' ' :: ("exposing (".toList ++ (e ++ [')'])))) = true :=
    (containsSeq_iff _ _).mpr hinf
  have hend : endsParen
      (w ++ ' ' :: (nm ++ ' ' :: ("exposing (".toList ++ (e ++ [')'])))) = true := by
    rw [endsParen, show w ++ ' ' :: (nm ++ ' ' :: ("exposing (".toList ++ (e ++ [')']))) =
        (w ++ ' ' :: (nm ++ ' ' :: ("exposing (".toList ++ e))) ++ [')'] from by
      simp only [List.append_assoc, List.cons_append]]
    rw [List.getLast?_concat]
    rfl
  have hA : ∀ c ∈ w ++ ' ' :: (nm ++ ' ' :: "exposing ".toList), (c != '(') = true := by
    intro c hc
    have hcne : c ≠ '(' := by
      rcases List.mem_append.mp hc with h | h
      · intro hcc
        subst hcc
        exact hwp h
      · rcases List.mem_cons.mp h with rfl | h
        · decide
        · rcases List.mem_append.mp h with h | h
          · intro hcc
            subst hcc
            exact hnp h
          · rcases List.mem_cons.mp h with rfl | h
            · decide
            · revert h
              have : ∀ x ∈ "exposing ".toList, x ≠ '(' := by decide
              intro h
              exact this c h
    simpa using hcne
  have he0 : (((w ++ ' ' :: (nm ++ ' ' :: ("exposing (".toList ++ (e ++ [')'])))).dropWhile
        (fun c => c != '(')).drop 1).takeWhile (fun c => c != ')') = e := by
    rw [show w ++ ' ' :: (nm ++ ' ' :: ("exposing (".toList ++ (e ++ [')']))) =
        (w ++ ' ' :: (nm ++ ' ' :: "exposing ".toList)) ++ '(' :: (e ++ [')']) from by
      simp only [List.append_assoc, List.cons_append]
      rfl]
    rw [dropWhile_append_all hA, List.dropWhile_cons, if_neg (by decide)]
    show (e ++ [')']).takeWhile (fun c => c != ')') = e
    have hE : ∀ c ∈ e, (c != ')') = true := by
      intro c hc
      have hcne : c ≠ ')' := fun hcc => hep (hcc ▸ hc)
      simpa using hcne
    rw [takeWhile_append_all hE, List.takeWhile_cons, if_neg (by decide), List.append_nil]
  unfold EModule.parse
  rw [htok]
  simp only [hcs, hend, he0, eq_self_iff_true, if_true]

/-- The single physical line of a rendered declaration block. -/
def declLine : Block → Str
  | .modl m => EModule.renderWith "module ".toList m
  | .impt m => EModule.renderWith "import ".toList m
  | _ => []

theorem renderWith_no_nl {m : EModule} (kw : Str) (hkw : '\n' ∉ kw)
    (hws : ∀ c ∈ m.name, isWsChar c = false)
    (hexp : ∀ e, m.exposing_ = some e → '\n' ∉ e) :
    '\n' ∉ EModule.renderWith kw m := by
  unfold EModule.renderWith
  cases hexm : m.exposing_ with
  | none =>
    intro hm
    rcases List.mem_append.mp hm with h | h
    · exact hkw h
    · exact absurd (hws _ h) (by decide)
  | some e =>
    intro hm
    simp only [List.append_assoc, List.mem_append, List.mem_singleton] at hm
    rcases hm with h | h | h | h | h
    · exact hkw h
    · exact absurd (hws _ h) (by decide)
    · exact absurd h (by decide)
    · exact hexp e hexm h
    · exact absurd h (by decide)

theorem renderWith_clean {m : EModule} (kw : Str)
    (hne : m.name ≠ []) (hws : ∀ c ∈ m.name, isWsChar c = false) :
    trimEnd (stripCr (EModule.renderWith kw m)) = EModule.renderWith kw m := by
  rw [trimEnd_stripCr]
  unfold EModule.renderWith
  cases hexm : m.exposing_ with
  | none => exact trimEnd_eq_self (getLast_nonWs_of_name hne hws kw)
  | some e =>
    apply trimEnd_eq_self
    intro c hc
    rw [List.getLast?_concat] at hc
    injection hc with hc
    subst hc
    decide

theorem declLine_lines : ∀ {b : Block}, WfBlock b →
    (linesRs (Block.render b)).map trimEnd = [declLine b] := by
  intro b hw
  cases b with
  | init f => exact absurd hw id
  | update f => exact absurd hw id
  | view f => exact absurd hw id
  | subscriptions f => exact absurd hw id
  | page f => exact absurd hw id
  | other t => exact absurd hw id
  | modl m =>
    obtain ⟨hne, hws, _, _, hexp⟩ := hw
    show (linesRs (EModule.renderWith "module ".toList m ++ ['\n'])).map trimEnd = _
    rw [linesRs_single (renderWith_no_nl _ (by decide) hws (fun e he => (hexp e he).1)),
      List.map_cons, List.map_nil, renderWith_clean _ hne hws]
    rfl
  | impt m =>
    obtain ⟨hne, hws, _, _, hexp⟩ := hw
    show (linesRs (EModule.renderWith "import ".toList m ++ ['\n'])).map trimEnd = _
    rw [linesRs_single (renderWith_no_nl _ (by decide) hws (fun e he => (hexp e he).1)),
      List.map_cons, List.map_nil, renderWith_clean _ hne hws]
    rfl

theorem lines_render_decls : ∀ (bs : List Block), (∀ b ∈ bs, WfBlock b) →
    (linesRs (bs.flatMap Block.render)).map trimEnd = bs.map declLine := by
  intro bs
  induction bs with
  | nil => intro _; rfl
  | cons b bs ih =>
    intro h
    rw [List.flatMap_cons, linesRs_append _ _ (render_getLast b), List.map_append,
      declLine_lines (h b (by simp)), ih (fun x hx => h x (by simp [hx])), List.map_cons]
    rfl

theorem parseLinesF_decls : ∀ (bs : List Block), (∀ b ∈ bs, WfBlock b) →
    ∀ (fuel : Nat), bs.length ≤ fuel → parseLinesF fuel (bs.map declLine) = .ok bs := by
  intro bs
  induction bs with
  | nil =>
    intro _ fuel _
    cases fuel <;> rfl
  | cons b bs ih =>
    intro hw fuel hlen
    cases fuel with
    | zero => exact absurd hlen (by simp)
    | succ fuel =>
      have hwb := hw b (by simp)
      have hih := ih (fun x hx => hw x (by simp [hx])) fuel (by simpa using hlen)
      cases b with
      | init f => exact hwb.elim
      | update f => exact hwb.elim
      | view f => exact hwb.elim
      | subscriptions f => exact hwb.elim
      | page f => exact hwb.elim
      | other t => exact hwb.elim
      | modl m =>
        obtain ⟨nm, ex⟩ := m
        obtain ⟨hne, hws, hnp, hcsn, hexp⟩ := hwb
        cases hexm : ex with
        | none =>
          subst hexm
          have hren : declLine (Block.modl ⟨nm, none⟩) = "module".toList ++ ' ' :: nm := rfl
          show parseLinesF (fuel + 1) (declLine (Block.modl ⟨nm, none⟩) :: bs.map declLine)
            = _
          rw [hren]
          simp only [parseLinesF]
          rw [if_pos (List.isPrefixOf_iff_prefix.mpr ⟨nm, rfl⟩ :
            kwModule.isPrefixOf ("module".toList ++ ' ' :: nm) = true)]
          have hcs : containsSeq "exposing".toList ("module".toList ++ ' ' :: nm) = false :=
            hcsn rfl
          rw [EModule_parse_none "module".toList nm (bs.map declLine)
            (by decide) (by decide) hne hws hcs]
          show (parseLinesF fuel (bs.map declLine)).map (Block.modl ⟨nm, none⟩ :: ·) = _
          rw [hih]
          rfl
        | some e =>
          subst hexm
          obtain ⟨henl, hep⟩ := hexp e rfl
          have hren : declLine (Block.modl ⟨nm, some e⟩) =
              "module".toList ++ ' ' :: (nm ++ ' ' :: ("exposing (".toList ++ (e ++ [')'])))
              := by
            show EModule.renderWith "module ".toList ⟨nm, some e⟩ = _
            unfold EModule.renderWith
            simp only [List.append_assoc]
            rfl
          show parseLinesF (fuel + 1) (declLine (Block.modl ⟨nm, some e⟩) :: bs.map declLine)
            = _
          rw [hren]
          simp only [parseLinesF]
          rw [if_pos (List.isPrefixOf_iff_prefix.mpr
              ⟨nm ++ ' ' :: ("exposing (".toList ++ (e ++ [')'])), rfl⟩ :
            kwModule.isPrefixOf ("module".toList ++ ' ' ::
              (nm ++ ' ' :: ("exposing (".toList ++ (e ++ [')'])))) = true)]
          rw [EModule_parse_some "module".toList nm e (bs.map declLine)
            (by decide) (by decide) (by decide) hne hws hnp hep]
          show (parseLinesF fuel (bs.map declLine)).map (Block.modl ⟨nm, some e⟩ :: ·) = _
          rw [hih]
          rfl
      | impt m =>
        obtain ⟨nm, ex⟩ := m
        obtain ⟨hne, hws, hnp, hcsn, hexp⟩ := hwb
        cases hexm : ex with
        | none =>
          subst hexm
          have hren : declLine (Block.impt ⟨nm, none⟩) = "import".toList ++ ' ' :: nm := rfl
          show parseLinesF (fuel + 1) (declLine (Block.impt ⟨nm, none⟩) :: bs.map declLine)
            = _
          rw [hren]
          have hq : kwImport.isPrefixOf ("import".toList ++ ' ' :: nm) = true :=
            List.isPrefixOf_iff_prefix.mpr ⟨nm, rfl⟩
          simp only [parseLinesF]
          rw [if_neg (bool_ne_true (prefix_excl (p := kwModule) hq (by decide) (by decide))),
            if_pos hq]
          have hcs : containsSeq "exposing".toList ("import".toList ++ ' ' :: nm) = false :=
            hcsn rfl
          rw [EModule_parse_none "import".toList nm (bs.map declLine)
            (by decide) (by decide) hne hws hcs]
          show (parseLinesF fuel (bs.map declLine)).map (Block.impt ⟨nm, none⟩ :: ·) = _
          rw [hih]
          rfl
        | some e =>
          subst hexm
          obtain ⟨henl, hep⟩ := hexp e rfl
          have hren : declLine (Block.impt ⟨nm, some e⟩) =
              "import".toList ++ ' ' :: (nm ++ ' ' :: ("exposing (".toList ++ (e ++ [')'])))
              := by
            show EModule.renderWith "import ".toList ⟨nm, some e⟩ = _
            unfold EModule.renderWith
            simp only [List.append_assoc]
            rfl
          show parseLinesF (fuel + 1) (declLine (Block.impt ⟨nm, some e⟩) :: bs.map declLine)
            = _
          rw [hren]
          have hq : kwImport.isPrefixOf ("import".toList ++ ' ' ::
              (nm ++ ' ' :: ("exposing (".toList ++ (e ++ [')'])))) = true :=
            List.isPrefixOf_iff_prefix.mpr
              ⟨nm ++ ' ' :: ("exposing (".toList ++ (e ++ [')'])), rfl⟩
          simp only [parseLinesF]
          rw [if_neg (bool_ne_true (prefix_excl (p := kwModule) hq (by decide) (by decide))),
            if_pos hq]
          rw [EModule_parse_some "import".toList nm e (bs.map declLine)
            (by decide) (by decide) (by decide) hne hws hnp hep]
          show (parseLinesF fuel (bs.map declLine)).map (Block.impt ⟨nm, some e⟩ :: ·) = _
          rw [hih]
          rfl

theorem page_parse_render_id (p : Page) (hw : ∀ b ∈ p.blocks, WfBlock b) :
    Page.parse (Page.render p) = .ok p := by
  simp only [Page.parse, Page.render]
  rw [lines_render_decls p.blocks hw]
  rw [parseLinesF_decls p.blocks hw _ (by rw [List.length_map]; omega)]
  rfl

/-- C3 counterexample: a page holding a single well-formed recognized `init`
function block (one trimmed newline-free line, exactly as the scanner itself
would produce) does not render stably: re-parsing absorbs the rendered blank
separator lines into new blocks and the second render gains blank lines. -/
theorem c3_counterexample :
    ParsedOK (Block.init ⟨["init x".toList]⟩) ∧
    (Page.parse (Page.render (Page.mk [Block.init ⟨["init x".toList]⟩]))).map Page.render
      = .ok "\n\ninit x\n\n\n".toList ∧
    Page.render (Page.mk [Block.init ⟨["init x".toList]⟩]) = "\ninit x\n\n".toList ∧
    "\n\ninit x\n\n\n".toList ≠ "\ninit x\n\n".toList :=
  ⟨⟨by decide, by decide⟩, rfl, rfl, by decide⟩

/-- C3 (amended): rendering is stable under re-parsing for pages of
well-formed module/import declaration blocks only: for such a page the parse
of the render is exactly the page, so `render (parse (render p)) = render p`.
Pages containing rendered function blocks are excluded: their rendered blank
separator lines are absorbed differently on re-parse and the second render
grows. -/
theorem c3_round_trip (p : Page) (hw : ∀ b ∈ p.blocks, WfBlock b) :
    Page.parse (Page.render p) = .ok p ∧
    (Page.parse (Page.render p)).map Page.render = .ok (Page.render p) := by
  have h := page_parse_render_id p hw
  refine ⟨h, ?_⟩
  rw [h]
  rfl

theorem c3_witness :
    Page.parse (Page.render (Page.mk
      [Block.modl ⟨"Pages.Home".toList, some "page".toList⟩,
       Block.impt ⟨"Shared".toList, none⟩,
       Block.impt ⟨"Page".toList, some "Page, Model".toList⟩])) =
      .ok (Page.mk
      [Block.modl ⟨"Pages.Home".toList, some "page".toList⟩,
       Block.impt ⟨"Shared".toList, none⟩,
       Block.impt ⟨"Page".toList, some "Page, Model".toList⟩]) ∧
    (Page.parse (Page.render (Page.mk
      [Block.modl ⟨"Pages.Home".toList, some "page".toList⟩,
       Block.impt ⟨"Shared".toList, none⟩,
       Block.impt ⟨"Page".toList, some "Page, Model".toList⟩]))).map Page.render =
      .ok (Page.render (Page.mk
      [Block.modl ⟨"Pages.Home".toList, some "page".toList⟩,
       Block.impt ⟨"Shared".toList, none⟩,
       Block.impt ⟨"Page".toList, some "Page, Model".toList⟩])) :=
  c3_round_trip _ (by
    intro b hb
    rcases List.mem_cons.mp hb with rfl | hb
    · exact ⟨by decide, by decide, by decide, fun h => Option.noConfusion h,
        fun e he => by injection he with he; subst he; exact ⟨by decide, by decide⟩⟩
    rcases List.mem_cons.mp hb with rfl | hb
    · exact ⟨by decide, by decide, by decide, fun _ => by decide,
        fun e he => Option.noConfusion he⟩
    rcases List.mem_cons.mp hb with rfl | hb
    · exact ⟨by decide, by decide, by decide, fun h => Option.noConfusion h,
        fun e he => by injection he with he; subst he; exact ⟨by decide, by decide⟩⟩
    · exact absurd hb (List.not_mem_nil b))

/-! ### Which function blocks the transformation can produce (claim C5) -/

/-- Every typed function block of a transformed page carries exactly the
archetype's template lines for its kind. -/
def FnTpl (pt : PageType) (sh rq : Bool) (b : Block) : Prop :=
  (∀ f, b = Block.init f → f = ⟨tmplLines (pt.init_template sh rq)⟩) ∧
  (∀ f, b = Block.update f → f = ⟨tmplLines (pt.update_template sh rq)⟩) ∧
  (∀ f, b = Block.view f → f = ⟨tmplLines (pt.view_template sh rq)⟩) ∧
  (∀ f, b = Block.subscriptions f → f = ⟨tmplLines (pt.subscriptions_template sh rq)⟩) ∧
  (∀ f, b = Block.page f → f = ⟨tmplLines (pt.page_template sh rq)⟩)

theorem fnTpl_modl (pt : PageType) (sh rq : Bool) (m : EModule) :
    FnTpl pt sh rq (Block.modl m) :=
  ⟨fun f h => Block.noConfusion h, fun f h => Block.noConfusion h,
   fun f h => Block.noConfusion h, fun f h => Block.noConfusion h,
   fun f h => Block.noConfusion h⟩

theorem fnTpl_impt (pt : PageType) (sh rq : Bool) (m : EModule) :
    FnTpl pt sh rq (Block.impt m) :=
  ⟨fun f h => Block.noConfusion h, fun f h => Block.noConfusion h,
   fun f h => Block.noConfusion h, fun f h => Block.noConfusion h,
   fun f h => Block.noConfusion h⟩

theorem fnTpl_other (pt : PageType) (sh rq : Bool) (t : Str) :
    FnTpl pt sh rq (Block.other t) :=
  ⟨fun f h => Block.noConfusion h, fun f h => Block.noConfusion h,
   fun f h => Block.noConfusion h, fun f h => Block.noConfusion h,
   fun f h => Block.noConfusion h⟩

theorem fnTpl_repl (pt : PageType) (sh rq : Bool) (b : Block) (rc : Block × Block)
    (h : replacementPair pt sh rq b = some rc) : FnTpl pt sh rq rc.1 := by
  cases b with
  | modl m => exact absurd h (by simp [replacementPair])
  | impt m => exact absurd h (by simp [replacementPair])
  | other t => exact absurd h (by simp [replacementPair])
  | init f =>
    simp only [replacementPair, Option.some.injEq] at h
    subst h
    exact ⟨fun g hg => by injection hg with hg; exact hg.symm,
      fun g hg => Block.noConfusion hg, fun g hg => Block.noConfusion hg,
      fun g hg => Block.noConfusion hg, fun g hg => Block.noConfusion hg⟩
  | update f =>
    simp only [replacementPair, Option.some.injEq] at h
    subst h
    exact ⟨fun g hg => Block.noConfusion hg,
      fun g hg => by injection hg with hg; exact hg.symm,
      fun g hg => Block.noConfusion hg, fun g hg => Block.noConfusion hg,
      fun g hg => Block.noConfusion hg⟩
  | view f =>
    simp only [replacementPair, Option.some.injEq] at h
    subst h
    exact ⟨fun g hg => Block.noConfusion hg, fun g hg => Block.noConfusion hg,
      fun g hg => by injection hg with hg; exact hg.symm,
      fun g hg => Block.noConfusion hg, fun g hg => Block.noConfusion hg⟩
  | subscriptions f =>
    simp only [replacementPair, Option.some.injEq] at h
    subst h
    exact ⟨fun g hg => Block.noConfusion hg, fun g hg => Block.noConfusion hg,
      fun g hg => Block.noConfusion hg,
      fun g hg => by injection hg with hg; exact hg.symm,
      fun g hg => Block.noConfusion hg⟩
  | page f =>
    simp only [replacementPair, Option.some.injEq] at h
    subst h
    exact ⟨fun g hg => Block.noConfusion hg, fun g hg => Block.noConfusion hg,
      fun g hg => Block.noConfusion hg, fun g hg => Block.noConfusion hg,
      fun g hg => by injection hg with hg; exact hg.symm⟩

theorem fnTpl_repl2 (pt : PageType) (sh rq : Bool) (b : Block) (rc : Block × Block)
    (h : replacementPair pt sh rq b = some rc) : FnTpl pt sh rq rc.2 := by
  cases b with
  | modl m => exact absurd h (by simp [replacementPair])
  | impt m => exact absurd h (by simp [replacementPair])
  | other t => exact absurd h (by simp [replacementPair])
  | init f =>
    simp only [replacementPair, Option.some.injEq] at h
    subst h
    exact fnTpl_other pt sh rq _
  | update f =>
    simp only [replacementPair, Option.some.injEq] at h
    subst h
    exact fnTpl_other pt sh rq _
  | view f =>
    simp only [replacementPair, Option.some.injEq] at h
    subst h
    exact fnTpl_other pt sh rq _
  | subscriptions f =>
    simp only [replacementPair, Option.some.injEq] at h
    subst h
    exact fnTpl_other pt sh rq _
  | page f =>
    simp only [replacementPair, Option.some.injEq] at h
    subst h
    exact fnTpl_other pt sh rq _

theorem fnTpl_transStep (pt : PageType) (sh rq : Bool) (acc : List Block) (x : Block)
    (hacc : ∀ b ∈ acc, FnTpl pt sh rq b) :
    ∀ b ∈ transStep pt sh rq acc x, FnTpl pt sh rq b := by
  intro b hb
  cases hmod : x.isModl with
  | true =>
    cases x with
    | modl m =>
      have heq : transStep pt sh rq acc (Block.modl m) =
          Block.modl ⟨m.name, some pt.exposing_template⟩ ::
            (match extendFirst (gpName m.name) "Params".toList acc with
              | some a => a
              | none => acc ++ [Block.impt ⟨gpName m.name, some "Params".toList⟩]) := rfl
      rw [heq] at hb
      rcases List.mem_cons.mp hb with rfl | hb
      · exact fnTpl_modl pt sh rq _
      · cases hef : extendFirst (gpName m.name) "Params".toList acc with
        | some a =>
          rw [hef] at hb
          obtain ⟨aa, mm, bbb, hl, _, _, hl'⟩ := extendFirst_some_eq _ _ _ _ hef
          subst hl'
          rcases List.mem_append.mp hb with hm | hm
          · exact hacc b (hl.symm ▸ List.mem_append.mpr (Or.inl hm))
          · rcases List.mem_cons.mp hm with rfl | hm
            · exact fnTpl_impt pt sh rq _
            · exact hacc b (hl.symm ▸ List.mem_append.mpr (Or.inr (by simp [hm])))
        | none =>
          rw [hef] at hb
          rcases List.mem_append.mp hb with hm | hm
          · exact hacc b hm
          · rw [List.mem_singleton.mp hm]
            exact fnTpl_impt pt sh rq _
    | impt m => exact Bool.noConfusion hmod
    | other t => exact Bool.noConfusion hmod
    | init f => exact Bool.noConfusion hmod
    | update f => exact Bool.noConfusion hmod
    | view f => exact Bool.noConfusion hmod
    | subscriptions f => exact Bool.noConfusion hmod
    | page f => exact Bool.noConfusion hmod
  | false =>
    cases hrp : replacementPair pt sh rq x with
    | some rc =>
      rw [transStep_fn pt sh rq acc x rc hrp] at hb
      rcases List.mem_append.mp hb with hm | hm
      · exact hacc b hm
      · rcases List.mem_cons.mp hm with rfl | hm
        · exact fnTpl_repl pt sh rq x rc hrp
        · rw [List.mem_singleton.mp hm]
          exact fnTpl_repl2 pt sh rq x rc hrp
    | none =>
      rw [transStep_carry pt sh rq acc x hmod hrp] at hb
      rcases List.mem_append.mp hb with hm | hm
      · exact hacc b hm
      · rw [List.mem_singleton.mp hm]
        cases x with
        | modl m => exact Bool.noConfusion hmod
        | impt m => exact fnTpl_impt pt sh rq _
        | other t => exact fnTpl_other pt sh rq _
        | init f => exact absurd hrp (by simp [replacementPair])
        | update f => exact absurd hrp (by simp [replacementPair])
        | view f => exact absurd hrp (by simp [replacementPair])
        | subscriptions f => exact absurd hrp (by simp [replacementPair])
        | page f => exact absurd hrp (by simp [replacementPair])

theorem fnTpl_backfill (pt : PageType) (sh rq : Bool) (bs : List Block)
    (hbs : ∀ b ∈ bs, FnTpl pt sh rq b) :
    ∀ b ∈ backfill pt sh rq bs, FnTpl pt sh rq b := by
  have hstep : ∀ (c : List Block → Bool) (t : Block) (l : List Block),
      (∀ b ∈ l, FnTpl pt sh rq b) → FnTpl pt sh rq t →
      ∀ b ∈ pushIfAbsent c t l, FnTpl pt sh rq b := by
    intro c t l hl ht b hb
    rcases pushIfAbsent_mem hb with hm | rfl
    · exact hl b hm
    · exact ht
  rw [backfill]
  apply hstep
  · by_cases hs : (pt != PageType.Static) = true
    · rw [if_pos hs]
      by_cases hb : (pt != PageType.Sandbox) = true
      · simp only [hb, if_true]
        apply hstep
        · apply hstep
          · apply hstep
            · apply hstep
              · apply hstep
                · apply hstep
                  · exact hbs
                  · exact fnTpl_other pt sh rq _
                · exact fnTpl_other pt sh rq _
              · exact fnTpl_other pt sh rq _
            · exact fnTpl_other pt sh rq _
          · exact fnTpl_other pt sh rq _
        · exact fnTpl_other pt sh rq _
      · simp only [Bool.not_eq_true] at hb
        simp only [hb, Bool.false_eq_true, if_false]
        apply hstep
        · apply hstep
          · apply hstep
            · apply hstep
              · apply hstep
                · exact hbs
                · exact fnTpl_other pt sh rq _
              · exact fnTpl_other pt sh rq _
            · exact fnTpl_other pt sh rq _
          · exact fnTpl_other pt sh rq _
        · exact fnTpl_other pt sh rq _
    · rw [if_neg hs]
      apply hstep
      · exact hbs
      · exact fnTpl_other pt sh rq _
  · exact fnTpl_other pt sh rq _

theorem fnTpl_importPrelude_snd (p : Page) (pt : PageType) (sh rq : Bool) :
    ∀ b ∈ (importPrelude p pt sh rq).2, FnTpl pt sh rq b := by
  rw [importPrelude_snd_eq]
  intro b hb
  rcases List.mem_append.mp hb with hm | hm
  · rw [mem_cond_singleton hm]
    exact fnTpl_impt pt sh rq _
  rcases List.mem_append.mp hm with hm | hm
  · rw [mem_cond_singleton hm]
    exact fnTpl_impt pt sh rq _
  rcases List.mem_append.mp hm with hm | hm
  · rw [mem_cond_singleton' hm]
    exact fnTpl_impt pt sh rq _
  · rw [mem_cond_singleton hm]
    exact fnTpl_impt pt sh rq _

theorem fnTpl_to (p : Page) (pt : PageType) (sh rq : Bool) :
    ∀ b ∈ (p.to pt sh rq).blocks, FnTpl pt sh rq b := by
  show ∀ b ∈ backfill pt sh rq
      ((importPrelude p pt sh rq).1.foldl (transStep pt sh rq) (importPrelude p pt sh rq).2),
    FnTpl pt sh rq b
  apply fnTpl_backfill
  exact foldl_preserve (transStep pt sh rq) (fun acc => ∀ b ∈ acc, FnTpl pt sh rq b)
    (importPrelude p pt sh rq).1
    (fun acc x _ hacc => fnTpl_transStep pt sh rq acc x hacc)
    (importPrelude p pt sh rq).2
    (fnTpl_importPrelude_snd p pt sh rq)

theorem mem_pushIfAbsent_mono {c : List Block → Bool} {t : Block} {bs : List Block} {b : Block}
    (h : b ∈ bs) : b ∈ pushIfAbsent c t bs := by
  obtain ⟨xs, hxs⟩ := pushIfAbsent_append c t bs
  rw [hxs]
  exact List.mem_append.mpr (Or.inl h)

theorem exists_push {P : Block → Prop} {l : List Block} (h : ∃ b ∈ l, P b)
    (c : List Block → Bool) (t : Block) : ∃ b ∈ pushIfAbsent c t l, P b := by
  obtain ⟨b, hb, hP⟩ := h
  exact ⟨b, mem_pushIfAbsent_mono hb, hP⟩

theorem pushIfAbsent_ensures (q : Block → Bool) (t : Block) (bs : List Block) :
    ∃ b ∈ pushIfAbsent (fun l => l.any q) t bs, q b = true ∨ b = t := by
  rw [pushIfAbsent]
  by_cases h : bs.any q = true
  · rw [if_pos h]
    obtain ⟨b, hb, hq⟩ := List.any_eq_true.mp h
    exact ⟨b, hb, Or.inl hq⟩
  · rw [if_neg h]
    exact ⟨t, List.mem_append.mpr (Or.inr (by simp)), Or.inr rfl⟩

theorem presence_chain (pt : PageType) (sh rq : Bool) (m : List Block)
    (h1 : (pt != PageType.Static) = true) (h2 : (pt != PageType.Sandbox) = true) :
    (∃ b ∈ backfill pt sh rq m,
        Block.isInit b = true ∨ b = Block.other (pt.init_template sh rq)) ∧
    (∃ b ∈ backfill pt sh rq m,
        Block.isUpdate b = true ∨ b = Block.other (pt.update_template sh rq)) ∧
    (∃ b ∈ backfill pt sh rq m,
        Block.isView b = true ∨ b = Block.other (pt.view_template sh rq)) ∧
    (∃ b ∈ backfill pt sh rq m,
        Block.isSubscriptions b = true ∨ b = Block.other (pt.subscriptions_template sh rq)) ∧
    (∃ b ∈ backfill pt sh rq m,
        Block.isPageFn b = true ∨ b = Block.other (pt.page_template sh rq)) := by
  rw [backfill]
  simp only [h1, h2, if_true]
  refine ⟨?_, ?_, ?_, ?_, ?_⟩
  · exact exists_push (exists_push (pushIfAbsent_ensures _ _ _) _ _) _ _
  · exact exists_push (pushIfAbsent_ensures _ _ _) _ _
  · exact pushIfAbsent_ensures _ _ _
  · exact exists_push (exists_push (exists_push (pushIfAbsent_ensures _ _ _) _ _) _ _) _ _
  · exact exists_push (exists_push (exists_push (exists_push (exists_push (exists_push
      (pushIfAbsent_ensures _ _ _) _ _) _ _) _ _) _ _) _ _) _ _

theorem isInit_shape {b : Block} (h : Block.isInit b = true) : ∃ f, b = Block.init f := by
  cases b <;> first | exact ⟨_, rfl⟩ | exact Bool.noConfusion h

theorem isUpdate_shape {b : Block} (h : Block.isUpdate b = true) : ∃ f, b = Block.update f := by
  cases b <;> first | exact ⟨_, rfl⟩ | exact Bool.noConfusion h

theorem isView_shape {b : Block} (h : Block.isView b = true) : ∃ f, b = Block.view f := by
  cases b <;> first | exact ⟨_, rfl⟩ | exact Bool.noConfusion h

theorem isSubscriptions_shape {b : Block} (h : Block.isSubscriptions b = true) :
    ∃ f, b = Block.subscriptions f := by
  cases b <;> first | exact ⟨_, rfl⟩ | exact Bool.noConfusion h

theorem isPageFn_shape {b : Block} (h : Block.isPageFn b = true) : ∃ f, b = Block.page f := by
  cases b <;> first | exact ⟨_, rfl⟩ | exact Bool.noConfusion h

set_option maxHeartbeats 2000000 in
/-- C5 (amended): archetype completeness at the block level. For `Static`,
the back-fill phase pushes only the `page` wiring and the `view` default
(never an `init`/`update`/`subscriptions` text), and any `init`, `update` or
`subscriptions` block in the output carries the empty template (an input
block of that kind is replaced by an empty-bodied block, generating no
declaration text). For `Sandbox` the same holds for `subscriptions`. For
`Element` and `Advanced` all five kinds are present in the output, each
either as the replaced template-bodied function block or as the back-filled
template text block, with all five templates nonempty. -/
theorem c5_archetype_completeness (p : Page) (sh rq : Bool) :
    ((∀ bs, backfill PageType.Static sh rq bs =
        pushIfAbsent (fun l => l.any Block.isView)
          (Block.other (PageType.view_template PageType.Static sh rq))
          (pushIfAbsent (fun l => l.any Block.isPageFn)
            (Block.other (PageType.page_template PageType.Static sh rq)) bs)) ∧
      ∀ b ∈ (p.to PageType.Static sh rq).blocks,
        (∀ f, b = Block.init f → f.lines = []) ∧
        (∀ f, b = Block.update f → f.lines = []) ∧
        (∀ f, b = Block.subscriptions f → f.lines = [])) ∧
    ((∀ bs, backfill PageType.Sandbox sh rq bs =
        pushIfAbsent (fun l => l.any Block.isView)
          (Block.other (PageType.view_template PageType.Sandbox sh rq))
          (pushIfAbsent (fun l => l.any Block.isUpdate)
            (Block.other (PageType.update_template PageType.Sandbox sh rq))
            (pushIfAbsent (fun l => l.any Block.isInit)
              (Block.other (PageType.init_template PageType.Sandbox sh rq))
              (pushIfAbsent (fun l => l.any isMsgTypeOther) (Block.other msgTypeText)
                (pushIfAbsent (fun l => l.any isModelAliasOther) (Block.other modelAliasText)
                  (pushIfAbsent (fun l => l.any Block.isPageFn)
                    (Block.other (PageType.page_template PageType.Sandbox sh rq)) bs)))))) ∧
      ∀ b ∈ (p.to PageType.Sandbox sh rq).blocks,
        ∀ f, b = Block.subscriptions f → f.lines = []) ∧
    (∀ pt, pt = PageType.Element ∨ pt = PageType.Advanced →
      pt.init_template sh rq ≠ [] ∧ pt.update_template sh rq ≠ [] ∧
      pt.view_template sh rq ≠ [] ∧ pt.subscriptions_template sh rq ≠ [] ∧
      pt.page_template sh rq ≠ [] ∧
      (∃ b ∈ (p.to pt sh rq).blocks,
        b = Block.init ⟨tmplLines (pt.init_template sh rq)⟩ ∨
        b = Block.other (pt.init_template sh rq)) ∧
      (∃ b ∈ (p.to pt sh rq).blocks,
        b = Block.update ⟨tmplLines (pt.update_template sh rq)⟩ ∨
        b = Block.other (pt.update_template sh rq)) ∧
      (∃ b ∈ (p.to pt sh rq).blocks,
        b = Block.view ⟨tmplLines (pt.view_template sh rq)⟩ ∨
        b = Block.other (pt.view_template sh rq)) ∧
      (∃ b ∈ (p.to pt sh rq).blocks,
        b = Block.subscriptions ⟨tmplLines (pt.subscriptions_template sh rq)⟩ ∨
        b = Block.other (pt.subscriptions_template sh rq)) ∧
      (∃ b ∈ (p.to pt sh rq).blocks,
        b = Block.page ⟨tmplLines (pt.page_template sh rq)⟩ ∨
        b = Block.other (pt.page_template sh rq))) := by
  refine ⟨⟨fun bs => rfl, ?_⟩, ⟨fun bs => rfl, ?_⟩, ?_⟩
  · intro b hb
    have h := fnTpl_to p PageType.Static sh rq b hb
    have hi : tmplLines (PageType.init_template PageType.Static sh rq) = [] := by
      cases sh <;> cases rq <;> decide
    have hu : tmplLines (PageType.update_template PageType.Static sh rq) = [] := by
      cases sh <;> cases rq <;> decide
    have hs2 : tmplLines (PageType.subscriptions_template PageType.Static sh rq) = [] := by
      cases sh <;> cases rq <;> decide
    refine ⟨fun f hf => ?_, fun f hf => ?_, fun f hf => ?_⟩
    · rw [h.1 f hf]
      exact hi
    · rw [h.2.1 f hf]
      exact hu
    · rw [h.2.2.2.1 f hf]
      exact hs2
  · intro b hb f hf
    have h := fnTpl_to p PageType.Sandbox sh rq b hb
    have hs3 : tmplLines (PageType.subscriptions_template PageType.Sandbox sh rq) = [] := by
      cases sh <;> cases rq <;> decide
    rw [h.2.2.2.1 f hf]
    exact hs3
  · intro pt hpt
    have hch : (∃ b ∈ (p.to pt sh rq).blocks,
          Block.isInit b = true ∨ b = Block.other (pt.init_template sh rq)) ∧
        (∃ b ∈ (p.to pt sh rq).blocks,
          Block.isUpdate b = true ∨ b = Block.other (pt.update_template sh rq)) ∧
        (∃ b ∈ (p.to pt sh rq).blocks,
          Block.isView b = true ∨ b = Block.other (pt.view_template sh rq)) ∧
        (∃ b ∈ (p.to pt sh rq).blocks,
          Block.isSubscriptions b = true ∨
            b = Block.other (pt.subscriptions_template sh rq)) ∧
        (∃ b ∈ (p.to pt sh rq).blocks,
          Block.isPageFn b = true ∨ b = Block.other (pt.page_template sh rq)) := by
      rcases hpt with rfl | rfl
      · exact presence_chain PageType.Element sh rq _ (by decide) (by decide)
      · exact presence_chain PageType.Advanced sh rq _ (by decide) (by decide)
    obtain ⟨hci, hcu, hcv, hcs, hcp⟩ := hch
    have hne : pt.init_template sh rq ≠ [] ∧ pt.update_template sh rq ≠ [] ∧
        pt.view_template sh rq ≠ [] ∧ pt.subscriptions_template sh rq ≠ [] ∧
        pt.page_template sh rq ≠ [] := by
      rcases hpt with rfl | rfl <;> (cases sh <;> cases rq <;> exact ⟨by decide, by decide,
        by decide, by decide, by decide⟩)
    refine ⟨hne.1, hne.2.1, hne.2.2.1, hne.2.2.2.1, hne.2.2.2.2, ?_, ?_, ?_, ?_, ?_⟩
    · obtain ⟨b, hb, hq | rfl⟩ := hci
      · obtain ⟨f, rfl⟩ := isInit_shape hq
        exact ⟨_, hb, Or.inl (by rw [(fnTpl_to p pt sh rq _ hb).1 f rfl])⟩
      · exact ⟨_, hb, Or.inr rfl⟩
    · obtain ⟨b, hb, hq | rfl⟩ := hcu
      · obtain ⟨f, rfl⟩ := isUpdate_shape hq
        exact ⟨_, hb, Or.inl (by rw [(fnTpl_to p pt sh rq _ hb).2.1 f rfl])⟩
      · exact ⟨_, hb, Or.inr rfl⟩
    · obtain ⟨b, hb, hq | rfl⟩ := hcv
      · obtain ⟨f, rfl⟩ := isView_shape hq
        exact ⟨_, hb, Or.inl (by rw [(fnTpl_to p pt sh rq _ hb).2.2.1 f rfl])⟩
      · exact ⟨_, hb, Or.inr rfl⟩
    · obtain ⟨b, hb, hq | rfl⟩ := hcs
      · obtain ⟨f, rfl⟩ := isSubscriptions_shape hq
        exact ⟨_, hb, Or.inl (by rw [(fnTpl_to p pt sh rq _ hb).2.2.2.1 f rfl])⟩
      · exact ⟨_, hb, Or.inr rfl⟩
    · obtain ⟨b, hb, hq | rfl⟩ := hcp
      · obtain ⟨f, rfl⟩ := isPageFn_shape hq
        exact ⟨_, hb, Or.inl (by rw [(fnTpl_to p pt sh rq _ hb).2.2.2.2 f rfl])⟩
      · exact ⟨_, hb, Or.inr rfl⟩

theorem c5_witness :
    PageType.Element.init_template false false ≠ [] ∧
    (∃ b ∈ ((Page.mk [Block.other "x".toList]).to PageType.Element false false).blocks,
      b = Block.init ⟨tmplLines (PageType.Element.init_template false false)⟩ ∨
      b = Block.other (PageType.Element.init_template false false)) ∧
    (∀ f, Block.init ⟨[]⟩ = Block.init f → f.lines = []) :=
  ⟨((c5_archetype_completeness (Page.mk [Block.other "x".toList]) false false).2.2
      PageType.Element (Or.inl rfl)).1,
   ((c5_archetype_completeness (Page.mk [Block.other "x".toList]) false false).2.2
      PageType.Element (Or.inl rfl)).2.2.2.2.2.1,
   ((c5_archetype_completeness (Page.mk [Block.init ⟨["init x".toList]⟩]) false false).1.2
      (Block.init ⟨[]⟩) (by decide)).1⟩
